import Mathlib

/-!
# openMSX: event distribution, joystick, clock pin, SHA-1, ROM database and mapper

A shallow embedding of `src/events/EventDistributor.cc`, of the state-change
part of `src/input/Joystick.cc`, of `ClockPin`, of `src/utils/sha1.cc`, of the
lookup and the merge of `src/memory/RomDatabase.cc` and of
`src/memory/RomAscii8kB.cc`, with the properties the specification states
about them.

Modelling conventions
* an `EventListener*` is a natural number (its address), an `EventType` and a
  `Priority` are the numeric values of the enumerators, `unsigned` values are
  natural numbers;
* the registry `listeners` is a function from event type to its `PriorityMap`
  (a vector of `(priority, listener)` pairs, kept as a list);
* `assert` failing, a semaphore `down()` that can never succeed and a thrown
  C++ exception are explicit failure results;
* one thread is modelled: the execution thread together with the callbacks it
  runs.  A callback (`signalEvent`) may call back into the distributor through
  `registerEventListener`, `unregisterEventListener` and `distributeEvent`, in
  any number and order; it does not call `deliverEvents` itself, which is
  driven by the main loop;
* the `while` loop of `deliverEvents` need not end (a listener can queue a new
  event at every delivery), so it carries a bound on the number of batches.
-/

namespace openmsx

/-! ## Data model -/

abbrev EventType := Nat
abbrev Priority := Nat
abbrev ListenerId := Nat

/-- An event: the value of `getType()` and a number standing for the rest of
the object. -/
structure Event where
  type : EventType
  payload : Nat
  deriving DecidableEq, Repr

/-- The type `PriorityMap`: a vector of `(priority, listener)` pairs. -/
abbrev PriorityMap := List (Priority × ListenerId)

abbrev EventQueue := List Event

/-- The data members of `EventDistributor`: `listeners`, `scheduledEvents`
and the count of the semaphore `sem`. -/
structure EventDistributor where
  listeners : EventType → PriorityMap
  scheduledEvents : EventQueue
  sem : Nat

/-- Ways in which a call does not return normally. -/
inductive Failure where
  | assertion
  | deadlock
  | exception
  | fuel
  deriving DecidableEq, Repr

/-- The constructor `EventDistributor::EventDistributor`: empty lists, empty
queue, `sem(1)`. -/
def EventDistributor.new : EventDistributor :=
  { listeners := fun _ => [], scheduledEvents := [], sem := 1 }

/-! ## Semaphore and ScopedLock -/

/-- Modelled from the spec: class `Semaphore` (Semaphore.hh is not among the
sources), the mutex "guarding registry/queue".  `down()` takes the semaphore;
with a count of zero the single modelled thread would wait forever. -/
def semDown (d : EventDistributor) : Except Failure EventDistributor :=
  match d.sem with
  | 0 => .error .deadlock
  | n + 1 => .ok { d with sem := n }

/-- Modelled from the spec: `Semaphore::up()` releases the semaphore. -/
def semUp (d : EventDistributor) : EventDistributor :=
  { d with sem := d.sem + 1 }

/-! ## Registry operations -/

/-- The C++ library call `upper_bound(begin, end, priority, LessTupleElement<0>())`:
the position of the first entry whose priority is greater than `priority`
(the end when there is none). -/
def upper_bound : PriorityMap → Priority → Nat
  | [], _ => 0
  | p :: rest, priority =>
    if priority < p.1 then 0 else upper_bound rest priority + 1

/-- The C++ library call `find_if(begin, end, [&](v) { return v.second == &listener; })`:
the position of the first entry of `listener` (the end when there is none). -/
def find_if : PriorityMap → ListenerId → Nat
  | [], _ => 0
  | v :: rest, listener =>
    if v.2 = listener then 0 else find_if rest listener + 1

/-- The method `EventDistributor::isRegistered`, on one listener list. -/
def isRegisteredIn : PriorityMap → ListenerId → Bool
  | [], _ => false
  | p :: rest, listener =>
    if p.2 = listener then true else isRegisteredIn rest listener

/-- The method `EventDistributor::isRegistered`. -/
def isRegistered (d : EventDistributor) (type : EventType) (listener : ListenerId) : Bool :=
  isRegisteredIn (d.listeners type) listener

/-- The vector operation `priorityMap.insert(it, {priority, &listener})`. -/
def insertAt (m : PriorityMap) (it : Nat) (v : Priority × ListenerId) : PriorityMap :=
  m.take it ++ v :: m.drop it

/-- The body of `registerEventListener` on the list of one type: the
assertion loop, then the insertion at `upper_bound`. -/
def registerIn (m : PriorityMap) (listener : ListenerId) (priority : Priority) :
    Except Failure PriorityMap :=
  if isRegisteredIn m listener then .error .assertion
  else .ok (insertAt m (upper_bound m priority) (priority, listener))

/-- The body of `unregisterEventListener` on the list of one type:
`find_if`, the assertion, `erase`. -/
def unregisterIn (m : PriorityMap) (listener : ListenerId) : Except Failure PriorityMap :=
  let it := find_if m listener
  if it = m.length then .error .assertion
  else .ok (m.eraseIdx it)

/-- The method `EventDistributor::registerEventListener`. -/
def registerEventListener (d : EventDistributor) (type : EventType)
    (listener : ListenerId) (priority : Priority) : Except Failure EventDistributor :=
  match semDown d with
  | .error f => .error f
  | .ok d1 =>
    match registerIn (d1.listeners type) listener priority with
    | .error f => .error f
    | .ok m => .ok (semUp { d1 with listeners := Function.update d1.listeners type m })

/-- The method `EventDistributor::unregisterEventListener`. -/
def unregisterEventListener (d : EventDistributor) (type : EventType)
    (listener : ListenerId) : Except Failure EventDistributor :=
  match semDown d with
  | .error f => .error f
  | .ok d1 =>
    match unregisterIn (d1.listeners type) listener with
    | .error f => .error f
    | .ok m => .ok (semUp { d1 with listeners := Function.update d1.listeners type m })

/-! ## Observations

The functions below return, next to the new state, the list of the calls that
leave the component and of the queue operations, in the order they happen. -/

/-- How an invocation of `signalEvent` ended: it returned a block level, it
threw, or the program was stopped inside it (an assertion failed or a lock
could not be taken in one of the calls it made). -/
inductive Ending where
  | returned (block : Nat)
  | threw
  | stopped
  deriving DecidableEq, Repr

inductive Obs where
  /-- Line 109: `p.second->signalEvent(event)` is invoked for the listener
  `listener`, visited with priority `priority`, while the semaphore count
  is `sem`. -/
  | signalEvent (listener : ListenerId) (priority : Priority) (event : Event)
      (sem : Nat) (ending : Ending)
  /-- Line 66: `reactor.enterMainLoop()` is called while the semaphore count
  is `sem`. -/
  | enterMainLoop (sem : Nat)
  /-- Line 58: `scheduledEvents.push_back(event)`. -/
  | queued (event : Event)
  /-- Line 96: the loop over `eventsCopy` reaches `event`. -/
  | deliver (event : Event)
  deriving DecidableEq, Repr

/-! ## distributeEvent -/

/-- The method `EventDistributor::distributeEvent`.  `Reactor::enterMainLoop`
(Reactor.cc is not among the sources) is recorded as a call that leaves the
component; it does not touch the distributor. -/
def distributeEvent (d : EventDistributor) (event : Event) :
    Except Failure (EventDistributor × List Obs) :=
  match semDown d with
  | .error f => .error f
  | .ok d1 =>
    if (d1.listeners event.type).isEmpty then
      .ok (semUp d1, [])
    else
      let d2 := { d1 with scheduledEvents := d1.scheduledEvents ++ [event] }
      let d3 := semUp d2
      .ok (d3, [Obs.queued event, Obs.enterMainLoop d3.sem])

/-! ## Listeners -/

/-- A call a listener makes on the distributor from inside `signalEvent`. -/
inductive Call where
  | register (type : EventType) (listener : ListenerId) (priority : Priority)
  | unregister (type : EventType) (listener : ListenerId)
  | distribute (event : Event)
  deriving DecidableEq, Repr

/-- What `signalEvent` does at the end: return a block level or throw. -/
inductive Reply where
  | returns (block : Nat)
  | throws
  deriving DecidableEq, Repr

/-- The listeners' code: `signalEvent listener event u` gives the new state
of the world outside the distributor, the calls made on the distributor, in
order, and how the callback ends. -/
structure Listeners (σ : Type) where
  signalEvent : ListenerId → Event → σ → σ × List Call × Reply

def applyCall (d : EventDistributor) : Call → Except Failure (EventDistributor × List Obs)
  | .register type listener priority =>
    match registerEventListener d type listener priority with
    | .error f => .error f
    | .ok d1 => .ok (d1, [])
  | .unregister type listener =>
    match unregisterEventListener d type listener with
    | .error f => .error f
    | .ok d1 => .ok (d1, [])
  | .distribute event => distributeEvent d event

/-- The calls of one callback, in order; stops at the first that fails. -/
def applyCalls : List Call → EventDistributor → EventDistributor × List Obs × Option Failure
  | [], d => (d, [], none)
  | c :: cs, d =>
    match applyCall d c with
    | .error f => (d, [], some f)
    | .ok (d1, l1) =>
      let r := applyCalls cs d1
      (r.1, l1 ++ r.2.1, r.2.2)

/-! ## deliverEvents -/

/-- State of the loop over `priorityMapCopy` (lines 101-113) when it is left. -/
structure PassResult (σ : Type) where
  ed : EventDistributor
  user : σ
  blockPriority : Nat
  log : List Obs
  failure : Option Failure

/-- State at the end of the outer loops. -/
structure Run (σ : Type) where
  ed : EventDistributor
  user : σ
  log : List Obs
  failure : Option Failure

def PassResult.after {σ : Type} (l : List Obs) (r : PassResult σ) : PassResult σ :=
  { r with log := l ++ r.log }

def Run.after {σ : Type} (l : List Obs) (r : Run σ) : Run σ :=
  { r with log := l ++ r.log }

/-- Lines 101-113: the loop `for (auto& p : priorityMapCopy)`. -/
def deliverToListeners {σ : Type} (w : Listeners σ) (event : Event) :
    PriorityMap → Nat → EventDistributor → σ → PassResult σ
  | [], blockPriority, d, u => ⟨d, u, blockPriority, [], none⟩
  | p :: rest, blockPriority, d, u =>
    if isRegistered d event.type p.2 = false then
      deliverToListeners w event rest blockPriority d u
    else
      let currentPriority := p.1
      if currentPriority ≥ blockPriority then
        ⟨d, u, blockPriority, [], none⟩
      else
        match w.signalEvent p.2 event u with
        | (u1, calls, reply) =>
          match applyCalls calls d with
          | (d1, l1, some f) =>
            ⟨d1, u1, blockPriority,
              Obs.signalEvent p.2 currentPriority event d.sem .stopped :: l1, some f⟩
          | (d1, l1, none) =>
            match reply with
            | .throws =>
              ⟨d1, u1, blockPriority,
                Obs.signalEvent p.2 currentPriority event d.sem .threw :: l1, some .exception⟩
            | .returns block =>
              let here := Obs.signalEvent p.2 currentPriority event d.sem (.returned block) :: l1
              if block ≠ 0 then
                if block > currentPriority then
                  (deliverToListeners w event rest block d1 u1).after here
                else
                  ⟨d1, u1, blockPriority, here, some .assertion⟩
              else
                (deliverToListeners w event rest blockPriority d1 u1).after here

/-- Lines 97-114: the body of the loop over `eventsCopy`, for one event. -/
def deliverEvent {σ : Type} (w : Listeners σ) (event : Event)
    (d : EventDistributor) (u : σ) : Run σ :=
  let type := event.type
  let priorityMapCopy := d.listeners type
  let d1 := semUp d
  let r := deliverToListeners w event priorityMapCopy (2 ^ 32 - 1) d1 u
  match r.failure with
  | some f => ⟨r.ed, r.user, Obs.deliver event :: r.log, some f⟩
  | none =>
    match semDown r.ed with
    | .error f => ⟨r.ed, r.user, Obs.deliver event :: r.log, some f⟩
    | .ok d2 => ⟨d2, r.user, Obs.deliver event :: r.log, none⟩

/-- Lines 96-115: the loop `for (auto& event : eventsCopy)`. -/
def deliverBatch {σ : Type} (w : Listeners σ) :
    EventQueue → EventDistributor → σ → Run σ
  | [], d, u => ⟨d, u, [], none⟩
  | event :: rest, d, u =>
    let r := deliverEvent w event d u
    match r.failure with
    | some _ => r
    | none => (deliverBatch w rest r.ed r.user).after r.log

/-- Lines 92-116: the loop `while (!scheduledEvents.empty())`; `fuel` bounds
the number of batches. -/
def deliverLoop {σ : Type} (w : Listeners σ) :
    Nat → EventDistributor → σ → Run σ
  | 0, d, u =>
    if d.scheduledEvents.isEmpty then ⟨d, u, [], none⟩
    else ⟨d, u, [], some .fuel⟩
  | fuel + 1, d, u =>
    if d.scheduledEvents.isEmpty then ⟨d, u, [], none⟩
    else
      let eventsCopy := d.scheduledEvents
      let r := deliverBatch w eventsCopy { d with scheduledEvents := [] } u
      match r.failure with
      | some _ => r
      | none => (deliverLoop w fuel r.ed r.user).after r.log

/-- The method `EventDistributor::deliverEvents`.  The `ScopedLock` takes the
semaphore on entry and gives it back when the scope is left, also when it is
left by an exception; a failed assertion stops the program. -/
def deliverEvents {σ : Type} (w : Listeners σ) (fuel : Nat)
    (d : EventDistributor) (u : σ) : Run σ :=
  match semDown d with
  | .error f => ⟨d, u, [], some f⟩
  | .ok d1 =>
    let r := deliverLoop w fuel d1 u
    match r.failure with
    | none => { r with ed := semUp r.ed }
    | some .exception => { r with ed := semUp r.ed }
    | some _ => r

/-! ## Sequences of registry calls -/

/-- A call of one of the two registry mutators. -/
inductive RegOp where
  | register (type : EventType) (listener : ListenerId) (priority : Priority)
  | unregister (type : EventType) (listener : ListenerId)
  deriving DecidableEq, Repr

def applyRegOp (d : EventDistributor) : RegOp → Except Failure EventDistributor
  | .register type listener priority => registerEventListener d type listener priority
  | .unregister type listener => unregisterEventListener d type listener

/-- The calls of `ops` one after the other; an error as soon as one fails. -/
def runRegOps : List RegOp → EventDistributor → Except Failure EventDistributor
  | [], d => .ok d
  | op :: ops, d =>
    match applyRegOp d op with
    | .error f => .error f
    | .ok d1 => runRegOps ops d1

/-- Position in `ops`, counted from 1, of the last call that registers
`listener` for `type`; 0 when there is none. -/
def registrationTime : List RegOp → EventType → ListenerId → Nat
  | [], _, _ => 0
  | op :: ops, type, listener =>
    let later := registrationTime ops type listener
    if later ≠ 0 then later + 1
    else
      match op with
      | .register t l _ => if t = type ∧ l = listener then 1 else 0
      | .unregister _ _ => 0

/-- Invariant of the registry along a sequence of calls: every list is sorted
on priority, entries of equal priority are in registration order, and no
listener occurs twice. -/
def RegInv (ops : List RegOp) (d : EventDistributor) : Prop :=
  ∀ type,
    (d.listeners type).Pairwise (fun a b => a.1 ≤ b.1) ∧
    (d.listeners type).Pairwise
      (fun a b => a.1 = b.1 → registrationTime ops type a.2 < registrationTime ops type b.2) ∧
    ((d.listeners type).map Prod.snd).Nodup

/-- A sequence of registry calls used as a worked example. -/
def exampleOps : List RegOp :=
  [.register 0 5 2, .register 0 6 1, .register 0 7 2, .unregister 0 6, .register 1 5 3]

/-- The registry the worked example ends in. -/
def exampleRegistry : EventDistributor :=
  match runRegOps exampleOps EventDistributor.new with
  | .ok d => d
  | .error _ => EventDistributor.new

/-! ## Reading the list of observations -/

/-- The events the loop over `eventsCopy` reached, in order. -/
def deliveredEvents (log : List Obs) : List Event :=
  log.filterMap (fun o => match o with
    | .deliver e => some e
    | _ => none)

/-- The events pushed on `scheduledEvents`, in order. -/
def queuedEvents (log : List Obs) : List Event :=
  log.filterMap (fun o => match o with
    | .queued e => some e
    | _ => none)

/-- The semaphore counts noted at the calls that leave the component. -/
def calloutSems (log : List Obs) : List Nat :=
  log.filterMap (fun o => match o with
    | .signalEvent _ _ _ s _ => some s
    | .enterMainLoop s => some s
    | _ => none)

/-- The `(priority, listener)` entries whose `signalEvent` was invoked, in order. -/
def invoked (log : List Obs) : List (Priority × ListenerId) :=
  log.filterMap (fun o => match o with
    | .signalEvent l p _ _ _ => some (p, l)
    | _ => none)

/-- Number of invocations of `signalEvent` on `listener`. -/
def invocations (listener : ListenerId) (log : List Obs) : Nat :=
  ((invoked log).map Prod.snd).count listener

/-- An observation made inside `distributeEvent`. -/
def Obs.quiet : Obs → Bool
  | .queued _ => true
  | .enterMainLoop _ => true
  | _ => false

/-- The observation starts the delivery of the next event. -/
def Obs.isDeliver : Obs → Bool
  | .deliver _ => true
  | _ => false

/-- The observation is a `signalEvent` that returned a nonzero block level. -/
def Obs.blocks : Obs → Bool
  | .signalEvent _ _ _ _ (.returned b) => b != 0
  | _ => false

/-- The block level in force after `signalEvent` ended with `ending`. -/
def nextBlock (bp : Nat) : Ending → Nat
  | .returned b => if b ≠ 0 then b else bp
  | _ => bp

/-- Every invocation in the list is of a listener whose priority is below the
block level in force at that point; `bp` is the level in force at the start,
and each `deliver` starts again from `unsigned(-1)`. -/
def Guarded : Nat → List Obs → Prop
  | _, [] => True
  | bp, .signalEvent _ p _ _ ending :: rest => p < bp ∧ Guarded (nextBlock bp ending) rest
  | _, .deliver _ :: rest => Guarded (2 ^ 32 - 1) rest
  | bp, .queued _ :: rest => Guarded bp rest
  | bp, .enterMainLoop _ :: rest => Guarded bp rest

/-- The claim on block levels as the specification words it: within the pass
for one event (no `deliver` in between), after a call returned a nonzero
block level `B` no listener of priority `≥ B` is invoked. -/
def BlockLevelsRespected (log : List Obs) : Prop :=
  ∀ pre l p e s B mid l2 p2 e2 s2 en2 post,
    log = pre ++ Obs.signalEvent l p e s (.returned B) ::
      (mid ++ Obs.signalEvent l2 p2 e2 s2 en2 :: post) →
    B ≠ 0 → (∀ o ∈ mid, o.isDeliver = false) → ¬ p2 ≥ B

/-- The same for the block level returned last: the calls between the two
returned no nonzero block level. -/
def LastBlockLevelRespected (log : List Obs) : Prop :=
  ∀ pre l p e s B mid l2 p2 e2 s2 en2 post,
    log = pre ++ Obs.signalEvent l p e s (.returned B) ::
      (mid ++ Obs.signalEvent l2 p2 e2 s2 en2 :: post) →
    B ≠ 0 → (∀ o ∈ mid, o.isDeliver = false ∧ o.blocks = false) → ¬ p2 ≥ B

/-- A list of observations made inside `distributeEvent` calls. -/
def Quiet (log : List Obs) : Prop := ∀ o ∈ log, o.quiet = true

/-- The observation is a `signalEvent` that threw. -/
def Obs.threw : Obs → Bool
  | .signalEvent _ _ _ _ .threw => true
  | _ => false

/-- No `signalEvent` in the list threw. -/
def NoThrow (log : List Obs) : Prop := ∀ o ∈ log, o.threw = false

/-- A `signalEvent` that threw is followed by no further invocation and no
further delivery, and is what made the call fail. -/
def ThrowEnds (log : List Obs) (failure : Option Failure) : Prop :=
  ∀ pre l p e s post, log = pre ++ Obs.signalEvent l p e s .threw :: post →
    failure = some .exception ∧ Quiet post

/-- What holds of every run of the delivery loops started with semaphore count
`sem` (the lock taken): on normal return the count is `sem` again, every call
that leaves the component is made with count `sem + 1`, invocations respect
the block level in force, and a throwing `signalEvent` ends the run. -/
def RunOk {σ : Type} (sem : Nat) (r : Run σ) : Prop :=
  (r.failure = none → r.ed.sem = sem) ∧
  (∀ s ∈ calloutSems r.log, s = sem + 1) ∧
  (∀ bp, Guarded bp r.log) ∧
  ThrowEnds r.log r.failure ∧
  (r.failure = none → NoThrow r.log)

/-- The class `JoyState`: a `StateChange` with its time, the joystick number
and the two bit masks. -/
structure JoyState where
  time : Nat
  joyNum : Nat
  press : Nat
  release : Nat
  deriving DecidableEq, Repr

/-- The constructor `JoyState(time, joyNum_, press_, release_)` with its two
assertions. -/
def JoyState.new (time joyNum press release : Nat) : Except Failure JoyState :=
  if ¬ (press ≠ 0 ∨ release ≠ 0) then .error .assertion
  else if ¬ (press &&& release = 0) then .error .assertion
  else .ok ⟨time, joyNum, press, release⟩

/-- The data members of `Joystick` that the state-change code uses. -/
structure Joystick where
  joyNum : Nat
  status : Nat
  pin8 : Bool
  deriving DecidableEq, Repr

/-- The method `Joystick::createEvent`; the result lists the state changes
handed to `stateChangeDistributor.distributeNew`. -/
def Joystick.createEvent (j : Joystick) (time newStatus : Nat) :
    Except Failure (List JoyState) :=
  let diff := (j.status ^^^ newStatus) % 256
  if diff = 0 then
    .ok []
  else
    let press := (j.status &&& diff) % 256
    let release := (newStatus &&& diff) % 256
    match JoyState.new time j.joyNum press release with
    | .error f => .error f
    | .ok js => .ok [js]

/-! ## Worked examples -/

/-- The distributor after the calls `cs` on a new one. -/
def afterCalls (cs : List Call) : EventDistributor :=
  (applyCalls cs EventDistributor.new).1

/-- Listeners 10 and 11 return the block levels 2 and 3, all others return 0;
none calls back into the distributor. -/
def blockingListeners : Listeners Unit :=
  ⟨fun l _ u =>
    if l = 10 then (u, [], .returns 2)
    else if l = 11 then (u, [], .returns 3)
    else (u, [], .returns 0)⟩

/-- Listeners 10, 11 and 12 registered for type 0 with priorities 0, 1 and 2,
and one event of type 0 queued. -/
def threePriorities : EventDistributor :=
  afterCalls [.register 0 10 0, .register 0 11 1, .register 0 12 2, .distribute ⟨0, 1⟩]

/-- Listener 12 queues event `⟨0, 7⟩` the first time it is invoked (the state
counts its invocations); listener 13 throws; the others return 0. -/
def reentrantListeners : Listeners Nat :=
  ⟨fun l _ u =>
    if l = 12 then (u + 1, if u = 0 then [.distribute ⟨0, 7⟩] else [], .returns 0)
    else if l = 13 then (u, [], .throws)
    else (u, [], .returns 0)⟩

/-- Listener 12 alone registered for type 0, one event queued. -/
def oneListener : EventDistributor :=
  afterCalls [.register 0 12 2, .distribute ⟨0, 1⟩]

/-- Listeners 12, 13 and 14 registered for type 0 with priorities 2, 3 and 4,
and two events of type 0 queued. -/
def throwingSetup : EventDistributor :=
  afterCalls [.register 0 12 2, .register 0 13 3, .register 0 14 4,
    .distribute ⟨0, 1⟩, .distribute ⟨0, 2⟩]

/-- Listener 1 returns block level 3 and every other listener returns 0; none
calls back into the distributor. -/
def returnsThree : Listeners Unit :=
  ⟨fun l _ u => if l = 1 then (u, [], .returns 3) else (u, [], .returns 0)⟩

/-- Listener 1 registered at priority 1 and listener 2 at priority 2 for type
0, and one event of type 0 queued. -/
def twoListeners : EventDistributor :=
  afterCalls [.register 0 1 1, .register 0 2 2, .distribute ⟨0, 0⟩]

/-- A `StateChange` object as `signalStateChange` sees it: a `JoyState`, or an
object of another class (the `dynamic_cast` gives null). -/
inductive StateChange where
  | joyState (js : JoyState)
  | other (time : Nat)
  deriving DecidableEq, Repr

/-- The method `Joystick::signalStateChange`.  In `status & ~press` the
operands are `int`: `~press` is the 32-bit pattern `2^32 - 1 - press`; the
result is stored in a byte. -/
def Joystick.signalStateChange (j : Joystick) : StateChange → Joystick
  | .other _ => j
  | .joyState js =>
    if js.joyNum ≠ j.joyNum then j
    else { j with status := ((j.status &&& (2 ^ 32 - 1 - js.press)) ||| js.release) % 256 }

/-- The method `Joystick::stopReplay`: `createEvent(time, calcState())`, where
`live` is the byte `calcState()` reads from the host joystick. -/
def Joystick.stopReplay (j : Joystick) (time live : Nat) : Except Failure (List JoyState) :=
  j.createEvent time live

/-! ## ClockPin

`ClockPin.cc` is not among the sources: only `ClockPin.hh`, which declares the
members and the methods.  The definitions of this section follow section 4.3
of the specification.  Times and durations are tick counts. -/

/-- The class `Sha1Sum`: the array `uint32_t a[5]`. -/
structure Sha1Sum where
  a0 : Nat
  a1 : Nat
  a2 : Nat
  a3 : Nat
  a4 : Nat
  deriving DecidableEq, Repr

/-- The elements `a[0]`, ..., `a[4]` in order. -/
def Sha1Sum.words (s : Sha1Sum) : List Nat := [s.a0, s.a1, s.a2, s.a3, s.a4]

/-- Every element of `a` is a `uint32_t`. -/
def Sha1Sum.WellFormed (s : Sha1Sum) : Prop :=
  s.a0 < 2 ^ 32 ∧ s.a1 < 2 ^ 32 ∧ s.a2 < 2 ^ 32 ∧ s.a3 < 2 ^ 32 ∧ s.a4 < 2 ^ 32

instance (s : Sha1Sum) : Decidable s.WellFormed := by
  unfold Sha1Sum.WellFormed; infer_instance

/-- The function `hex(char x, const char* str)`; it throws for a character
that is no hex digit. -/
def hex (x : Nat) : Except Failure Nat :=
  if 48 ≤ x ∧ x ≤ 57 then .ok (x - 48)
  else if 97 ≤ x ∧ x ≤ 102 then .ok (x - 97 + 10)
  else if 65 ≤ x ∧ x ≤ 70 then .ok (x - 65 + 10)
  else .error .exception

/-- Lines 122-125 of `parse40`: `j` rounds of `t <<= 4; t |= hex(*p++, str)`;
the result is `t` and the advanced pointer.  Past the end of the string `*p`
reads the terminating zero. -/
def parseWord : Nat → List Nat → Nat → Except Failure (Nat × List Nat)
  | 0, p, t => .ok (t, p)
  | j + 1, p, t =>
    match hex (p.headD 0) with
    | .error f => .error f
    | .ok h => parseWord j p.tail (((t <<< 4) % 2 ^ 32) ||| h)

/-- Lines 120-127 of `parse40`: `i` rounds of the outer loop, giving the
values stored in `a`. -/
def parseWords : Nat → List Nat → Except Failure (List Nat)
  | 0, _ => .ok []
  | i + 1, p =>
    match parseWord 8 p 0 with
    | .error f => .error f
    | .ok (t, p1) =>
      match parseWords i p1 with
      | .error f => .error f
      | .ok ws => .ok (t :: ws)

/-- The method `Sha1Sum::parse40`. -/
def Sha1Sum.parse40 (str : List Nat) : Except Failure Sha1Sum :=
  match parseWords 5 str with
  | .error f => .error f
  | .ok [a0, a1, a2, a3, a4] => .ok ⟨a0, a1, a2, a3, a4⟩
  | .ok _ => .error .assertion

/-- The constructor `Sha1Sum::Sha1Sum(string_ref str)`. -/
def Sha1Sum.ofString (str : List Nat) : Except Failure Sha1Sum :=
  if str.length ≠ 40 then .error .exception
  else Sha1Sum.parse40 str

/-- The function `digit(unsigned x)`, with the result stored in a `char`. -/
def digit (x : Nat) : Nat :=
  if x < 10 then (x + 48) % 256 else (x - 10 + 97) % 256

/-- Lines 139-141 of `toString`: the eight characters for one element of `a`,
`j` running from 28 down to 0 in steps of 4. -/
def toStringWord (w : Nat) : List Nat :=
  [28, 24, 20, 16, 12, 8, 4, 0].map (fun j => digit ((w >>> j) &&& 0xf))

/-- Lines 138-142 of `toString`: the outer loop over the elements of `a`. -/
def toStringWords : List Nat → List Nat
  | [] => []
  | w :: ws => toStringWord w ++ toStringWords ws

/-- The method `Sha1Sum::toString`. -/
def Sha1Sum.toString (s : Sha1Sum) : List Nat :=
  toStringWords s.words

/-- The operator `Sha1Sum::operator==`. -/
def Sha1Sum.eq (s other : Sha1Sum) : Bool :=
  if s.a0 ≠ other.a0 then false
  else if s.a1 ≠ other.a1 then false
  else if s.a2 ≠ other.a2 then false
  else if s.a3 ≠ other.a3 then false
  else if s.a4 ≠ other.a4 then false
  else true

/-- The operator `Sha1Sum::operator<`. -/
def Sha1Sum.less (s other : Sha1Sum) : Bool :=
  if s.a0 ≠ other.a0 then decide (s.a0 < other.a0)
  else if s.a1 ≠ other.a1 then decide (s.a1 < other.a1)
  else if s.a2 ≠ other.a2 then decide (s.a2 < other.a2)
  else if s.a3 ≠ other.a3 then decide (s.a3 < other.a3)
  else decide (s.a4 < other.a4)

/-- A hex digit: `0-9`, `a-f` or `A-F`. -/
def isHexDigit (c : Nat) : Prop :=
  (48 ≤ c ∧ c ≤ 57) ∨ (97 ≤ c ∧ c ≤ 102) ∨ (65 ≤ c ∧ c ≤ 70)

instance (c : Nat) : Decidable (isHexDigit c) := by
  unfold isHexDigit; infer_instance

/-- A lower-case hex digit: `0-9` or `a-f`. -/
def isLowerHexDigit (c : Nat) : Prop :=
  (48 ≤ c ∧ c ≤ 57) ∨ (97 ≤ c ∧ c ≤ 102)

instance (c : Nat) : Decidable (isLowerHexDigit c) := by
  unfold isLowerHexDigit; infer_instance

/-- The letters `A-F` converted to lower case, other characters unchanged. -/
def toLowerHex (c : Nat) : Nat :=
  if 65 ≤ c ∧ c ≤ 70 then c + 32 else c

/-- The value of a hex digit. -/
def hexDigitValue (c : Nat) : Nat :=
  if c ≤ 57 then c - 48 else if c ≤ 70 then c - 55 else c - 87

/-- The number written by the hex digits `cs`, most significant digit first. -/
def hexNumber (cs : List Nat) : Nat :=
  cs.foldl (fun n c => 16 * n + hexDigitValue c) 0

/-- The character codes of a string. -/
def bytesOf (s : String) : List Nat := s.toList.map Char.toNat

/-- The numbers written by the first `i` groups of eight hex digits of `p`. -/
def chunkNumbers : Nat → List Nat → List Nat
  | 0, _ => []
  | i + 1, p => hexNumber (p.take 8) :: chunkNumbers i (p.drop 8)

/-! ## RomDatabase: lookup

From `src/memory/RomDatabase.cc`.  The database `db` is a vector of
`(Sha1Sum, RomInfo)` pairs; `RomInfo` is kept as a type parameter. -/

/-- The C++ library call `lower_bound(db.begin(), db.end(), sha1sum,
LessTupleElement<0>())`: the position of the first entry whose key is not less
than `sha1sum` (the end when there is none). -/
def lower_bound {ρ : Type} : List (Sha1Sum × ρ) → Sha1Sum → Nat
  | [], _ => 0
  | p :: rest, sha1sum => if p.1.less sha1sum then lower_bound rest sha1sum + 1 else 0

/-- The method `RomDatabase::fetchRomInfo`; `none` is the null pointer. -/
def fetchRomInfo {ρ : Type} (db : List (Sha1Sum × ρ)) (sha1sum : Sha1Sum) : Option ρ :=
  match db.drop (lower_bound db sha1sum) with
  | [] => none
  | it :: _ => if it.1.eq sha1sum then some it.2 else none

/-- How `SoftwareInfoTopic::execute` ends: with one of its three exceptions, or
with the result list built from the `RomInfo` found. -/
inductive SoftwareInfo (ρ : Type) where
  | wrongNumberOfParameters
  | invalidSha1
  | notFound (sha1sum : List Nat)
  | found (romInfo : ρ)

/-- The method `SoftwareInfoTopic::execute`, up to the lookup; `tokens` are
the strings of the command words. -/
def softwareInfoExecute {ρ : Type} (db : List (Sha1Sum × ρ)) (tokens : List (List Nat)) :
    SoftwareInfo ρ :=
  if tokens.length ≠ 3 then .wrongNumberOfParameters
  else
    match Sha1Sum.ofString (tokens.getD 2 []) with
    | .error _ => .invalidSha1
    | .ok sha1sum =>
      match fetchRomInfo db sha1sum with
      | none => .notFound sha1sum.toString
      | some romInfo => .found romInfo

/-- A small database used as a worked example; the `RomInfo` is a number. -/
def exampleDb : List (Sha1Sum × Nat) :=
  [(⟨0, 0, 0, 0, 5⟩, 100), (⟨0, 0, 0, 1, 0⟩, 101), (⟨7, 0, 0, 0, 0⟩, 102)]

/-! ## SHA1

From `src/utils/sha1.cc`.  A `uint8_t` is a natural number below 256, a
`uint32_t` one below `2^32`, with the reductions written out; a buffer
`(data, len)` is the list of its bytes. -/

/-- The function `rol32(value, bits)` on `uint32_t`. -/
def rol32 (value bits : Nat) : Nat :=
  ((value <<< bits) % 2 ^ 32) ||| (value >>> (32 - bits))

/-- Modelled from the spec: `Endian::readB32` (endian.hh is not among the
sources), which by its name reads four bytes as a 32-bit big-endian number;
`p` points at the first of them. -/
def readB32 (p : List Nat) : Nat :=
  p.getD 0 0 * 2 ^ 24 + p.getD 1 0 * 2 ^ 16 + p.getD 2 0 * 2 ^ 8 + p.getD 3 0

/-- The class `WorkspaceBlock`.  `raw` is the memory of `data[16]` as the
constructor's `memcpy` leaves it, 64 bytes; `data` holds the words as far as
`next0` and `next` have stored them (`transform` calls `next0(0)` to
`next0(15)` before the first `next` reads a word). -/
structure WorkspaceBlock where
  raw : List Nat
  data : List Nat
  deriving DecidableEq, Repr

/-- The constructor `WorkspaceBlock(buffer)`: `memcpy(data, buffer, sizeof(data))`. -/
def WorkspaceBlock.new (buffer : List Nat) : WorkspaceBlock :=
  ⟨buffer.take 64, List.replicate 16 0⟩

/-- The method `next0(i)`: `data[i] = Endian::readB32(&data[i]); return data[i]`. -/
def WorkspaceBlock.next0 (blk : WorkspaceBlock) (i : Nat) : Nat × WorkspaceBlock :=
  let v := readB32 (blk.raw.drop (4 * i))
  (v, { blk with data := blk.data.set i v })

/-- The method `next(i)`. -/
def WorkspaceBlock.next (blk : WorkspaceBlock) (i : Nat) : Nat × WorkspaceBlock :=
  let v := rol32
    (blk.data.getD ((i + 13) &&& 15) 0 ^^^ blk.data.getD ((i + 8) &&& 15) 0 ^^^
      blk.data.getD ((i + 2) &&& 15) 0 ^^^ blk.data.getD (i &&& 15) 0) 1
  (v, { blk with data := blk.data.set (i &&& 15) v })

/-- The method `r0(v, w, x, y, z, i)`; the result is the new `w`, the new `z`
and the block.  The sum is a `uint32_t` sum, taken modulo `2^32`. -/
def WorkspaceBlock.r0 (blk : WorkspaceBlock) (v w x y z i : Nat) : Nat × Nat × WorkspaceBlock :=
  let n := blk.next0 i
  (rol32 w 30, (z + (((w &&& (x ^^^ y)) ^^^ y) + n.1 + 0x5A827999 + rol32 v 5)) % 2 ^ 32, n.2)

/-- The method `r1(v, w, x, y, z, i)`. -/
def WorkspaceBlock.r1 (blk : WorkspaceBlock) (v w x y z i : Nat) : Nat × Nat × WorkspaceBlock :=
  let n := blk.next i
  (rol32 w 30, (z + (((w &&& (x ^^^ y)) ^^^ y) + n.1 + 0x5A827999 + rol32 v 5)) % 2 ^ 32, n.2)

/-- The method `r2(v, w, x, y, z, i)`. -/
def WorkspaceBlock.r2 (blk : WorkspaceBlock) (v w x y z i : Nat) : Nat × Nat × WorkspaceBlock :=
  let n := blk.next i
  (rol32 w 30, (z + ((w ^^^ x ^^^ y) + n.1 + 0x6ED9EBA1 + rol32 v 5)) % 2 ^ 32, n.2)

/-- The method `r3(v, w, x, y, z, i)`. -/
def WorkspaceBlock.r3 (blk : WorkspaceBlock) (v w x y z i : Nat) : Nat × Nat × WorkspaceBlock :=
  let n := blk.next i
  (rol32 w 30,
    (z + ((((w ||| x) &&& y) ||| (w &&& x)) + n.1 + 0x8F1BBCDC + rol32 v 5)) % 2 ^ 32, n.2)

/-- The method `r4(v, w, x, y, z, i)`. -/
def WorkspaceBlock.r4 (blk : WorkspaceBlock) (v w x y z i : Nat) : Nat × Nat × WorkspaceBlock :=
  let n := blk.next i
  (rol32 w 30, (z + ((w ^^^ x ^^^ y) + n.1 + 0xCA62C1D6 + rol32 v 5)) % 2 ^ 32, n.2)

/-- The five working variables of `transform`. -/
inductive Reg where
  | a
  | b
  | c
  | d
  | e
  deriving DecidableEq, Repr

/-- The values of the working variables `a`, `b`, `c`, `d`, `e`. -/
structure Regs where
  a : Nat
  b : Nat
  c : Nat
  d : Nat
  e : Nat
  deriving DecidableEq, Repr

def Regs.get (r : Regs) : Reg → Nat
  | .a => r.a
  | .b => r.b
  | .c => r.c
  | .d => r.d
  | .e => r.e

def Regs.set (r : Regs) : Reg → Nat → Regs
  | .a, n => { r with a := n }
  | .b, n => { r with b := n }
  | .c, n => { r with c := n }
  | .d, n => { r with d := n }
  | .e, n => { r with e := n }

/-- One call `block.rK(v, w, x, y, z, i)` of `transform`: the round method `K`,
the variables passed for `v`, `w`, `x`, `y`, `z`, and `i`. -/
structure RoundCall where
  kind : Nat
  v : Reg
  w : Reg
  x : Reg
  y : Reg
  z : Reg
  i : Nat
  deriving DecidableEq, Repr

/-- Lines 208-234 of `transform`: the 80 calls, in order. -/
def transformCalls : List RoundCall :=
  [
    RoundCall.mk 0 .a .b .c .d .e 0, RoundCall.mk 0 .e .a .b .c .d 1, RoundCall.mk 0 .d .e .a .b .c 2,
    RoundCall.mk 0 .c .d .e .a .b 3, RoundCall.mk 0 .b .c .d .e .a 4, RoundCall.mk 0 .a .b .c .d .e 5,
    RoundCall.mk 0 .e .a .b .c .d 6, RoundCall.mk 0 .d .e .a .b .c 7, RoundCall.mk 0 .c .d .e .a .b 8,
    RoundCall.mk 0 .b .c .d .e .a 9, RoundCall.mk 0 .a .b .c .d .e 10, RoundCall.mk 0 .e .a .b .c .d 11,
    RoundCall.mk 0 .d .e .a .b .c 12, RoundCall.mk 0 .c .d .e .a .b 13, RoundCall.mk 0 .b .c .d .e .a 14,
    RoundCall.mk 0 .a .b .c .d .e 15, RoundCall.mk 1 .e .a .b .c .d 16, RoundCall.mk 1 .d .e .a .b .c 17,
    RoundCall.mk 1 .c .d .e .a .b 18, RoundCall.mk 1 .b .c .d .e .a 19, RoundCall.mk 2 .a .b .c .d .e 20,
    RoundCall.mk 2 .e .a .b .c .d 21, RoundCall.mk 2 .d .e .a .b .c 22, RoundCall.mk 2 .c .d .e .a .b 23,
    RoundCall.mk 2 .b .c .d .e .a 24, RoundCall.mk 2 .a .b .c .d .e 25, RoundCall.mk 2 .e .a .b .c .d 26,
    RoundCall.mk 2 .d .e .a .b .c 27, RoundCall.mk 2 .c .d .e .a .b 28, RoundCall.mk 2 .b .c .d .e .a 29,
    RoundCall.mk 2 .a .b .c .d .e 30, RoundCall.mk 2 .e .a .b .c .d 31, RoundCall.mk 2 .d .e .a .b .c 32,
    RoundCall.mk 2 .c .d .e .a .b 33, RoundCall.mk 2 .b .c .d .e .a 34, RoundCall.mk 2 .a .b .c .d .e 35,
    RoundCall.mk 2 .e .a .b .c .d 36, RoundCall.mk 2 .d .e .a .b .c 37, RoundCall.mk 2 .c .d .e .a .b 38,
    RoundCall.mk 2 .b .c .d .e .a 39, RoundCall.mk 3 .a .b .c .d .e 40, RoundCall.mk 3 .e .a .b .c .d 41,
    RoundCall.mk 3 .d .e .a .b .c 42, RoundCall.mk 3 .c .d .e .a .b 43, RoundCall.mk 3 .b .c .d .e .a 44,
    RoundCall.mk 3 .a .b .c .d .e 45, RoundCall.mk 3 .e .a .b .c .d 46, RoundCall.mk 3 .d .e .a .b .c 47,
    RoundCall.mk 3 .c .d .e .a .b 48, RoundCall.mk 3 .b .c .d .e .a 49, RoundCall.mk 3 .a .b .c .d .e 50,
    RoundCall.mk 3 .e .a .b .c .d 51, RoundCall.mk 3 .d .e .a .b .c 52, RoundCall.mk 3 .c .d .e .a .b 53,
    RoundCall.mk 3 .b .c .d .e .a 54, RoundCall.mk 3 .a .b .c .d .e 55, RoundCall.mk 3 .e .a .b .c .d 56,
    RoundCall.mk 3 .d .e .a .b .c 57, RoundCall.mk 3 .c .d .e .a .b 58, RoundCall.mk 3 .b .c .d .e .a 59,
    RoundCall.mk 4 .a .b .c .d .e 60, RoundCall.mk 4 .e .a .b .c .d 61, RoundCall.mk 4 .d .e .a .b .c 62,
    RoundCall.mk 4 .c .d .e .a .b 63, RoundCall.mk 4 .b .c .d .e .a 64, RoundCall.mk 4 .a .b .c .d .e 65,
    RoundCall.mk 4 .e .a .b .c .d 66, RoundCall.mk 4 .d .e .a .b .c 67, RoundCall.mk 4 .c .d .e .a .b 68,
    RoundCall.mk 4 .b .c .d .e .a 69, RoundCall.mk 4 .a .b .c .d .e 70, RoundCall.mk 4 .e .a .b .c .d 71,
    RoundCall.mk 4 .d .e .a .b .c 72, RoundCall.mk 4 .c .d .e .a .b 73, RoundCall.mk 4 .b .c .d .e .a 74,
    RoundCall.mk 4 .a .b .c .d .e 75, RoundCall.mk 4 .e .a .b .c .d 76, RoundCall.mk 4 .d .e .a .b .c 77,
    RoundCall.mk 4 .c .d .e .a .b 78, RoundCall.mk 4 .b .c .d .e .a 79
  ]

/-- The effect of one call: `w` and `z` are passed by reference. -/
def RoundCall.exec (call : RoundCall) (s : Regs × WorkspaceBlock) : Regs × WorkspaceBlock :=
  let v := s.1.get call.v
  let w := s.1.get call.w
  let x := s.1.get call.x
  let y := s.1.get call.y
  let z := s.1.get call.z
  let r :=
    match call.kind with
    | 0 => s.2.r0 v w x y z call.i
    | 1 => s.2.r1 v w x y z call.i
    | 2 => s.2.r2 v w x y z call.i
    | 3 => s.2.r3 v w x y z call.i
    | _ => s.2.r4 v w x y z call.i
  ((s.1.set call.w r.1).set call.z r.2.1, r.2.2)

/-- The method `SHA1::transform(buffer)`, as a function of `m_state`. -/
def transform (m_state : Sha1Sum) (buffer : List Nat) : Sha1Sum :=
  let block := WorkspaceBlock.new buffer
  let vars : Regs := ⟨m_state.a0, m_state.a1, m_state.a2, m_state.a3, m_state.a4⟩
  let r := transformCalls.foldl (fun s call => call.exec s) (vars, block)
  ⟨(m_state.a0 + r.1.a) % 2 ^ 32, (m_state.a1 + r.1.b) % 2 ^ 32,
    (m_state.a2 + r.1.c) % 2 ^ 32, (m_state.a3 + r.1.d) % 2 ^ 32,
    (m_state.a4 + r.1.e) % 2 ^ 32⟩

/-- The data members of `SHA1`. -/
structure SHA1 where
  m_count : Nat
  m_state : Sha1Sum
  m_buffer : List Nat
  m_finalized : Bool
  deriving DecidableEq, Repr

/-- The constructor `SHA1::SHA1()`.  It does not initialise `m_buffer`: `junk`
is what the 64 bytes happen to hold. -/
def SHA1.new (junk : List Nat) : SHA1 :=
  ⟨0, ⟨0x67452301, 0xEFCDAB89, 0x98BADCFE, 0x10325476, 0xC3D2E1F0⟩, junk, false⟩

/-- The library call `memcpy(&dst[j], src, n)` with `src` the `n` bytes copied. -/
def memcpy (dst : List Nat) (j : Nat) (src : List Nat) : List Nat :=
  dst.take j ++ src ++ dst.drop (j + src.length)

/-- Lines 256-258 of `update`: `for (; i + 63 < len; i += 64) transform(&data[i])`
with the `uint32_t` index `i`; the result is the final `i` and `m_state`, or
nothing when `fuel` rounds did not reach the end of the loop. -/
def transformLoop (data : List Nat) : Nat → Nat → Sha1Sum → Option (Nat × Sha1Sum)
  | 0, i, m_state =>
    if (i + 63) % 2 ^ 32 < data.length then none else some (i, m_state)
  | fuel + 1, i, m_state =>
    if (i + 63) % 2 ^ 32 < data.length then
      transformLoop data fuel ((i + 64) % 2 ^ 32) (transform m_state ((data.drop i).take 64))
    else some (i, m_state)

/-- The method `SHA1::update(data, len)`; `fuel` bounds the rounds of its loop. -/
def SHA1.update (s : SHA1) (fuel : Nat) (data : List Nat) : Except Failure SHA1 :=
  if s.m_finalized then .error .assertion
  else
    let len := data.length
    let j := (s.m_count >>> 3) &&& 63
    let m_count := (s.m_count + (len <<< 3) % 2 ^ 64) % 2 ^ 64
    if j + len > 63 then
      let i := 64 - j
      let m_buffer := memcpy s.m_buffer j (data.take i)
      let m_state := transform s.m_state m_buffer
      match transformLoop data fuel i m_state with
      | none => .error .fuel
      | some (i, m_state) =>
        .ok ⟨m_count, m_state, memcpy m_buffer 0 (data.drop i), s.m_finalized⟩
    else
      .ok ⟨m_count, s.m_state, memcpy s.m_buffer j data, s.m_finalized⟩

/-- Lines 275-277 of `finalize`: `while ((m_count & 504) != 448) update("\0", 1)`. -/
def padLoop : Nat → SHA1 → Except Failure SHA1
  | 0, s => if s.m_count &&& 504 ≠ 448 then .error .fuel else .ok s
  | fuel + 1, s =>
    if s.m_count &&& 504 ≠ 448 then
      match s.update fuel [0] with
      | .error f => .error f
      | .ok s1 => padLoop fuel s1
    else .ok s

/-- Lines 269-272 of `finalize`: the eight bytes of `m_count`, most significant
first. -/
def finalcount (m_count : Nat) : List Nat :=
  (List.range 8).map (fun i => (m_count >>> ((7 - i) * 8)) % 256)

/-- The method `SHA1::finalize()`. -/
def SHA1.finalize (s : SHA1) (fuel : Nat) : Except Failure SHA1 :=
  if s.m_finalized then .error .assertion
  else
    let fc := finalcount s.m_count
    match s.update fuel [0x80] with
    | .error f => .error f
    | .ok s1 =>
      match padLoop fuel s1 with
      | .error f => .error f
      | .ok s2 =>
        match s2.update fuel fc with
        | .error f => .error f
        | .ok s3 => .ok { s3 with m_finalized := true }

/-- The method `SHA1::digest()`; the result is the digest and the object. -/
def SHA1.digest (s : SHA1) (fuel : Nat) : Except Failure (Sha1Sum × SHA1) :=
  if s.m_finalized then .ok (s.m_state, s)
  else
    match s.finalize fuel with
    | .error f => .error f
    | .ok s1 => .ok (s1.m_state, s1)

/-- The function `SHA1::calc(data, len)`. -/
def SHA1.calc (junk : List Nat) (fuel : Nat) (data : List Nat) : Except Failure Sha1Sum :=
  match (SHA1.new junk).update fuel data with
  | .error f => .error f
  | .ok s =>
    match s.digest fuel with
    | .error f => .error f
    | .ok r => .ok r.1

/-- The recipe of the class comment of `SHA1` with two calls of `update`:
construct the object, `update(a)`, `update(b)`, `digest()`. -/
def SHA1.digestAfterTwoUpdates (junk : List Nat) (fuel : Nat) (a b : List Nat) :
    Except Failure Sha1Sum :=
  match (SHA1.new junk).update fuel a with
  | .error f => .error f
  | .ok s1 =>
    match s1.update fuel b with
    | .error f => .error f
    | .ok s2 =>
      match s2.digest fuel with
      | .error f => .error f
      | .ok r => .ok r.1

/-- Lines 316-320 of `calcWithProgress`: the loop
`for (i = 0; i < NUMBER_OF_STEPS - 1; ++i)` with `n` rounds left; a round is
`sha1.update(&data[offset], stepSize); offset += stepSize`.  The call of
`reportProgress` prints a line and delivers pending events: it does not touch
`sha1`, `data` or `offset` and is left out. -/
def progressLoop (fuel : Nat) (data : List Nat) (stepSize : Nat) :
    Nat → SHA1 → Nat → Except Failure (SHA1 × Nat)
  | 0, sha1, offset => .ok (sha1, offset)
  | n + 1, sha1, offset =>
    match sha1.update fuel ((data.drop offset).take stepSize) with
    | .error f => .error f
    | .ok s1 => progressLoop fuel data stepSize n s1 (offset + stepSize)

/-- The function `SHA1::calcWithProgress(data, len, ...)`, as far as the digest
goes. -/
def SHA1.calcWithProgress (junk : List Nat) (fuel : Nat) (data : List Nat) :
    Except Failure Sha1Sum :=
  let len := data.length
  if len < 10 * 1024 * 1024 then SHA1.calc junk fuel data
  else
    let NUMBER_OF_STEPS := 100
    let stepSize := len / NUMBER_OF_STEPS
    let remainder := len % NUMBER_OF_STEPS
    match progressLoop fuel data stepSize (NUMBER_OF_STEPS - 1) (SHA1.new junk) 0 with
    | .error f => .error f
    | .ok (sha1, offset) =>
      match sha1.update fuel ((data.drop offset).take (stepSize + remainder)) with
      | .error f => .error f
      | .ok s =>
        match s.digest fuel with
        | .error f => .error f
        | .ok r => .ok r.1

/-- A buffer of `2 ^ 31` zero bytes. -/
def twoGiB : List Nat := List.replicate (2 ^ 31) 0

/-- A buffer of `2 ^ 32` zero bytes. -/
def fourGiB : List Nat := List.replicate (2 ^ 32) 0

/-! ## SHA-1 as FIPS PUB 180-1 defines it

The reference against which `SHA1::calc` is checked: padding (section 4),
the functions and constants (sections 5 and 6) and the computation of the
digest block by block (section 7).  A message is a list of bytes. -/

/-- The circular left shift `S^n(X) = (X << n) OR (X >> 32-n)` on 32-bit words. -/
def fipsS (n X : Nat) : Nat :=
  ((X <<< n) % 2 ^ 32) ||| (X >>> (32 - n))

/-- The complement of a 32-bit word. -/
def fipsNot (X : Nat) : Nat := 2 ^ 32 - 1 - X

/-- The functions `f_t(B, C, D)`. -/
def fipsF (t B C D : Nat) : Nat :=
  if t < 20 then (B &&& C) ||| (fipsNot B &&& D)
  else if t < 40 then B ^^^ C ^^^ D
  else if t < 60 then (B &&& C) ||| (B &&& D) ||| (C &&& D)
  else B ^^^ C ^^^ D

/-- The constants `K_t`. -/
def fipsK (t : Nat) : Nat :=
  if t < 20 then 0x5A827999
  else if t < 40 then 0x6ED9EBA1
  else if t < 60 then 0x8F1BBCDC
  else 0xCA62C1D6

/-- The sixteen words `W_0 .. W_15` of a 64-byte block, each from four bytes,
most significant first. -/
def fipsWords (block : List Nat) : List Nat :=
  (List.range 16).map (fun i =>
    block.getD (4 * i) 0 * 2 ^ 24 + block.getD (4 * i + 1) 0 * 2 ^ 16 +
      block.getD (4 * i + 2) 0 * 2 ^ 8 + block.getD (4 * i + 3) 0)

/-- The schedule extended by `n` words:
`W_t = S^1(W_(t-3) XOR W_(t-8) XOR W_(t-14) XOR W_(t-16))`. -/
def fipsExtend : Nat → List Nat → List Nat
  | 0, ws => ws
  | n + 1, ws =>
    let prev := fipsExtend n ws
    let t := prev.length
    prev ++ [fipsS 1 (prev.getD (t - 3) 0 ^^^ prev.getD (t - 8) 0 ^^^
      prev.getD (t - 14) 0 ^^^ prev.getD (t - 16) 0)]

/-- The words `W_0 .. W_79` of a block. -/
def fipsSchedule (block : List Nat) : List Nat :=
  fipsExtend 64 (fipsWords block)

/-- Step `t` of the main loop on `(A, B, C, D, E)`:
`TEMP = S^5(A) + f_t(B,C,D) + E + W_t + K_t; E = D; D = C; C = S^30(B); B = A;
A = TEMP`. -/
def fipsRound (W : List Nat) (st : Nat × Nat × Nat × Nat × Nat) (t : Nat) :
    Nat × Nat × Nat × Nat × Nat :=
  ((fipsS 5 st.1 + fipsF t st.2.1 st.2.2.1 st.2.2.2.1 + st.2.2.2.2 + W.getD t 0 + fipsK t)
      % 2 ^ 32,
    st.1, fipsS 30 st.2.1, st.2.2.1, st.2.2.2.1)

/-- The processing of one block `M_i`: from `H_0 .. H_4` to their new values. -/
def fipsCompress (H : Sha1Sum) (block : List Nat) : Sha1Sum :=
  let W := fipsSchedule block
  let r := (List.range 80).foldl (fipsRound W) (H.a0, H.a1, H.a2, H.a3, H.a4)
  ⟨(H.a0 + r.1) % 2 ^ 32, (H.a1 + r.2.1) % 2 ^ 32, (H.a2 + r.2.2.1) % 2 ^ 32,
    (H.a3 + r.2.2.2.1) % 2 ^ 32, (H.a4 + r.2.2.2.2) % 2 ^ 32⟩

/-- The eight bytes of a 64-bit number, most significant first. -/
def be64 (n : Nat) : List Nat :=
  [n / 2 ^ 56 % 256, n / 2 ^ 48 % 256, n / 2 ^ 40 % 256, n / 2 ^ 32 % 256,
   n / 2 ^ 24 % 256, n / 2 ^ 16 % 256, n / 2 ^ 8 % 256, n % 256]

/-- The padded message: a `1` bit, the least number of `0` bits that brings the
length to 448 modulo 512 bits, and the length of the message in bits as a
64-bit number. -/
def fipsPad (msg : List Nat) : List Nat :=
  msg ++ 0x80 :: (List.replicate ((119 - msg.length % 64) % 64) 0 ++ be64 (8 * msg.length))

/-- The blocks `M_1 .. M_n` processed in order. -/
def fipsBlocks : Nat → Sha1Sum → List Nat → Sha1Sum
  | 0, H, _ => H
  | n + 1, H, bytes => fipsBlocks n (fipsCompress H (bytes.take 64)) (bytes.drop 64)

/-- The initial values `H_0 .. H_4`. -/
def fipsInit : Sha1Sum :=
  ⟨0x67452301, 0xEFCDAB89, 0x98BADCFE, 0x10325476, 0xC3D2E1F0⟩

/-- The message digest of `msg`. -/
def fipsSha1 (msg : List Nat) : Sha1Sum :=
  fipsBlocks ((fipsPad msg).length / 64) fipsInit (fipsPad msg)

/-! ## The 80 calls of `transform`, rolled up

The calls of `transformCalls` follow a pattern: call `i` uses the round method
`kindAt i` and passes the five variables rotated `i` times. -/

/-- The round method of call `i`: `r0` for 0-15, `r1` for 16-19, `r2` for
20-39, `r3` for 40-59, `r4` for 60-79. -/
def kindAt (i : Nat) : Nat :=
  if i < 16 then 0 else if i < 20 then 1 else if i < 40 then 2 else if i < 60 then 3 else 4

/-- Call `i` of `transform` by the pattern. -/
def callAt (i : Nat) : RoundCall :=
  match i % 5 with
  | 0 => RoundCall.mk (kindAt i) .a .b .c .d .e i
  | 1 => RoundCall.mk (kindAt i) .e .a .b .c .d i
  | 2 => RoundCall.mk (kindAt i) .d .e .a .b .c i
  | 3 => RoundCall.mk (kindAt i) .c .d .e .a .b i
  | _ => RoundCall.mk (kindAt i) .b .c .d .e .a i

/-- The five variables in the order in which call `i` passes them. -/
def view (i : Nat) (r : Regs) : Nat × Nat × Nat × Nat × Nat :=
  (r.get (callAt i).v, r.get (callAt i).w, r.get (callAt i).x, r.get (callAt i).y,
    r.get (callAt i).z)

/-- Call `i` on the values `(v, w, x, y, z)`: the values for the next call. -/
def codeRound (i : Nat) (s : (Nat × Nat × Nat × Nat × Nat) × WorkspaceBlock) :
    (Nat × Nat × Nat × Nat × Nat) × WorkspaceBlock :=
  let r :=
    match kindAt i with
    | 0 => s.2.r0 s.1.1 s.1.2.1 s.1.2.2.1 s.1.2.2.2.1 s.1.2.2.2.2 i
    | 1 => s.2.r1 s.1.1 s.1.2.1 s.1.2.2.1 s.1.2.2.2.1 s.1.2.2.2.2 i
    | 2 => s.2.r2 s.1.1 s.1.2.1 s.1.2.2.1 s.1.2.2.2.1 s.1.2.2.2.2 i
    | 3 => s.2.r3 s.1.1 s.1.2.1 s.1.2.2.1 s.1.2.2.2.1 s.1.2.2.2.2 i
    | _ => s.2.r4 s.1.1 s.1.2.1 s.1.2.2.1 s.1.2.2.2.1 s.1.2.2.2.2 i
  ((r.2.1, s.1.1, r.1, s.1.2.2.1, s.1.2.2.2.1), r.2.2)

/-- The block before call `i`: its memory is `raw`, and the words stored for the
last sixteen steps are the schedule words `W`. -/
def BlockInv (W raw : List Nat) (i : Nat) (blk : WorkspaceBlock) : Prop :=
  blk.raw = raw ∧ blk.data.length = 16 ∧
    ∀ k, k < i → i ≤ k + 16 → blk.data.getD (k % 16) 0 = W.getD k 0

/-- Five 32-bit words. -/
def Words32 (st : Nat × Nat × Nat × Nat × Nat) : Prop :=
  st.1 < 2 ^ 32 ∧ st.2.1 < 2 ^ 32 ∧ st.2.2.1 < 2 ^ 32 ∧ st.2.2.2.1 < 2 ^ 32 ∧
    st.2.2.2.2 < 2 ^ 32

/-! ## What a SHA1 object has taken in -/

/-- The first `n` blocks of 64 bytes of `xs` put through `transform`, in order. -/
def absorb : Nat → Sha1Sum → List Nat → Sha1Sum
  | 0, st, _ => st
  | n + 1, st, xs => absorb n (transform st (xs.take 64)) (xs.drop 64)

/-- The object `s` after the bytes `msg` have been passed to `update`: the
count is their number in bits, `m_state` comes from the complete blocks, and
the rest of `msg` waits at the start of `m_buffer`. -/
def Absorbed (s : SHA1) (msg : List Nat) : Prop :=
  s.m_finalized = false ∧ s.m_count = 8 * msg.length ∧
    s.m_state = absorb (msg.length / 64) fipsInit msg ∧
    s.m_buffer.take (msg.length % 64) = msg.drop (64 * (msg.length / 64))

/-! ## RomAscii8kB

From `src/memory/RomAscii8kB.cc`.  A `word` address and a `byte` value are
natural numbers; the eight regions of 8kB are numbered 0 to 7. -/

/-- What a region of 8kB shows: nothing, or a block of the ROM. -/
inductive Bank where
  | unmapped
  | rom (block : Nat)
  deriving DecidableEq, Repr

/-- Modelled from the spec: the base class `Rom8kBBlocks` (RomBlocks.hh and
RomBlocks.cc are not among the sources), as far as `RomAscii8kB` uses it: what
each region maps. -/
structure RomAscii8kB where
  bank : Nat → Bank

/-- Modelled from the spec: `Rom8kBBlocks::setUnmapped(region)` (RomBlocks.cc
is not among the sources): the region maps nothing, the others stay. -/
def RomAscii8kB.setUnmapped (s : RomAscii8kB) (region : Nat) : RomAscii8kB :=
  ⟨fun r => if r = region then .unmapped else s.bank r⟩

/-- Modelled from the spec: `Rom8kBBlocks::setRom(region, block)` (RomBlocks.cc
is not among the sources): the region maps ROM block `block`, the others
stay.  `Bank.rom block` records the block number asked for; what the base
class makes of a number beyond the size of the ROM is not modelled. -/
def RomAscii8kB.setRom (s : RomAscii8kB) (region block : Nat) : RomAscii8kB :=
  ⟨fun r => if r = region then .rom block else s.bank r⟩

/-- The loop `for (int i = 2; i < 6; i++) setRom(i, 0)` of `reset`, from `i`
on; `n` bounds the rounds left. -/
def RomAscii8kB.resetLoop : Nat → Nat → RomAscii8kB → RomAscii8kB
  | 0, _, s => s
  | n + 1, i, s => if i < 6 then resetLoop n (i + 1) (s.setRom i 0) else s

/-- The method `RomAscii8kB::reset`. -/
def RomAscii8kB.reset (s : RomAscii8kB) : RomAscii8kB :=
  let s := s.setUnmapped 0
  let s := s.setUnmapped 1
  let s := RomAscii8kB.resetLoop 4 2 s
  let s := s.setUnmapped 6
  s.setUnmapped 7

/-- The method `RomAscii8kB::writeMem(address, value, time)`; `region` is a
`byte`. -/
def RomAscii8kB.writeMem (s : RomAscii8kB) (address value : Nat) : RomAscii8kB :=
  if 0x6000 ≤ address ∧ address < 0x8000 then
    let region := (((address >>> 11) &&& 3) + 2) % 256
    s.setRom region value
  else s

/-- What `getWriteCacheLine` returns: the null pointer or `unmappedWrite`. -/
inductive WriteCacheLine where
  | nullptr
  | unmappedWrite
  deriving DecidableEq, Repr

/-- The method `RomAscii8kB::getWriteCacheLine(address)`. -/
def RomAscii8kB.getWriteCacheLine (address : Nat) : WriteCacheLine :=
  if 0x6000 ≤ address ∧ address < 0x8000 then .nullptr else .unmappedWrite

/-- A cartridge with nothing mapped, as a starting point for examples. -/
def RomAscii8kB.blank : RomAscii8kB := ⟨fun _ => .unmapped⟩

/-! ## DBParser::addAllEntries

From `src/memory/RomDatabase.cc`, lines 388-457.  The vector `db` is the list
of its elements; an iterator is a position in it, `begin()` is 0 and `end()` is
the length at the time of the call.  An iterator read at or past the current
end of the vector refers to no element: the run then stops with
`pastTheEnd`. -/

/-- The operator `Sha1Sum::operator!=`: `!(*this == other)`. -/
def Sha1Sum.ne (s other : Sha1Sum) : Bool :=
  !(s.eq other)

/-- Ways in which a run over the vector does not reach its end: an iterator
that refers to no element of the vector is read, or the loop rounds given are
used up. -/
inductive IteratorFailure where
  | pastTheEnd
  | fuel
  deriving DecidableEq, Repr

/-- What the library call `sort(mid, last, LessTupleElement<0>())` requires of
a function from the range before to the range after: the same elements, with
keys not descending.  The order among equal keys is left open. -/
def SortsByKey {ρ : Type} (sort : List (Sha1Sum × ρ) → List (Sha1Sum × ρ)) : Prop :=
  ∀ l, (sort l).Perm l ∧ (sort l).Pairwise (fun x y => y.1.less x.1 = false)

/-- One step of insertion sort by key. -/
def insertByKey {ρ : Type} (x : Sha1Sum × ρ) : List (Sha1Sum × ρ) → List (Sha1Sum × ρ)
  | [] => [x]
  | y :: ys => if y.1.less x.1 then y :: insertByKey x ys else x :: y :: ys

/-- Insertion sort by key: one function that does what `sort` requires, used
for the worked examples. -/
def sortByKey {ρ : Type} : List (Sha1Sum × ρ) → List (Sha1Sum × ρ)
  | [] => []
  | x :: xs => insertByKey x (sortByKey xs)

/-- Lines 407-410, "skip initial non-duplicates":
`while (it2 != last) { if (it1->first == it2->first) break; ++it1; ++it2; }`;
the result is `(it1, it2)`. -/
def skipNonDuplicates {ρ : Type} (db : List (Sha1Sum × ρ)) (last : Nat) :
    Nat → Nat → Nat → Except IteratorFailure (Nat × Nat)
  | 0, it1, it2 => if it2 ≠ last then .error .fuel else .ok (it1, it2)
  | fuel + 1, it1, it2 =>
    if it2 ≠ last then
      match db[it1]?, db[it2]? with
      | some a, some b =>
        if a.1.eq b.1 then .ok (it1, it2)
        else skipNonDuplicates db last fuel (it1 + 1) (it2 + 1)
      | _, _ => .error .pastTheEnd
    else .ok (it1, it2)

/-- Lines 412-422, "move non-duplicates up"; the result is the vector and
`it1`.  The warning printed for a duplicate does not touch the vector and is
left out.  After `*it1 = std::move(*it2)` the element at `it2` is in a valid
but unspecified state; it is kept as it was, and is not read again before
`erase`. -/
def moveNonDuplicates {ρ : Type} (last : Nat) :
    Nat → List (Sha1Sum × ρ) → Nat → Nat → Except IteratorFailure (List (Sha1Sum × ρ) × Nat)
  | 0, db, it1, it2 => if it2 ≠ last then .error .fuel else .ok (db, it1)
  | fuel + 1, db, it1, it2 =>
    if it2 ≠ last then
      match db[it1]?, db[it2]? with
      | some a, some b =>
        if a.1.eq b.1 then moveNonDuplicates last fuel db it1 (it2 + 1)
        else
          if it1 + 1 < db.length then
            moveNonDuplicates last fuel (db.set (it1 + 1) b) (it1 + 1) (it2 + 1)
          else .error .pastTheEnd
      | _, _ => .error .pastTheEnd
    else .ok (db, it1)

/-- Lines 436-450, "while both new and old still have elements"; the result is
`(it1, it2, result)`. -/
def mergeLoop {ρ : Type} (db : List (Sha1Sum × ρ)) (mid last : Nat) :
    Nat → Nat → Nat → List (Sha1Sum × ρ) →
      Except IteratorFailure (Nat × Nat × List (Sha1Sum × ρ))
  | 0, it1, it2, result =>
    if it1 ≠ mid ∧ it2 ≠ last then .error .fuel else .ok (it1, it2, result)
  | fuel + 1, it1, it2, result =>
    if it1 ≠ mid ∧ it2 ≠ last then
      match db[it1]?, db[it2]? with
      | some a, some b =>
        if a.1.less b.1 then mergeLoop db mid last fuel (it1 + 1) it2 (result ++ [a])
        else if a.1.ne b.1 then mergeLoop db mid last fuel it1 (it2 + 1) (result ++ [b])
        else mergeLoop db mid last fuel (it1 + 1) (it2 + 1) (result ++ [a])
      | _, _ => .error .pastTheEnd
    else .ok (it1, it2, result)

/-- The library call `move(first, last, back_inserter(result))`:
`while (first != last) result.push_back(std::move(*first++))`. -/
def moveRange {ρ : Type} (db : List (Sha1Sum × ρ)) (last : Nat) :
    Nat → Nat → List (Sha1Sum × ρ) → Except IteratorFailure (List (Sha1Sum × ρ))
  | 0, first, result => if first ≠ last then .error .fuel else .ok result
  | fuel + 1, first, result =>
    if first ≠ last then
      match db[first]? with
      | some a => moveRange db last fuel (first + 1) (result ++ [a])
      | none => .error .pastTheEnd
    else .ok result

/-- The method `DBParser::addAllEntries`, as a function of `db` and
`initialSize`; the result is `db` afterwards.  `sort` is the library sort of
line 400 and `fuel` bounds the rounds of each loop.  `last` stays what it was
at the start, also after `db.erase(it1 + 1, last)` has shortened the vector. -/
def addAllEntries {ρ : Type} (sort : List (Sha1Sum × ρ) → List (Sha1Sum × ρ)) (fuel : Nat)
    (db : List (Sha1Sum × ρ)) (initialSize : Nat) :
    Except IteratorFailure (List (Sha1Sum × ρ)) :=
  let first := 0
  let last := db.length
  let mid := first + initialSize
  if mid = last then .ok db
  else
    let db := db.take mid ++ sort (db.drop mid)
    match skipNonDuplicates db last fuel mid (mid + 1) with
    | .error f => .error f
    | .ok (it1, it2) =>
      match moveNonDuplicates last fuel db it1 it2 with
      | .error f => .error f
      | .ok (db, it1) =>
        let db := db.take (it1 + 1)
        if first = mid then .ok db
        else
          match mergeLoop db mid last fuel first mid [] with
          | .error f => .error f
          | .ok (it1, it2, result) =>
            match moveRange db mid fuel it1 result with
            | .error f => .error f
            | .ok result =>
              match moveRange db last fuel it2 result with
              | .error f => .error f
              | .ok result => .ok result

/-- The elements of `a :: l` without those whose key equals the key of the
element kept before them: what the duplicate filter of `addAllEntries` leaves
of a range that starts with `a`. -/
def uniqueFrom {ρ : Type} (a : Sha1Sum × ρ) : List (Sha1Sum × ρ) → List (Sha1Sum × ρ)
  | [] => [a]
  | b :: t => if a.1.eq b.1 then uniqueFrom a t else a :: uniqueFrom b t

/-- The duplicate filter of `addAllEntries` on a whole range. -/
def uniqueByKey {ρ : Type} : List (Sha1Sum × ρ) → List (Sha1Sum × ρ)
  | [] => []
  | a :: t => uniqueFrom a t

/-- The merge of `addAllEntries` on two lists: the smaller key first, and of
two equal keys the element of the first list only. -/
def mergeByKey {ρ : Type} : List (Sha1Sum × ρ) → List (Sha1Sum × ρ) → List (Sha1Sum × ρ)
  | [], ys => ys
  | a :: xs, [] => a :: xs
  | a :: xs, b :: ys =>
    if a.1.less b.1 then a :: mergeByKey xs (b :: ys)
    else if a.1.ne b.1 then b :: mergeByKey (a :: xs) ys
    else a :: mergeByKey xs ys
termination_by xs ys => xs.length + ys.length

/-- Sorted strictly ascending by key: what the database has to be for
`lower_bound` to find every entry. -/
def StrictlySorted {ρ : Type} (db : List (Sha1Sum × ρ)) : Prop :=
  db.Pairwise (fun x y => x.1.less y.1 = true)

/-- Keys for the worked examples: the `Sha1Sum` with last word `n`. -/
def key (n : Nat) : Sha1Sum := ⟨0, 0, 0, 0, n⟩

/-- A database in the middle of parsing: one old entry, then two new entries
with the same SHA1; `initialSize` is 1. -/
def dbTwoEqualNew : List (Sha1Sum × Nat) :=
  [(key 1, 10), (key 5, 50), (key 5, 51)]

/-- A database in the middle of parsing: one old entry with key 5, then new
entries with keys 1, 1 and 5; `initialSize` is 1. -/
def dbOldKeyAmongNew : List (Sha1Sum × Nat) :=
  [(key 5, 50), (key 1, 10), (key 1, 11), (key 5, 51)]


/-! ## Registry lemmas -/

theorem isRegisteredIn_iff (m : PriorityMap) (l : ListenerId) :
    isRegisteredIn m l = true ↔ ∃ q, (q, l) ∈ m := by
  induction m with
  | nil => simp [isRegisteredIn]
  | cons v rest ih =>
    obtain ⟨q0, l0⟩ := v
    by_cases h : l0 = l
    · subst h
      simp only [isRegisteredIn, if_true, true_iff]
      exact ⟨q0, List.mem_cons_self _ _⟩
    · simp only [isRegisteredIn, h, if_false, ih, List.mem_cons, Prod.mk.injEq]
      constructor
      · rintro ⟨q, hq⟩
        exact ⟨q, Or.inr hq⟩
      · rintro ⟨q, hq | hq⟩
        · exact absurd hq.2.symm h
        · exact ⟨q, hq⟩

theorem isRegisteredIn_iff_mem_map (m : PriorityMap) (l : ListenerId) :
    isRegisteredIn m l = true ↔ l ∈ m.map Prod.snd := by
  rw [isRegisteredIn_iff]
  simp

theorem upper_bound_le (m : PriorityMap) (p : Priority) : upper_bound m p ≤ m.length := by
  induction m with
  | nil => simp [upper_bound]
  | cons v rest ih =>
    simp only [upper_bound]
    split
    · simp
    · simpa using ih

theorem upper_bound_take (m : PriorityMap) (p : Priority) :
    ∀ x ∈ m.take (upper_bound m p), x.1 ≤ p := by
  induction m with
  | nil => simp [upper_bound]
  | cons v rest ih =>
    simp only [upper_bound]
    split
    · simp
    · rename_i h
      intro x hx
      simp only [List.take_succ_cons, List.mem_cons] at hx
      rcases hx with rfl | hx
      · exact Nat.le_of_not_lt h
      · exact ih x hx

theorem upper_bound_drop (m : PriorityMap) (p : Priority)
    (hs : m.Pairwise (fun a b => a.1 ≤ b.1)) :
    ∀ x ∈ m.drop (upper_bound m p), p < x.1 := by
  induction m with
  | nil => simp [upper_bound]
  | cons v rest ih =>
    rw [List.pairwise_cons] at hs
    simp only [upper_bound]
    split
    · rename_i h
      intro x hx
      simp only [List.drop_zero, List.mem_cons] at hx
      rcases hx with rfl | hx
      · exact h
      · exact Nat.lt_of_lt_of_le h (hs.1 x hx)
    · intro x hx
      simp only [List.drop_succ_cons] at hx
      exact ih hs.2 x hx

theorem registerIn_ok {m m' : PriorityMap} {l : ListenerId} {p : Priority}
    (h : registerIn m l p = .ok m') :
    isRegisteredIn m l = false ∧
      m' = m.take (upper_bound m p) ++ (p, l) :: m.drop (upper_bound m p) := by
  unfold registerIn at h
  split at h
  · cases h
  · rename_i hn
    simp only [Except.ok.injEq] at h
    exact ⟨by simpa using hn, by rw [← h]; rfl⟩

theorem find_if_le (m : PriorityMap) (l : ListenerId) : find_if m l ≤ m.length := by
  induction m with
  | nil => simp [find_if]
  | cons v rest ih =>
    simp only [find_if]
    split
    · simp
    · simpa using ih

theorem find_if_eq_length_iff (m : PriorityMap) (l : ListenerId) :
    find_if m l = m.length ↔ isRegisteredIn m l = false := by
  induction m with
  | nil => simp [find_if, isRegisteredIn]
  | cons v rest ih =>
    by_cases h : v.2 = l
    · simp [find_if, isRegisteredIn, h]
    · simp [find_if, isRegisteredIn, h, ih]

/-- Where `find_if` stops: the entry found is the first one of the listener. -/
theorem find_if_split (m : PriorityMap) (l : ListenerId) (h : isRegisteredIn m l = true) :
    ∃ before q after, m = before ++ (q, l) :: after ∧
      isRegisteredIn before l = false ∧ find_if m l = before.length := by
  induction m with
  | nil => simp [isRegisteredIn] at h
  | cons v rest ih =>
    obtain ⟨q0, l0⟩ := v
    by_cases hv : l0 = l
    · subst hv
      exact ⟨[], q0, rest, rfl, rfl, by simp [find_if]⟩
    · have h' : isRegisteredIn rest l = true := by
        simpa [isRegisteredIn, hv] using h
      obtain ⟨before, q, after, e, hb, hf⟩ := ih h'
      refine ⟨(q0, l0) :: before, q, after, by rw [e]; rfl, ?_, ?_⟩
      · simp [isRegisteredIn, hv, hb]
      · simp [find_if, hv, hf]

theorem unregisterIn_ok {m m' : PriorityMap} {l : ListenerId}
    (h : unregisterIn m l = .ok m') :
    ∃ before q after, m = before ++ (q, l) :: after ∧
      isRegisteredIn before l = false ∧ m' = before ++ after := by
  unfold unregisterIn at h
  simp only at h
  split at h
  · cases h
  · rename_i hn
    simp only [Except.ok.injEq] at h
    have hr : isRegisteredIn m l = true := by
      by_contra hc
      exact hn ((find_if_eq_length_iff m l).2 (by simpa using hc))
    obtain ⟨before, q, after, e, hb, hf⟩ := find_if_split m l hr
    refine ⟨before, q, after, e, hb, ?_⟩
    rw [← h, hf, e]
    simp [List.eraseIdx_append_of_length_le]

theorem registerEventListener_ok {d d' : EventDistributor} {t : EventType}
    {l : ListenerId} {p : Priority} (h : registerEventListener d t l p = .ok d') :
    ∃ m', registerIn (d.listeners t) l p = .ok m' ∧
      d'.listeners = Function.update d.listeners t m' ∧
      d'.scheduledEvents = d.scheduledEvents ∧ d'.sem = d.sem ∧ 0 < d.sem := by
  unfold registerEventListener semDown at h
  cases hs : d.sem with
  | zero => simp [hs] at h
  | succ n =>
    simp only [hs] at h
    split at h
    · cases h
    · rename_i m hm
      simp only [Except.ok.injEq] at h
      subst h
      exact ⟨m, hm, rfl, rfl, rfl, Nat.succ_pos n⟩

theorem unregisterEventListener_ok {d d' : EventDistributor} {t : EventType}
    {l : ListenerId} (h : unregisterEventListener d t l = .ok d') :
    ∃ m', unregisterIn (d.listeners t) l = .ok m' ∧
      d'.listeners = Function.update d.listeners t m' ∧
      d'.scheduledEvents = d.scheduledEvents ∧ d'.sem = d.sem ∧ 0 < d.sem := by
  unfold unregisterEventListener semDown at h
  cases hs : d.sem with
  | zero => simp [hs] at h
  | succ n =>
    simp only [hs] at h
    split at h
    · cases h
    · rename_i m hm
      simp only [Except.ok.injEq] at h
      subst h
      exact ⟨m, hm, rfl, rfl, rfl, Nat.succ_pos n⟩


theorem runRegOps_append (ops : List RegOp) (op : RegOp) (d : EventDistributor) :
    runRegOps (ops ++ [op]) d =
      match runRegOps ops d with
      | .error f => .error f
      | .ok d1 => applyRegOp d1 op := by
  induction ops generalizing d with
  | nil =>
    simp only [List.nil_append, runRegOps]
    cases applyRegOp d op <;> rfl
  | cons o ops ih =>
    simp only [List.cons_append, runRegOps]
    cases applyRegOp d o with
    | error f => rfl
    | ok d1 => exact ih d1

theorem registrationTime_le (ops : List RegOp) (t : EventType) (l : ListenerId) :
    registrationTime ops t l ≤ ops.length := by
  induction ops with
  | nil => simp [registrationTime]
  | cons o ops ih =>
    simp only [registrationTime, List.length_cons]
    split
    · omega
    · cases o with
      | register t1 l1 p1 =>
        simp only
        split <;> omega
      | unregister t1 l1 => simp

theorem registrationTime_cons (o : RegOp) (ops : List RegOp) (t : EventType) (l : ListenerId) :
    registrationTime (o :: ops) t l =
      if registrationTime ops t l ≠ 0 then registrationTime ops t l + 1
      else
        match o with
        | .register t1 l1 _ => if t1 = t ∧ l1 = l then 1 else 0
        | .unregister _ _ => 0 := rfl

theorem registrationTime_append_register (ops : List RegOp) (t t1 : EventType)
    (l l1 : ListenerId) (p1 : Priority) :
    registrationTime (ops ++ [RegOp.register t1 l1 p1]) t l =
      if t1 = t ∧ l1 = l then ops.length + 1 else registrationTime ops t l := by
  induction ops with
  | nil => simp [registrationTime]
  | cons o ops ih =>
    rw [List.cons_append, registrationTime_cons, ih, registrationTime_cons]
    by_cases h : t1 = t ∧ l1 = l
    · simp [h]
    · simp only [h, if_false]

theorem registrationTime_append_unregister (ops : List RegOp) (t t1 : EventType)
    (l l1 : ListenerId) :
    registrationTime (ops ++ [RegOp.unregister t1 l1]) t l = registrationTime ops t l := by
  induction ops with
  | nil => simp [registrationTime]
  | cons o ops ih =>
    rw [List.cons_append, registrationTime_cons, ih, registrationTime_cons]

theorem regInv_register {ops : List RegOp} {d d' : EventDistributor} {t : EventType}
    {l : ListenerId} {p : Priority} (hi : RegInv ops d)
    (h : registerEventListener d t l p = .ok d') :
    RegInv (ops ++ [RegOp.register t l p]) d' := by
  obtain ⟨m', hm, hl, -, -, -⟩ := registerEventListener_ok h
  obtain ⟨hnot, hm'⟩ := registerIn_ok hm
  intro type
  obtain ⟨h1, h2, h3⟩ := hi type
  by_cases ht : type = t
  · subst ht
    have hnot' : ∀ x ∈ d.listeners type, x.2 ≠ l := by
      intro x hx hxl
      have : isRegisteredIn (d.listeners type) l = true :=
        (isRegisteredIn_iff _ _).2 ⟨x.1, by rw [← hxl]; exact hx⟩
      rw [hnot] at this
      cases this
    have htake := upper_bound_take (d.listeners type) p
    have hdrop := upper_bound_drop (d.listeners type) p h1
    have hsplit := List.take_append_drop (upper_bound (d.listeners type) p) (d.listeners type)
    generalize List.take (upper_bound (d.listeners type) p) (d.listeners type) = before at *
    generalize List.drop (upper_bound (d.listeners type) p) (d.listeners type) = after at *
    rw [hl, Function.update_same, hm']
    rw [← hsplit] at h1 h2 h3 hnot'
    rw [List.pairwise_append] at h1 h2
    refine ⟨?_, ?_, ?_⟩
    · rw [List.pairwise_append, List.pairwise_cons]
      refine ⟨h1.1, ⟨fun x hx => Nat.le_of_lt (hdrop x hx), h1.2.1⟩, ?_⟩
      intro a ha b hb
      rcases List.mem_cons.1 hb with rfl | hb
      · exact htake a ha
      · exact h1.2.2 a ha b hb
    · have keep : ∀ x ∈ before ++ after,
          registrationTime (ops ++ [RegOp.register type l p]) type x.2 =
            registrationTime ops type x.2 := by
        intro x hx
        rw [registrationTime_append_register]
        have := hnot' x hx
        simp [Ne.symm this]
      have new : registrationTime (ops ++ [RegOp.register type l p]) type l = ops.length + 1 := by
        rw [registrationTime_append_register]; simp
      rw [List.pairwise_append, List.pairwise_cons]
      refine ⟨?_, ⟨?_, ?_⟩, ?_⟩
      · refine h2.1.imp_of_mem ?_
        intro a b ha hb hab e
        rw [keep a (List.mem_append_left _ ha), keep b (List.mem_append_left _ hb)]
        exact hab e
      · intro x hx e
        have hlt := hdrop x hx
        have e' : p = x.1 := e
        exact absurd e' (Nat.ne_of_lt hlt)
      · refine h2.2.1.imp_of_mem ?_
        intro a b ha hb hab e
        rw [keep a (List.mem_append_right _ ha), keep b (List.mem_append_right _ hb)]
        exact hab e
      · intro a ha b hb e
        rcases List.mem_cons.1 hb with rfl | hb
        · rw [keep a (List.mem_append_left _ ha), new]
          exact Nat.lt_succ_of_le (registrationTime_le ops type a.2)
        · rw [keep a (List.mem_append_left _ ha), keep b (List.mem_append_right _ hb)]
          exact h2.2.2 a ha b hb e
    · rw [List.map_append, List.map_cons]
      rw [List.map_append] at h3
      refine List.Nodup.append (List.Nodup.of_append_left h3) ?_ ?_
      · rw [List.nodup_cons]
        refine ⟨?_, List.Nodup.of_append_right h3⟩
        intro hmem
        obtain ⟨x, hx, hxl⟩ := List.mem_map.1 hmem
        exact hnot' x (List.mem_append_right _ hx) hxl
      · intro a ha hb
        rcases List.mem_cons.1 hb with rfl | hb
        · obtain ⟨x, hx, hxl⟩ := List.mem_map.1 ha
          exact hnot' x (List.mem_append_left _ hx) hxl
        · exact (List.disjoint_of_nodup_append h3) ha hb
  · rw [hl, Function.update_noteq ht]
    refine ⟨h1, ?_, h3⟩
    refine h2.imp ?_
    intro a b hab e
    rw [registrationTime_append_register, registrationTime_append_register]
    have : ¬ (t = type) := fun e => ht e.symm
    simp only [this, false_and, if_false]
    exact hab e

theorem regInv_unregister {ops : List RegOp} {d d' : EventDistributor} {t : EventType}
    {l : ListenerId} (hi : RegInv ops d)
    (h : unregisterEventListener d t l = .ok d') :
    RegInv (ops ++ [RegOp.unregister t l]) d' := by
  obtain ⟨m', hm, hl, -, -, -⟩ := unregisterEventListener_ok h
  obtain ⟨before, q, after, e, -, hm'⟩ := unregisterIn_ok hm
  intro type
  obtain ⟨h1, h2, h3⟩ := hi type
  have conv : ∀ {m : PriorityMap},
      m.Pairwise (fun a b => a.1 = b.1 →
        registrationTime ops type a.2 < registrationTime ops type b.2) →
      m.Pairwise (fun a b => a.1 = b.1 →
        registrationTime (ops ++ [RegOp.unregister t l]) type a.2 <
          registrationTime (ops ++ [RegOp.unregister t l]) type b.2) := by
    intro m hp
    refine hp.imp ?_
    intro a b hab e
    rw [registrationTime_append_unregister, registrationTime_append_unregister]
    exact hab e
  by_cases ht : type = t
  · subst ht
    have hsub : List.Sublist m' (d.listeners type) := by
      rw [hm', e]
      exact List.Sublist.append_left (List.sublist_cons_self _ _) _
    rw [hl, Function.update_same]
    exact ⟨h1.sublist hsub, conv (h2.sublist hsub), h3.sublist (hsub.map _)⟩
  · rw [hl, Function.update_noteq ht]
    exact ⟨h1, conv h2, h3⟩

theorem regInv_run (ops : List RegOp) :
    ∀ d, runRegOps ops EventDistributor.new = .ok d → RegInv ops d := by
  induction ops using List.reverseRecOn with
  | nil =>
    intro d h
    simp only [runRegOps, Except.ok.injEq] at h
    subst h
    intro type
    simp [EventDistributor.new]
  | append_singleton ops op ih =>
    intro d h
    rw [runRegOps_append] at h
    cases hr : runRegOps ops EventDistributor.new with
    | error f => rw [hr] at h; cases h
    | ok d1 =>
      rw [hr] at h
      simp only at h
      cases op with
      | register t l p => exact regInv_register (ih d1 hr) h
      | unregister t l => exact regInv_unregister (ih d1 hr) h


theorem distributeEvent_ok {d d' : EventDistributor} {event : Event} {log : List Obs}
    (h : distributeEvent d event = .ok (d', log)) :
    d'.listeners = d.listeners ∧ d'.sem = d.sem ∧ 0 < d.sem ∧
      ((d.listeners event.type = [] ∧ d'.scheduledEvents = d.scheduledEvents ∧ log = []) ∨
       (d.listeners event.type ≠ [] ∧ d'.scheduledEvents = d.scheduledEvents ++ [event] ∧
          log = [Obs.queued event, Obs.enterMainLoop d.sem])) := by
  unfold distributeEvent semDown at h
  cases hs : d.sem with
  | zero => simp [hs] at h
  | succ n =>
    simp only [hs] at h
    split at h
    · rename_i he
      simp only [Except.ok.injEq, Prod.mk.injEq] at h
      obtain ⟨h1, h2⟩ := h
      subst h1 h2
      refine ⟨rfl, rfl, Nat.succ_pos n, Or.inl ⟨?_, rfl, rfl⟩⟩
      simpa [List.isEmpty_iff] using he
    · rename_i he
      simp only [Except.ok.injEq, Prod.mk.injEq] at h
      obtain ⟨h1, h2⟩ := h
      subst h1 h2
      refine ⟨rfl, rfl, Nat.succ_pos n, Or.inr ⟨?_, rfl, rfl⟩⟩
      simpa [List.isEmpty_iff] using he

theorem distributeEvent_total (d : EventDistributor) (event : Event) (hs : 0 < d.sem) :
    ∃ d' log, distributeEvent d event = .ok (d', log) := by
  unfold distributeEvent semDown
  cases h : d.sem with
  | zero => omega
  | succ n =>
    simp only
    split
    · exact ⟨_, _, rfl⟩
    · exact ⟨_, _, rfl⟩

theorem registerEventListener_total (d : EventDistributor) (t : EventType) (l : ListenerId)
    (p : Priority) (hs : 0 < d.sem) (hn : isRegisteredIn (d.listeners t) l = false) :
    ∃ d', registerEventListener d t l p = .ok d' := by
  unfold registerEventListener semDown
  cases h : d.sem with
  | zero => omega
  | succ n =>
    simp only [registerIn, hn]
    exact ⟨_, rfl⟩

theorem registerEventListener_assert (d : EventDistributor) (t : EventType) (l : ListenerId)
    (p : Priority) (hs : 0 < d.sem) (hn : isRegisteredIn (d.listeners t) l = true) :
    registerEventListener d t l p = .error .assertion := by
  unfold registerEventListener semDown
  cases h : d.sem with
  | zero => omega
  | succ n => simp only [registerIn, hn]; rfl

theorem unregisterEventListener_total (d : EventDistributor) (t : EventType) (l : ListenerId)
    (hs : 0 < d.sem) (hn : isRegisteredIn (d.listeners t) l = true) :
    ∃ d', unregisterEventListener d t l = .ok d' := by
  unfold unregisterEventListener semDown
  cases h : d.sem with
  | zero => omega
  | succ n =>
    have hne : find_if (d.listeners t) l ≠ (d.listeners t).length := by
      intro e
      rw [(find_if_eq_length_iff _ _).1 e] at hn
      cases hn
    simp only [unregisterIn, hne, if_false]
    exact ⟨_, rfl⟩

theorem unregisterEventListener_assert (d : EventDistributor) (t : EventType) (l : ListenerId)
    (hs : 0 < d.sem) (hn : isRegisteredIn (d.listeners t) l = false) :
    unregisterEventListener d t l = .error .assertion := by
  unfold unregisterEventListener semDown
  cases h : d.sem with
  | zero => omega
  | succ n =>
    have he := (find_if_eq_length_iff _ _).2 hn
    simp only [unregisterIn, he, if_true]


/-! ## The loop over the listeners of one event: case analysis -/

section Pass

variable {σ : Type} (w : Listeners σ) (event : Event)

theorem deliverToListeners_nil (bp : Nat) (d : EventDistributor) (u : σ) :
    deliverToListeners w event [] bp d u = ⟨d, u, bp, [], none⟩ := rfl

theorem deliverToListeners_skip (p : Priority × ListenerId) (rest : PriorityMap) (bp : Nat)
    (d : EventDistributor) (u : σ) (h : isRegistered d event.type p.2 = false) :
    deliverToListeners w event (p :: rest) bp d u = deliverToListeners w event rest bp d u := by
  rw [deliverToListeners]
  simp only [h, if_true]

theorem deliverToListeners_break (p : Priority × ListenerId) (rest : PriorityMap) (bp : Nat)
    (d : EventDistributor) (u : σ) (h : isRegistered d event.type p.2 = true)
    (hb : p.1 ≥ bp) :
    deliverToListeners w event (p :: rest) bp d u = ⟨d, u, bp, [], none⟩ := by
  rw [deliverToListeners]
  simp only [h, hb, if_true]
  simp

theorem deliverToListeners_stopped (p : Priority × ListenerId) (rest : PriorityMap) (bp : Nat)
    (d : EventDistributor) (u : σ) (h : isRegistered d event.type p.2 = true)
    (hb : p.1 < bp) {u1 : σ} {calls : List Call} {reply : Reply}
    (hw : w.signalEvent p.2 event u = (u1, calls, reply))
    {d1 : EventDistributor} {l1 : List Obs} {f : Failure}
    (hc : applyCalls calls d = (d1, l1, some f)) :
    deliverToListeners w event (p :: rest) bp d u =
      ⟨d1, u1, bp, Obs.signalEvent p.2 p.1 event d.sem .stopped :: l1, some f⟩ := by
  rw [deliverToListeners]
  have hb' : ¬ p.1 ≥ bp := Nat.not_le.2 hb
  simp only [h, hb', if_false, hw, hc]
  simp

theorem deliverToListeners_threw (p : Priority × ListenerId) (rest : PriorityMap) (bp : Nat)
    (d : EventDistributor) (u : σ) (h : isRegistered d event.type p.2 = true)
    (hb : p.1 < bp) {u1 : σ} {calls : List Call}
    (hw : w.signalEvent p.2 event u = (u1, calls, .throws))
    {d1 : EventDistributor} {l1 : List Obs}
    (hc : applyCalls calls d = (d1, l1, none)) :
    deliverToListeners w event (p :: rest) bp d u =
      ⟨d1, u1, bp, Obs.signalEvent p.2 p.1 event d.sem .threw :: l1, some .exception⟩ := by
  rw [deliverToListeners]
  have hb' : ¬ p.1 ≥ bp := Nat.not_le.2 hb
  simp only [h, hb', if_false, hw, hc]
  simp

theorem deliverToListeners_assert (p : Priority × ListenerId) (rest : PriorityMap) (bp : Nat)
    (d : EventDistributor) (u : σ) (h : isRegistered d event.type p.2 = true)
    (hb : p.1 < bp) {u1 : σ} {calls : List Call} {block : Nat}
    (hw : w.signalEvent p.2 event u = (u1, calls, .returns block))
    {d1 : EventDistributor} {l1 : List Obs}
    (hc : applyCalls calls d = (d1, l1, none)) (h0 : block ≠ 0) (hle : ¬ block > p.1) :
    deliverToListeners w event (p :: rest) bp d u =
      ⟨d1, u1, bp, Obs.signalEvent p.2 p.1 event d.sem (.returned block) :: l1,
        some .assertion⟩ := by
  rw [deliverToListeners]
  have hb' : ¬ p.1 ≥ bp := Nat.not_le.2 hb
  simp only [h, hb', if_false, hw, hc]
  simp [h0, hle]

theorem deliverToListeners_next (p : Priority × ListenerId) (rest : PriorityMap) (bp : Nat)
    (d : EventDistributor) (u : σ) (h : isRegistered d event.type p.2 = true)
    (hb : p.1 < bp) {u1 : σ} {calls : List Call} {block : Nat}
    (hw : w.signalEvent p.2 event u = (u1, calls, .returns block))
    {d1 : EventDistributor} {l1 : List Obs}
    (hc : applyCalls calls d = (d1, l1, none)) (hok : block ≠ 0 → block > p.1) :
    deliverToListeners w event (p :: rest) bp d u =
      (deliverToListeners w event rest (if block ≠ 0 then block else bp) d1 u1).after
        (Obs.signalEvent p.2 p.1 event d.sem (.returned block) :: l1) := by
  rw [deliverToListeners]
  have hb' : ¬ p.1 ≥ bp := Nat.not_le.2 hb
  simp only [h, hb', if_false, hw, hc]
  by_cases h0 : block = 0
  · simp [h0]
  · simp [h0, hok h0]

/-- Case analysis along the loop over `priorityMapCopy`. -/
theorem deliverToListeners_cases
    (P : PriorityMap → Nat → EventDistributor → σ → PassResult σ → Prop)
    (nil : ∀ bp d u, P [] bp d u ⟨d, u, bp, [], none⟩)
    (skip : ∀ p rest bp d u, isRegistered d event.type p.2 = false →
      P rest bp d u (deliverToListeners w event rest bp d u) →
      P (p :: rest) bp d u (deliverToListeners w event rest bp d u))
    (brk : ∀ p rest bp d u, isRegistered d event.type p.2 = true → p.1 ≥ bp →
      P (p :: rest) bp d u ⟨d, u, bp, [], none⟩)
    (stopped : ∀ p rest bp d u u1 calls reply d1 l1 f,
      isRegistered d event.type p.2 = true → p.1 < bp →
      w.signalEvent p.2 event u = (u1, calls, reply) →
      applyCalls calls d = (d1, l1, some f) →
      P (p :: rest) bp d u
        ⟨d1, u1, bp, Obs.signalEvent p.2 p.1 event d.sem .stopped :: l1, some f⟩)
    (threw : ∀ p rest bp d u u1 calls d1 l1,
      isRegistered d event.type p.2 = true → p.1 < bp →
      w.signalEvent p.2 event u = (u1, calls, .throws) →
      applyCalls calls d = (d1, l1, none) →
      P (p :: rest) bp d u
        ⟨d1, u1, bp, Obs.signalEvent p.2 p.1 event d.sem .threw :: l1, some .exception⟩)
    (bad : ∀ p rest bp d u u1 calls block d1 l1,
      isRegistered d event.type p.2 = true → p.1 < bp →
      w.signalEvent p.2 event u = (u1, calls, .returns block) →
      applyCalls calls d = (d1, l1, none) → block ≠ 0 → ¬ block > p.1 →
      P (p :: rest) bp d u
        ⟨d1, u1, bp, Obs.signalEvent p.2 p.1 event d.sem (.returned block) :: l1,
          some .assertion⟩)
    (next : ∀ p rest bp d u u1 calls block d1 l1,
      isRegistered d event.type p.2 = true → p.1 < bp →
      w.signalEvent p.2 event u = (u1, calls, .returns block) →
      applyCalls calls d = (d1, l1, none) → (block ≠ 0 → block > p.1) →
      P rest (if block ≠ 0 then block else bp) d1 u1
        (deliverToListeners w event rest (if block ≠ 0 then block else bp) d1 u1) →
      P (p :: rest) bp d u
        ((deliverToListeners w event rest (if block ≠ 0 then block else bp) d1 u1).after
          (Obs.signalEvent p.2 p.1 event d.sem (.returned block) :: l1))) :
    ∀ m bp d u, P m bp d u (deliverToListeners w event m bp d u) := by
  intro m
  induction m with
  | nil => intro bp d u; exact nil bp d u
  | cons p rest ih =>
    intro bp d u
    cases hreg : isRegistered d event.type p.2 with
    | false =>
      rw [deliverToListeners_skip w event p rest bp d u hreg]
      exact skip p rest bp d u hreg (ih bp d u)
    | true =>
      by_cases hb : p.1 ≥ bp
      · rw [deliverToListeners_break w event p rest bp d u hreg hb]
        exact brk p rest bp d u hreg hb
      · have hlt : p.1 < bp := Nat.not_le.1 hb
        rcases hw : w.signalEvent p.2 event u with ⟨u1, calls, reply⟩
        rcases hc : applyCalls calls d with ⟨d1, l1, fo⟩
        cases fo with
        | some f =>
          rw [deliverToListeners_stopped w event p rest bp d u hreg hlt hw hc]
          exact stopped p rest bp d u u1 calls reply d1 l1 f hreg hlt hw hc
        | none =>
          cases reply with
          | throws =>
            rw [deliverToListeners_threw w event p rest bp d u hreg hlt hw hc]
            exact threw p rest bp d u u1 calls d1 l1 hreg hlt hw hc
          | returns block =>
            by_cases hok : block ≠ 0 → block > p.1
            · rw [deliverToListeners_next w event p rest bp d u hreg hlt hw hc hok]
              exact next p rest bp d u u1 calls block d1 l1 hreg hlt hw hc hok (ih _ d1 u1)
            · have h0 : block ≠ 0 := fun e => hok (fun h => absurd e h)
              have hle : ¬ block > p.1 := fun h => hok (fun _ => h)
              rw [deliverToListeners_assert w event p rest bp d u hreg hlt hw hc h0 hle]
              exact bad p rest bp d u u1 calls block d1 l1 hreg hlt hw hc h0 hle

end Pass


/-! ## Lemmas on observation lists -/

theorem queuedEvents_append (a b : List Obs) :
    queuedEvents (a ++ b) = queuedEvents a ++ queuedEvents b := by
  simp [queuedEvents, List.filterMap_append]

theorem calloutSems_append (a b : List Obs) :
    calloutSems (a ++ b) = calloutSems a ++ calloutSems b := by
  simp [calloutSems, List.filterMap_append]

theorem quiet_append {a b : List Obs} (ha : Quiet a) (hb : Quiet b) : Quiet (a ++ b) := by
  intro o ho
  rcases List.mem_append.1 ho with h | h
  · exact ha o h
  · exact hb o h

theorem quiet_deliveredEvents {a : List Obs} (ha : Quiet a) : deliveredEvents a = [] := by
  induction a with
  | nil => rfl
  | cons o a ih =>
    have ho := ha o (List.mem_cons_self _ _)
    have ih' := ih (fun x hx => ha x (List.mem_cons_of_mem _ hx))
    cases o <;> simp_all [openmsx.deliveredEvents, Obs.quiet]

theorem quiet_invoked {a : List Obs} (ha : Quiet a) : invoked a = [] := by
  induction a with
  | nil => rfl
  | cons o a ih =>
    have ho := ha o (List.mem_cons_self _ _)
    have ih' := ih (fun x hx => ha x (List.mem_cons_of_mem _ hx))
    cases o <;> simp_all [openmsx.invoked, Obs.quiet]

theorem quiet_guarded_append {a : List Obs} (ha : Quiet a) (bp : Nat) (b : List Obs) :
    Guarded bp (a ++ b) ↔ Guarded bp b := by
  induction a with
  | nil => simp
  | cons o a ih =>
    have ho := ha o (List.mem_cons_self _ _)
    have ih' := ih (fun x hx => ha x (List.mem_cons_of_mem _ hx))
    cases o <;> simp_all [Guarded, Obs.quiet]

theorem guarded_append {bp : Nat} {a b : List Obs} (ha : Guarded bp a)
    (hb : ∀ bp', Guarded bp' b) : Guarded bp (a ++ b) := by
  induction a generalizing bp with
  | nil => exact hb bp
  | cons o a ih =>
    cases o with
    | signalEvent l p e s en =>
      simp only [List.cons_append, Guarded] at ha ⊢
      exact ⟨ha.1, ih ha.2⟩
    | deliver e =>
      simp only [List.cons_append, Guarded] at ha ⊢
      exact ih ha
    | queued e =>
      simp only [List.cons_append, Guarded] at ha ⊢
      exact ih ha
    | enterMainLoop s =>
      simp only [List.cons_append, Guarded] at ha ⊢
      exact ih ha


/-! ## The calls made by a callback -/

theorem applyCall_ok {d d1 : EventDistributor} {c : Call} {l1 : List Obs}
    (h : applyCall d c = .ok (d1, l1)) :
    d1.sem = d.sem ∧ 0 < d.sem ∧
      d1.scheduledEvents = d.scheduledEvents ++ queuedEvents l1 ∧
      Quiet l1 ∧ ∀ s ∈ calloutSems l1, s = d.sem := by
  cases c with
  | register t l p =>
    simp only [applyCall] at h
    split at h
    · cases h
    · rename_i d2 hd2
      simp only [Except.ok.injEq, Prod.mk.injEq] at h
      obtain ⟨h1, h2⟩ := h
      subst h1 h2
      obtain ⟨m', -, -, hq, hs, hpos⟩ := registerEventListener_ok hd2
      refine ⟨hs, hpos, by simp [hq, queuedEvents], ?_, ?_⟩
      · intro o ho; cases ho
      · intro s hs; simp [calloutSems] at hs
  | unregister t l =>
    simp only [applyCall] at h
    split at h
    · cases h
    · rename_i d2 hd2
      simp only [Except.ok.injEq, Prod.mk.injEq] at h
      obtain ⟨h1, h2⟩ := h
      subst h1 h2
      obtain ⟨m', -, -, hq, hs, hpos⟩ := unregisterEventListener_ok hd2
      refine ⟨hs, hpos, by simp [hq, queuedEvents], ?_, ?_⟩
      · intro o ho; cases ho
      · intro s hs; simp [calloutSems] at hs
  | distribute e =>
    simp only [applyCall] at h
    obtain ⟨-, hs, hpos, hcase⟩ := distributeEvent_ok h
    rcases hcase with ⟨-, hq, hl⟩ | ⟨-, hq, hl⟩
    · subst hl
      refine ⟨hs, hpos, by simp [hq, queuedEvents], ?_, ?_⟩
      · intro o ho; cases ho
      · intro s hs; simp [calloutSems] at hs
    · subst hl
      refine ⟨hs, hpos, by simp [hq, queuedEvents], ?_, ?_⟩
      · intro o ho
        simp only [List.mem_cons, List.mem_singleton, List.not_mem_nil, or_false] at ho
        rcases ho with rfl | rfl <;> rfl
      · intro s hs
        simpa [calloutSems] using hs

theorem applyCalls_spec (cs : List Call) (d : EventDistributor) :
    (applyCalls cs d).1.sem = d.sem ∧
      (applyCalls cs d).1.scheduledEvents =
        d.scheduledEvents ++ queuedEvents (applyCalls cs d).2.1 ∧
      Quiet (applyCalls cs d).2.1 ∧
      ∀ s ∈ calloutSems (applyCalls cs d).2.1, s = d.sem := by
  induction cs generalizing d with
  | nil =>
    refine ⟨rfl, by simp [applyCalls, queuedEvents], ?_, ?_⟩
    · intro o ho; simp [applyCalls] at ho
    · intro s hs; simp [applyCalls, calloutSems] at hs
  | cons c cs ih =>
    simp only [applyCalls]
    cases hc : applyCall d c with
    | error f =>
      refine ⟨rfl, by simp [queuedEvents], ?_, ?_⟩
      · intro o ho; simp at ho
      · intro s hs; simp [calloutSems] at hs
    | ok r =>
      obtain ⟨d1, l1⟩ := r
      obtain ⟨h1, -, h2, h3, h4⟩ := applyCall_ok hc
      obtain ⟨i1, i2, i3, i4⟩ := ih d1
      simp only
      refine ⟨by rw [i1, h1], ?_, quiet_append h3 i3, ?_⟩
      · rw [i2, h2, queuedEvents_append, List.append_assoc]
      · intro s hs
        rw [calloutSems_append] at hs
        rcases List.mem_append.1 hs with h | h
        · exact h4 s h
        · rw [i4 s h, h1]

theorem applyCalls_of_eq {cs : List Call} {d d1 : EventDistributor} {l1 : List Obs}
    {fo : Option Failure} (h : applyCalls cs d = (d1, l1, fo)) :
    d1.sem = d.sem ∧ d1.scheduledEvents = d.scheduledEvents ++ queuedEvents l1 ∧
      Quiet l1 ∧ ∀ s ∈ calloutSems l1, s = d.sem := by
  have := applyCalls_spec cs d
  rw [h] at this
  exact this


/-! ## Properties of the delivery loops -/

theorem quiet_noThrow {a : List Obs} (ha : Quiet a) : NoThrow a := by
  intro o ho
  have := ha o ho
  cases o <;> simp_all [Obs.quiet, Obs.threw]

theorem noThrow_append {a b : List Obs} (ha : NoThrow a) (hb : NoThrow b) :
    NoThrow (a ++ b) := by
  intro o ho
  rcases List.mem_append.1 ho with h | h
  · exact ha o h
  · exact hb o h

theorem noThrow_cons {o : Obs} {a : List Obs} (ho : o.threw = false) (ha : NoThrow a) :
    NoThrow (o :: a) := by
  intro x hx
  rcases List.mem_cons.1 hx with rfl | h
  · exact ho
  · exact ha x h

theorem noThrow_throwEnds {a : List Obs} (ha : NoThrow a) (f : Option Failure) :
    ThrowEnds a f := by
  intro pre l p e s post h
  have hm : Obs.signalEvent l p e s .threw ∈ a := by
    rw [h]; exact List.mem_append_right _ (List.mem_cons_self _ _)
  have := ha _ hm
  simp [Obs.threw] at this

theorem throwEnds_cons {o : Obs} {b : List Obs} {f : Option Failure}
    (ho : o.threw = false) (hb : ThrowEnds b f) : ThrowEnds (o :: b) f := by
  intro pre l p e s post h
  cases pre with
  | nil =>
    simp only [List.nil_append, List.cons.injEq] at h
    rw [h.1] at ho
    simp [Obs.threw] at ho
  | cons x pre =>
    simp only [List.cons_append, List.cons.injEq] at h
    exact hb pre l p e s post h.2

theorem throwEnds_append {a b : List Obs} {f : Option Failure}
    (ha : NoThrow a) (hb : ThrowEnds b f) : ThrowEnds (a ++ b) f := by
  induction a with
  | nil => exact hb
  | cons o a ih =>
    have ho := ha o (List.mem_cons_self _ _)
    exact throwEnds_cons ho (ih (fun x hx => ha x (List.mem_cons_of_mem _ hx)))

theorem throwEnds_threw (l : ListenerId) (p : Priority) (e : Event) (s : Nat)
    {l1 : List Obs} (h1 : Quiet l1) :
    ThrowEnds (Obs.signalEvent l p e s .threw :: l1) (some .exception) := by
  intro pre l' p' e' s' post h
  cases pre with
  | nil =>
    simp only [List.nil_append, List.cons.injEq] at h
    refine ⟨rfl, ?_⟩
    rw [← h.2]
    exact h1
  | cons x pre =>
    simp only [List.cons_append, List.cons.injEq] at h
    have hm : Obs.signalEvent l' p' e' s' .threw ∈ l1 := by
      rw [h.2]; exact List.mem_append_right _ (List.mem_cons_self _ _)
    have := h1 _ hm
    simp [Obs.quiet] at this

section Loops

variable {σ : Type} (w : Listeners σ)

theorem pass_sem (event : Event) : ∀ m bp d u,
    (deliverToListeners w event m bp d u).ed.sem = d.sem ∧
      ∀ s ∈ calloutSems (deliverToListeners w event m bp d u).log, s = d.sem := by
  apply deliverToListeners_cases w event
    (fun _ _ d _ r => r.ed.sem = d.sem ∧ ∀ s ∈ calloutSems r.log, s = d.sem)
  · intro bp d u
    exact ⟨rfl, by intro s hs; simp [calloutSems] at hs⟩
  · intro p rest bp d u _ ih
    exact ih
  · intro p rest bp d u _ _
    exact ⟨rfl, by intro s hs; simp [calloutSems] at hs⟩
  · intro p rest bp d u u1 calls reply d1 l1 f _ _ _ hc
    obtain ⟨h1, -, -, h4⟩ := applyCalls_of_eq hc
    refine ⟨h1, ?_⟩
    intro s hs
    simp only [calloutSems, List.filterMap_cons, List.mem_cons] at hs
    rcases hs with rfl | hs
    · rfl
    · exact h4 s hs
  · intro p rest bp d u u1 calls d1 l1 _ _ _ hc
    obtain ⟨h1, -, -, h4⟩ := applyCalls_of_eq hc
    refine ⟨h1, ?_⟩
    intro s hs
    simp only [calloutSems, List.filterMap_cons, List.mem_cons] at hs
    rcases hs with rfl | hs
    · rfl
    · exact h4 s hs
  · intro p rest bp d u u1 calls block d1 l1 _ _ _ hc _ _
    obtain ⟨h1, -, -, h4⟩ := applyCalls_of_eq hc
    refine ⟨h1, ?_⟩
    intro s hs
    simp only [calloutSems, List.filterMap_cons, List.mem_cons] at hs
    rcases hs with rfl | hs
    · rfl
    · exact h4 s hs
  · intro p rest bp d u u1 calls block d1 l1 _ _ _ hc _ ih
    obtain ⟨h1, -, -, h4⟩ := applyCalls_of_eq hc
    refine ⟨by simp only [PassResult.after]; rw [ih.1, h1], ?_⟩
    intro s hs
    simp only [PassResult.after, List.cons_append] at hs
    change s ∈ calloutSems ([Obs.signalEvent p.2 p.1 event d.sem (.returned block)] ++
      (l1 ++ _)) at hs
    rw [calloutSems_append, calloutSems_append] at hs
    rcases List.mem_append.1 hs with h | h
    · simpa [calloutSems] using h
    · rcases List.mem_append.1 h with h | h
      · exact h4 s h
      · rw [ih.2 s h, h1]

theorem pass_guarded (event : Event) : ∀ m bp d u,
    Guarded bp (deliverToListeners w event m bp d u).log := by
  apply deliverToListeners_cases w event (fun _ bp _ _ r => Guarded bp r.log)
  · intro bp d u
    trivial
  · intro p rest bp d u _ ih
    exact ih
  · intro p rest bp d u _ _
    trivial
  · intro p rest bp d u u1 calls reply d1 l1 f _ hb _ hc
    obtain ⟨-, -, h3, -⟩ := applyCalls_of_eq hc
    refine ⟨hb, ?_⟩
    have := (quiet_guarded_append h3 (nextBlock bp .stopped) []).2 trivial
    simpa using this
  · intro p rest bp d u u1 calls d1 l1 _ hb _ hc
    obtain ⟨-, -, h3, -⟩ := applyCalls_of_eq hc
    refine ⟨hb, ?_⟩
    have := (quiet_guarded_append h3 (nextBlock bp .threw) []).2 trivial
    simpa using this
  · intro p rest bp d u u1 calls block d1 l1 _ hb _ hc _ _
    obtain ⟨-, -, h3, -⟩ := applyCalls_of_eq hc
    refine ⟨hb, ?_⟩
    have := (quiet_guarded_append h3 (nextBlock bp (.returned block)) []).2 trivial
    simpa using this
  · intro p rest bp d u u1 calls block d1 l1 _ hb _ hc _ ih
    obtain ⟨-, -, h3, -⟩ := applyCalls_of_eq hc
    simp only [PassResult.after, List.cons_append]
    refine ⟨hb, ?_⟩
    rw [quiet_guarded_append h3]
    exact ih

theorem pass_throw (event : Event) : ∀ m bp d u,
    ThrowEnds (deliverToListeners w event m bp d u).log
        (deliverToListeners w event m bp d u).failure ∧
      ((deliverToListeners w event m bp d u).failure = none →
        NoThrow (deliverToListeners w event m bp d u).log) := by
  apply deliverToListeners_cases w event
    (fun _ _ _ _ r => ThrowEnds r.log r.failure ∧ (r.failure = none → NoThrow r.log))
  · intro bp d u
    have : NoThrow [] := by intro o ho; cases ho
    exact ⟨noThrow_throwEnds this _, fun _ => this⟩
  · intro p rest bp d u _ ih
    exact ih
  · intro p rest bp d u _ _
    have : NoThrow [] := by intro o ho; cases ho
    exact ⟨noThrow_throwEnds this _, fun _ => this⟩
  · intro p rest bp d u u1 calls reply d1 l1 f _ _ _ hc
    obtain ⟨-, -, h3, -⟩ := applyCalls_of_eq hc
    have : NoThrow (Obs.signalEvent p.2 p.1 event d.sem .stopped :: l1) :=
      noThrow_cons rfl (quiet_noThrow h3)
    exact ⟨noThrow_throwEnds this _, fun _ => this⟩
  · intro p rest bp d u u1 calls d1 l1 _ _ _ hc
    obtain ⟨-, -, h3, -⟩ := applyCalls_of_eq hc
    exact ⟨throwEnds_threw _ _ _ _ h3, fun h => by cases h⟩
  · intro p rest bp d u u1 calls block d1 l1 _ _ _ hc _ _
    obtain ⟨-, -, h3, -⟩ := applyCalls_of_eq hc
    have : NoThrow (Obs.signalEvent p.2 p.1 event d.sem (.returned block) :: l1) :=
      noThrow_cons rfl (quiet_noThrow h3)
    exact ⟨noThrow_throwEnds this _, fun _ => this⟩
  · intro p rest bp d u u1 calls block d1 l1 _ _ _ hc _ ih
    obtain ⟨-, -, h3, -⟩ := applyCalls_of_eq hc
    have hn : NoThrow (Obs.signalEvent p.2 p.1 event d.sem (.returned block) :: l1) :=
      noThrow_cons rfl (quiet_noThrow h3)
    exact ⟨throwEnds_append hn ih.1, fun h => noThrow_append hn (ih.2 h)⟩

theorem deliverEvent_eq (event : Event) (d : EventDistributor) (u : σ) :
    deliverEvent w event d u =
      ⟨if (deliverToListeners w event (d.listeners event.type) (2 ^ 32 - 1) (semUp d) u).failure
            = none
        then { (deliverToListeners w event (d.listeners event.type) (2 ^ 32 - 1)
                (semUp d) u).ed with sem := d.sem }
        else (deliverToListeners w event (d.listeners event.type) (2 ^ 32 - 1) (semUp d) u).ed,
       (deliverToListeners w event (d.listeners event.type) (2 ^ 32 - 1) (semUp d) u).user,
       Obs.deliver event ::
         (deliverToListeners w event (d.listeners event.type) (2 ^ 32 - 1) (semUp d) u).log,
       (deliverToListeners w event (d.listeners event.type) (2 ^ 32 - 1) (semUp d) u).failure⟩ := by
  have hs := (pass_sem w event (d.listeners event.type) (2 ^ 32 - 1) (semUp d) u).1
  unfold deliverEvent
  simp only
  generalize deliverToListeners w event (d.listeners event.type) (2 ^ 32 - 1) (semUp d) u = r at hs
  cases hf : r.failure with
  | some f => simp
  | none =>
    have hs' : r.ed.sem = d.sem + 1 := hs
    simp only [semDown, hs']
    simp

theorem deliverEvent_runOk (event : Event) (d : EventDistributor) (u : σ) :
    RunOk d.sem (deliverEvent w event d u) := by
  rw [deliverEvent_eq]
  have hs := pass_sem w event (d.listeners event.type) (2 ^ 32 - 1) (semUp d) u
  have hg := pass_guarded w event (d.listeners event.type) (2 ^ 32 - 1) (semUp d) u
  have ht := pass_throw w event (d.listeners event.type) (2 ^ 32 - 1) (semUp d) u
  generalize deliverToListeners w event (d.listeners event.type) (2 ^ 32 - 1) (semUp d) u = r
    at hs hg ht
  refine ⟨?_, ?_, ?_, ?_, ?_⟩
  · intro hf
    simp only at hf
    simp [hf]
  · intro s hs'
    simp only [calloutSems, List.filterMap_cons] at hs'
    exact hs.2 s hs'
  · intro bp
    exact hg
  · exact throwEnds_cons rfl ht.1
  · intro hf
    exact noThrow_cons rfl (ht.2 hf)

theorem runOk_seq {sem : Nat} {r1 r2 : Run σ} (h1 : RunOk sem r1) (hf : r1.failure = none)
    (h2 : RunOk r1.ed.sem r2) : RunOk sem (r2.after r1.log) := by
  obtain ⟨a1, a2, a3, a4, a5⟩ := h1
  obtain ⟨b1, b2, b3, b4, b5⟩ := h2
  have hsem := a1 hf
  refine ⟨?_, ?_, ?_, ?_, ?_⟩
  · intro h
    rw [← hsem]
    exact b1 h
  · intro s hs
    simp only [Run.after, calloutSems_append] at hs
    rcases List.mem_append.1 hs with h | h
    · exact a2 s h
    · rw [b2 s h, hsem]
  · intro bp
    exact guarded_append (a3 bp) b3
  · exact throwEnds_append (a5 hf) b4
  · intro h
    exact noThrow_append (a5 hf) (b5 h)

theorem runOk_nil (d : EventDistributor) (u : σ) (f : Option Failure) :
    RunOk d.sem (⟨d, u, [], f⟩ : Run σ) := by
  have hn : NoThrow [] := by intro o ho; cases ho
  refine ⟨fun _ => rfl, ?_, fun _ => trivial, ?_, fun _ => hn⟩
  · intro s hs; simp [calloutSems] at hs
  · intro pre l p e s post h
    simp at h

theorem deliverBatch_runOk : ∀ (evs : EventQueue) (d : EventDistributor) (u : σ),
    RunOk d.sem (deliverBatch w evs d u) := by
  intro evs
  induction evs with
  | nil =>
    intro d u
    exact runOk_nil d u none
  | cons event rest ih =>
    intro d u
    simp only [deliverBatch]
    have h1 := deliverEvent_runOk w event d u
    cases hf : (deliverEvent w event d u).failure with
    | some f => exact h1
    | none =>
      simp only
      exact runOk_seq h1 hf (ih _ _)

theorem deliverLoop_runOk : ∀ (fuel : Nat) (d : EventDistributor) (u : σ),
    RunOk d.sem (deliverLoop w fuel d u) := by
  intro fuel
  induction fuel with
  | zero =>
    intro d u
    simp only [deliverLoop]
    split
    · exact runOk_nil d u none
    · exact runOk_nil d u (some .fuel)
  | succ n ih =>
    intro d u
    simp only [deliverLoop]
    split
    · exact runOk_nil d u none
    · have h1 := deliverBatch_runOk w d.scheduledEvents { d with scheduledEvents := [] } u
      cases hf : (deliverBatch w d.scheduledEvents { d with scheduledEvents := [] } u).failure with
      | some f => exact h1
      | none =>
        simp only
        exact runOk_seq h1 hf (ih _ _)

/-- The run of `deliverEvents` in terms of the run of its `while` loop. -/
theorem deliverEvents_cases (fuel : Nat) (d : EventDistributor) (u : σ) :
    (d.sem = 0 ∧ deliverEvents w fuel d u = ⟨d, u, [], some .deadlock⟩) ∨
    (∃ n, d.sem = n + 1 ∧
      (deliverEvents w fuel d u).log = (deliverLoop w fuel { d with sem := n } u).log ∧
      (deliverEvents w fuel d u).failure = (deliverLoop w fuel { d with sem := n } u).failure ∧
      ((deliverLoop w fuel { d with sem := n } u).failure = none →
        (deliverEvents w fuel d u).ed = semUp (deliverLoop w fuel { d with sem := n } u).ed)) := by
  unfold deliverEvents semDown
  cases h : d.sem with
  | zero => exact Or.inl ⟨rfl, rfl⟩
  | succ n =>
    refine Or.inr ⟨n, rfl, ?_⟩
    simp only
    generalize deliverLoop w fuel { d with sem := n } u = r
    cases hf : r.failure with
    | none => exact ⟨rfl, rfl, fun _ => rfl⟩
    | some f =>
      cases f <;>
        first
        | exact ⟨rfl, rfl, fun h => by cases h⟩
        | exact ⟨rfl, hf, fun h => by cases h⟩

end Loops

theorem guarded_mid {B : Nat} : ∀ (mid : List Obs) {l2 : ListenerId} {p2 : Priority}
    {e2 : Event} {s2 : Nat} {en2 : Ending} {post : List Obs},
    Guarded B (mid ++ Obs.signalEvent l2 p2 e2 s2 en2 :: post) →
    (∀ o ∈ mid, o.isDeliver = false ∧ o.blocks = false) → p2 < B := by
  intro mid
  induction mid with
  | nil =>
    intro l2 p2 e2 s2 en2 post hg _
    exact hg.1
  | cons o mid ih =>
    intro l2 p2 e2 s2 en2 post hg hm
    have ho := hm o (List.mem_cons_self _ _)
    have hm' : ∀ x ∈ mid, x.isDeliver = false ∧ x.blocks = false :=
      fun x hx => hm x (List.mem_cons_of_mem _ hx)
    cases o with
    | signalEvent l p e s en =>
      simp only [List.cons_append, Guarded] at hg
      have hb : nextBlock B en = B := by
        cases en with
        | returned b =>
          have : b = 0 := by simpa [Obs.blocks] using ho.2
          simp [nextBlock, this]
        | threw => rfl
        | stopped => rfl
      rw [hb] at hg
      exact ih hg.2 hm'
    | deliver e => simp [Obs.isDeliver] at ho
    | queued e =>
      simp only [List.cons_append, Guarded] at hg
      exact ih hg hm'
    | enterMainLoop s =>
      simp only [List.cons_append, Guarded] at hg
      exact ih hg hm'

theorem guarded_lastBlockLevelRespected : ∀ (log : List Obs) (bp : Nat),
    Guarded bp log → LastBlockLevelRespected log := by
  intro log bp hg pre
  induction pre generalizing log bp with
  | nil =>
    intro l p e s B mid l2 p2 e2 s2 en2 post h hB hm
    subst h
    simp only [List.nil_append, Guarded] at hg
    have hn : nextBlock bp (.returned B) = B := by simp [nextBlock, hB]
    rw [hn] at hg
    exact Nat.not_le.2 (guarded_mid mid hg.2 hm)
  | cons o pre ih =>
    intro l p e s B mid l2 p2 e2 s2 en2 post h hB hm
    subst h
    cases o with
    | signalEvent l' p' e' s' en' =>
      simp only [List.cons_append, Guarded] at hg
      exact ih _ _ hg.2 l p e s B mid l2 p2 e2 s2 en2 post rfl hB hm
    | deliver e' =>
      simp only [List.cons_append, Guarded] at hg
      exact ih _ _ hg l p e s B mid l2 p2 e2 s2 en2 post rfl hB hm
    | queued e' =>
      simp only [List.cons_append, Guarded] at hg
      exact ih _ _ hg l p e s B mid l2 p2 e2 s2 en2 post rfl hB hm
    | enterMainLoop s' =>
      simp only [List.cons_append, Guarded] at hg
      exact ih _ _ hg l p e s B mid l2 p2 e2 s2 en2 post rfl hB hm


/-! ## Two listeners, one event -/

theorem twoListeners_setup (L1 L2 : ListenerId) (X : EventType) (e : Event) (hne : L1 ≠ L2)
    (he : e.type = X) (cs : List Call)
    (hcs : cs = [.register X L1 1, .register X L2 2, .distribute e] ∨
      cs = [.register X L2 2, .register X L1 1, .distribute e]) :
    (afterCalls cs).listeners X = [(1, L1), (2, L2)] ∧
      (afterCalls cs).scheduledEvents = [e] ∧ (afterCalls cs).sem = 1 := by
  have hne' : L2 ≠ L1 := Ne.symm hne
  subst he
  rcases hcs with rfl | rfl
  · simp [afterCalls, applyCalls, applyCall, registerEventListener, semDown, semUp,
      EventDistributor.new, registerIn, isRegisteredIn, upper_bound, insertAt, distributeEvent,
      hne, hne']
  · simp [afterCalls, applyCalls, applyCall, registerEventListener, semDown, semUp,
      EventDistributor.new, registerIn, isRegisteredIn, upper_bound, insertAt, distributeEvent,
      hne, hne']

theorem deliverLoop_empty {σ : Type} (w : Listeners σ) (fuel : Nat) (d : EventDistributor)
    (u : σ) (h : d.scheduledEvents = []) : deliverLoop w fuel d u = ⟨d, u, [], none⟩ := by
  cases fuel <;> simp [deliverLoop, h]

theorem twoListeners_deliver {σ : Type} (w : Listeners σ) (L1 L2 : ListenerId)
    (X : EventType) (e : Event) (hne : L1 ≠ L2) (he : e.type = X) (d : EventDistributor)
    (hl : d.listeners X = [(1, L1), (2, L2)]) (hq : d.scheduledEvents = [e])
    (hs : d.sem = 1) (fuel : Nat) (u u1 : σ) (b1 : Nat)
    (h1 : w.signalEvent L1 e u = (u1, [], .returns b1))
    (h2 : (w.signalEvent L2 e u1).2.1 = []) :
    (b1 = 2 → invoked (deliverEvents w (fuel + 1) d u).log = [(1, L1)]) ∧
    (b1 = 0 ∨ 2 < b1 → invoked (deliverEvents w (fuel + 1) d u).log = [(1, L1), (2, L2)]) := by
  obtain ⟨ls, q, s⟩ := d
  simp only at hl hq hs
  subst hq hs he
  rcases h2' : w.signalEvent L2 e u1 with ⟨u2, c2, r2⟩
  rw [h2'] at h2
  simp only at h2
  subst h2
  have reg1 : ∀ n q, isRegistered ⟨ls, q, n⟩ e.type L1 = true := by
    intro n q; simp [isRegistered, hl, isRegisteredIn]
  have reg2 : ∀ n q, isRegistered ⟨ls, q, n⟩ e.type L2 = true := by
    intro n q; simp [isRegistered, hl, isRegisteredIn, hne]
  constructor
  · intro hb
    subst hb
    simp [deliverEvents, semDown, deliverLoop, deliverBatch, deliverEvent, semUp, hl, deliverLoop_empty,
      deliverToListeners, reg1, reg2, h1, applyCalls, PassResult.after, Run.after, invoked]
  · intro hb
    have hb0 : b1 ≠ 0 → 1 < b1 := by omega
    have hb2 : ¬ 2 ≥ (if b1 ≠ 0 then b1 else 4294967295) := by
      split <;> omega
    have step1 : deliverToListeners w e [(1, L1), (2, L2)] (4294967295) ⟨ls, [], 1⟩ u =
        (deliverToListeners w e [(2, L2)] (if b1 ≠ 0 then b1 else 4294967295)
          ⟨ls, [], 1⟩ u1).after [Obs.signalEvent L1 1 e 1 (.returned b1)] :=
      deliverToListeners_next w e (1, L1) [(2, L2)] (4294967295) ⟨ls, [], 1⟩ u (reg1 _ _)
        (show (1 : Nat) < 4294967295 by decide) h1 rfl hb0
    generalize (if b1 ≠ 0 then b1 else 4294967295) = bp' at step1 hb2
    cases r2 with
    | throws =>
      have step2 := deliverToListeners_threw w e (2, L2) []
        bp' ⟨ls, [], 1⟩ u1 (reg2 _ _) (Nat.not_le.1 hb2)
        h2' rfl
      simp [deliverEvents, semDown, deliverLoop, deliverBatch, deliverEvent, semUp, hl, deliverLoop_empty,
        step1, step2, PassResult.after, Run.after, invoked]
    | returns b =>
      by_cases hok : b ≠ 0 → b > 2
      · have step2 := deliverToListeners_next w e (2, L2) []
          bp' ⟨ls, [], 1⟩ u1 (reg2 _ _) (Nat.not_le.1 hb2)
          h2' rfl hok
        simp [deliverEvents, semDown, deliverLoop, deliverBatch, deliverEvent, semUp, hl, deliverLoop_empty,
          step1, step2, deliverToListeners_nil, PassResult.after, Run.after, invoked]
      · have h0 : b ≠ 0 := fun e => hok (fun h => absurd e h)
        have hle : ¬ b > 2 := fun h => hok (fun _ => h)
        have step2 := deliverToListeners_assert w e (2, L2) []
          bp' ⟨ls, [], 1⟩ u1 (reg2 _ _) (Nat.not_le.1 hb2)
          h2' rfl h0 hle
        simp [deliverEvents, semDown, deliverLoop, deliverBatch, deliverEvent, semUp, hl, deliverLoop_empty,
          step1, step2, PassResult.after, Run.after, invoked]


/-! ## The pass over a sorted copy -/

section SortedPass

variable {σ : Type} (w : Listeners σ) (event : Event)

theorem passResult_after_nil (r : PassResult σ) : r.after [] = r := rfl

theorem passResult_after_after (r : PassResult σ) (a b : List Obs) :
    (r.after b).after a = r.after (a ++ b) := by
  simp [PassResult.after, List.append_assoc]

end SortedPass


/-! ## The pass of the code against the claims' account -/

section Claimed

variable {σ : Type} (w : Listeners σ) (event : Event)

end Claimed


/-! ## The registry stays sorted -/

section ClaimedRun

variable {σ : Type} (w : Listeners σ)

end ClaimedRun


/-! ## Bit masks -/

theorem and_xor_disjoint (a b : Nat) : (a &&& (a ^^^ b)) &&& (b &&& (a ^^^ b)) = 0 := by
  apply Nat.eq_of_testBit_eq
  intro i
  simp only [Nat.testBit_and, Nat.testBit_xor, Nat.zero_testBit]
  cases a.testBit i <;> cases b.testBit i <;> rfl

theorem and_xor_cover (a b : Nat) : (a &&& (a ^^^ b)) ||| (b &&& (a ^^^ b)) = a ^^^ b := by
  apply Nat.eq_of_testBit_eq
  intro i
  simp only [Nat.testBit_and, Nat.testBit_xor, Nat.testBit_or]
  cases a.testBit i <;> cases b.testBit i <;> rfl

theorem xor_eq_zero_iff (a b : Nat) : a ^^^ b = 0 ↔ a = b := by
  constructor
  · intro h
    apply Nat.eq_of_testBit_eq
    intro i
    have := congrArg (fun n => n.testBit i) h
    simp only [Nat.testBit_xor, Nat.zero_testBit] at this
    revert this
    cases a.testBit i <;> cases b.testBit i <;> simp
  · intro h
    subst h
    exact Nat.xor_self a

theorem byte_xor_lt {a b : Nat} (ha : a < 256) (hb : b < 256) : a ^^^ b < 256 :=
  Nat.xor_lt_two_pow (n := 8) ha hb

theorem byte_and_lt {a : Nat} (b : Nat) (ha : a < 256) : a &&& b < 256 :=
  Nat.lt_of_le_of_lt Nat.and_le_left ha

/-- For bytes `status` and `newStatus` that differ, `createEvent` hands one
record to the distributor. -/
theorem createEvent_of_ne (j : Joystick) (time newStatus : Nat)
    (hs : j.status < 256) (hn : newStatus < 256) (h : newStatus ≠ j.status) :
    j.createEvent time newStatus =
      .ok [⟨time, j.joyNum, j.status &&& (j.status ^^^ newStatus),
            newStatus &&& (j.status ^^^ newStatus)⟩] := by
  have hd : (j.status ^^^ newStatus) % 256 = j.status ^^^ newStatus :=
    Nat.mod_eq_of_lt (byte_xor_lt hs hn)
  have hp : (j.status &&& (j.status ^^^ newStatus)) % 256 = j.status &&& (j.status ^^^ newStatus) :=
    Nat.mod_eq_of_lt (byte_and_lt _ hs)
  have hr : (newStatus &&& (j.status ^^^ newStatus)) % 256 =
      newStatus &&& (j.status ^^^ newStatus) :=
    Nat.mod_eq_of_lt (byte_and_lt _ hn)
  have hx : j.status ^^^ newStatus ≠ 0 := fun e => h ((xor_eq_zero_iff _ _).1 e).symm
  have hcover := and_xor_cover j.status newStatus
  have hnz : j.status &&& (j.status ^^^ newStatus) ≠ 0 ∨
      newStatus &&& (j.status ^^^ newStatus) ≠ 0 := by
    by_contra hc
    simp only [not_or, not_not] at hc
    rw [hc.1, hc.2] at hcover
    exact hx (by simpa using hcover.symm)
  simp only [Joystick.createEvent, hd, hx, if_false, hp, hr, JoyState.new,
    and_xor_disjoint, hnz, not_true_eq_false]


/-! ## Applying press and release masks -/

theorem byte_testBit_high {n i : Nat} (hn : n < 256) (hi : 8 ≤ i) : n.testBit i = false := by
  apply Nat.testBit_lt_two_pow
  calc n < 2 ^ 8 := hn
    _ ≤ 2 ^ i := Nat.pow_le_pow_right (by decide) hi

theorem applyMasks_testBit (s p r i : Nat) (hp : p < 2 ^ 32) :
    (((s &&& (2 ^ 32 - 1 - p)) ||| r) % 256).testBit i =
      (decide (i < 8) && ((s.testBit i && (decide (i < 32) && !p.testBit i)) || r.testBit i)) := by
  have h256 : (256 : Nat) = 2 ^ 8 := by decide
  have hsub : 2 ^ 32 - 1 - p = 2 ^ 32 - (p + 1) := by omega
  rw [h256, Nat.testBit_mod_two_pow, Nat.testBit_or, Nat.testBit_and, hsub,
    Nat.testBit_two_pow_sub_succ hp]

theorem applyMasks_byte (s p r i : Nat) (hs : s < 256) (hp : p < 256) (hr : r < 256) :
    (((s &&& (2 ^ 32 - 1 - p)) ||| r) % 256).testBit i =
      ((s.testBit i && !p.testBit i) || r.testBit i) := by
  rw [applyMasks_testBit s p r i (Nat.lt_trans hp (by decide))]
  by_cases h8 : i < 8
  · have h32 : i < 32 := by omega
    simp [h8, h32]
  · have h8' : 8 ≤ i := Nat.le_of_not_lt h8
    simp [h8, byte_testBit_high hs h8', byte_testBit_high hr h8']


/-! ## Counting period starts -/

theorem hex_of_isHexDigit {c : Nat} (h : isHexDigit c) : hex c = .ok (hexDigitValue c) := by
  unfold isHexDigit at h
  unfold hex hexDigitValue
  split_ifs <;> first
    | rfl
    | (congr 1; omega)

theorem hex_of_not_isHexDigit {c : Nat} (h : ¬ isHexDigit c) : hex c = .error .exception := by
  unfold isHexDigit at h
  unfold hex
  have h1 : ¬ (48 ≤ c ∧ c ≤ 57) := fun x => h (Or.inl x)
  have h2 : ¬ (97 ≤ c ∧ c ≤ 102) := fun x => h (Or.inr (Or.inl x))
  have h3 : ¬ (65 ≤ c ∧ c ≤ 70) := fun x => h (Or.inr (Or.inr x))
  simp only [h1, h2, h3, if_false]

theorem hexDigitValue_lt {c : Nat} (h : isHexDigit c) : hexDigitValue c < 16 := by
  unfold isHexDigit at h
  unfold hexDigitValue
  split_ifs <;> omega

theorem digit_hexDigitValue {c : Nat} (h : isHexDigit c) :
    digit (hexDigitValue c) = toLowerHex c := by
  unfold isHexDigit at h
  unfold digit hexDigitValue toLowerHex
  split_ifs <;> omega

theorem digit_lower {n : Nat} (h : n < 16) :
    isLowerHexDigit (digit n) ∧ hexDigitValue (digit n) = n := by
  unfold isLowerHexDigit digit hexDigitValue
  split_ifs <;> omega

theorem isLowerHexDigit_isHexDigit {c : Nat} (h : isLowerHexDigit c) : isHexDigit c := by
  unfold isLowerHexDigit at h
  unfold isHexDigit
  rcases h with h | h
  · exact Or.inl h
  · exact Or.inr (Or.inl h)

theorem toLowerHex_of_lower {c : Nat} (h : isLowerHexDigit c) : toLowerHex c = c := by
  unfold isLowerHexDigit at h
  unfold toLowerHex
  split_ifs <;> omega

theorem shift_or_step (t h : Nat) (ht : t < 2 ^ 28) (hh : h < 16) :
    ((t <<< 4) % 2 ^ 32) ||| h = 16 * t + h := by
  have h1 : t <<< 4 = 2 ^ 4 * t := by rw [Nat.shiftLeft_eq, Nat.mul_comm]
  have h2 : (2 ^ 4 * t) % 2 ^ 32 = 2 ^ 4 * t := Nat.mod_eq_of_lt (by omega)
  rw [h1, h2, ← Nat.mul_add_lt_is_or (show h < 2 ^ 4 from hh)]

/-! ## parse40 -/

theorem foldl_hex_lt : ∀ (cs : List Nat) (t k : Nat), (∀ c ∈ cs, isHexDigit c) → t < 16 ^ k →
    cs.foldl (fun n c => 16 * n + hexDigitValue c) t < 16 ^ (k + cs.length) := by
  intro cs
  induction cs with
  | nil => intro t k _ ht; simpa using ht
  | cons c cs ih =>
    intro t k hc ht
    have hv := hexDigitValue_lt (hc c (List.mem_cons_self _ _))
    have hstep : 16 * t + hexDigitValue c < 16 ^ (k + 1) := by
      rw [Nat.pow_succ]; omega
    have := ih (16 * t + hexDigitValue c) (k + 1)
      (fun x hx => hc x (List.mem_cons_of_mem _ hx)) hstep
    simp only [List.foldl_cons, List.length_cons]
    have e : k + (cs.length + 1) = k + 1 + cs.length := by omega
    rw [e]
    exact this

/-- The inner loop of `parse40` on `j` hex digits: Horner's rule. -/
theorem parseWord_ok : ∀ (j : Nat) (p : List Nat) (t k : Nat), j ≤ p.length →
    (∀ c ∈ p.take j, isHexDigit c) → t < 16 ^ k → j + k ≤ 8 →
    parseWord j p t =
      .ok ((p.take j).foldl (fun n c => 16 * n + hexDigitValue c) t, p.drop j) := by
  intro j
  induction j with
  | zero => intro p t k _ _ _ _; simp [parseWord]
  | succ j ih =>
    intro p t k hlen hc ht hk
    cases p with
    | nil => simp at hlen
    | cons c rest =>
      have hch : isHexDigit c := hc c (by simp)
      have hv := hexDigitValue_lt hch
      have hk7 : 16 ^ k ≤ 16 ^ 7 := Nat.pow_le_pow_right (by decide) (by omega)
      have ht28 : t < 2 ^ 28 := by
        have : (16 : Nat) ^ 7 = 2 ^ 28 := by decide
        omega
      have hstep : 16 * t + hexDigitValue c < 16 ^ (k + 1) := by
        rw [Nat.pow_succ]; omega
      simp only [parseWord, List.headD_cons, hex_of_isHexDigit hch, List.tail_cons,
        shift_or_step t _ ht28 hv, List.take_succ_cons, List.foldl_cons, List.drop_succ_cons]
      exact ih rest _ (k + 1) (by simpa using hlen)
        (fun x hx => hc x (by simp [hx])) hstep (by omega)

/-- The inner loop of `parse40` throws when one of the `j` characters is no hex
digit. -/
theorem parseWord_error : ∀ (j : Nat) (p : List Nat) (t : Nat), j ≤ p.length →
    (¬ ∀ c ∈ p.take j, isHexDigit c) → parseWord j p t = .error .exception := by
  intro j
  induction j with
  | zero => intro p t _ h; simp at h
  | succ j ih =>
    intro p t hlen h
    cases p with
    | nil => simp at hlen
    | cons c rest =>
      by_cases hch : isHexDigit c
      · simp only [parseWord, List.headD_cons, hex_of_isHexDigit hch, List.tail_cons]
        apply ih rest _ (by simpa using hlen)
        intro hall
        apply h
        intro x hx
        simp only [List.take_succ_cons, List.mem_cons] at hx
        rcases hx with rfl | hx
        · exact hch
        · exact hall x hx
      · simp only [parseWord, List.headD_cons, hex_of_not_isHexDigit hch]

theorem parseWords_ok : ∀ (i : Nat) (p : List Nat), 8 * i ≤ p.length →
    (∀ c ∈ p.take (8 * i), isHexDigit c) → parseWords i p = .ok (chunkNumbers i p) := by
  intro i
  induction i with
  | zero => intro p _ _; rfl
  | succ i ih =>
    intro p hlen hc
    have h8 : 8 ≤ p.length := by omega
    have hsplit : p.take (8 * (i + 1)) = p.take 8 ++ (p.drop 8).take (8 * i) := by
      have : 8 * (i + 1) = 8 + 8 * i := by omega
      rw [this, List.take_add]
    rw [hsplit] at hc
    have hc1 : ∀ c ∈ p.take 8, isHexDigit c := fun c hx => hc c (List.mem_append_left _ hx)
    have hc2 : ∀ c ∈ (p.drop 8).take (8 * i), isHexDigit c :=
      fun c hx => hc c (List.mem_append_right _ hx)
    have hw := parseWord_ok 8 p 0 0 h8 hc1 (by decide) (by decide)
    have hrest := ih (p.drop 8) (by simp; omega) hc2
    simp only [parseWords, hw, hrest, chunkNumbers, hexNumber]

theorem parseWords_error : ∀ (i : Nat) (p : List Nat), 8 * i ≤ p.length →
    (¬ ∀ c ∈ p.take (8 * i), isHexDigit c) → parseWords i p = .error .exception := by
  intro i
  induction i with
  | zero => intro p _ h; simp at h
  | succ i ih =>
    intro p hlen h
    have h8 : 8 ≤ p.length := by omega
    have hsplit : p.take (8 * (i + 1)) = p.take 8 ++ (p.drop 8).take (8 * i) := by
      have : 8 * (i + 1) = 8 + 8 * i := by omega
      rw [this, List.take_add]
    rw [hsplit] at h
    by_cases hc1 : ∀ c ∈ p.take 8, isHexDigit c
    · have hw := parseWord_ok 8 p 0 0 h8 hc1 (by decide) (by decide)
      have hc2 : ¬ ∀ c ∈ (p.drop 8).take (8 * i), isHexDigit c := by
        intro hall
        apply h
        intro c hx
        rcases List.mem_append.1 hx with hx | hx
        · exact hc1 c hx
        · exact hall c hx
      have hrest := ih (p.drop 8) (by simp; omega) hc2
      simp only [parseWords, hw, hrest]
    · simp only [parseWords, parseWord_error 8 p 0 h8 hc1]

/-- The constructor on a string of 40 hex digits. -/
theorem ofString_ok (str : List Nat) (hlen : str.length = 40)
    (hc : ∀ c ∈ str, isHexDigit c) :
    Sha1Sum.ofString str =
      .ok ⟨hexNumber (str.take 8), hexNumber ((str.drop 8).take 8),
        hexNumber ((str.drop 16).take 8), hexNumber ((str.drop 24).take 8),
        hexNumber ((str.drop 32).take 8)⟩ := by
  have h := parseWords_ok 5 str (by omega) (fun c hx => hc c (List.mem_of_mem_take hx))
  simp only [Sha1Sum.ofString, hlen, ne_eq, not_true_eq_false, if_false, Sha1Sum.parse40, h,
    chunkNumbers, List.drop_drop]

/-- The constructor on a string of 40 characters, one of which is no hex digit. -/
theorem ofString_error (str : List Nat) (hlen : str.length = 40)
    (hc : ¬ ∀ c ∈ str, isHexDigit c) :
    Sha1Sum.ofString str = .error .exception := by
  have h40 : str.take (8 * 5) = str := List.take_of_length_le (by omega)
  have h := parseWords_error 5 str (by omega) (by rw [h40]; exact hc)
  simp only [Sha1Sum.ofString, hlen, ne_eq, not_true_eq_false, if_false, Sha1Sum.parse40, h]

/-! ## toString -/

theorem nibble_eq (w j : Nat) : (w >>> j) &&& 0xf = w / 2 ^ j % 16 := by
  rw [Nat.shiftRight_eq_div_pow]
  exact Nat.and_pow_two_sub_one_eq_mod _ 4

theorem toStringWord_eq (w : Nat) :
    toStringWord w =
      [digit (w / 2 ^ 28 % 16), digit (w / 2 ^ 24 % 16), digit (w / 2 ^ 20 % 16),
       digit (w / 2 ^ 16 % 16), digit (w / 2 ^ 12 % 16), digit (w / 2 ^ 8 % 16),
       digit (w / 2 ^ 4 % 16), digit (w / 2 ^ 0 % 16)] := by
  simp only [toStringWord, List.map, nibble_eq]

theorem toStringWord_length (w : Nat) : (toStringWord w).length = 8 := by
  simp [toStringWord]

theorem toStringWord_lower (w : Nat) : ∀ c ∈ toStringWord w, isLowerHexDigit c := by
  intro c hc
  rw [toStringWord_eq] at hc
  simp only [List.mem_cons, List.mem_singleton, List.not_mem_nil, or_false] at hc
  rcases hc with rfl | rfl | rfl | rfl | rfl | rfl | rfl | rfl <;>
    exact (digit_lower (Nat.mod_lt _ (by decide))).1

theorem hexNumber_toStringWord (w : Nat) (hw : w < 2 ^ 32) :
    hexNumber (toStringWord w) = w := by
  rw [toStringWord_eq]
  simp only [hexNumber, List.foldl_cons, List.foldl_nil]
  rw [(digit_lower (Nat.mod_lt (w / 2 ^ 28) (show 0 < 16 by decide))).2,
    (digit_lower (Nat.mod_lt (w / 2 ^ 24) (show 0 < 16 by decide))).2,
    (digit_lower (Nat.mod_lt (w / 2 ^ 20) (show 0 < 16 by decide))).2,
    (digit_lower (Nat.mod_lt (w / 2 ^ 16) (show 0 < 16 by decide))).2,
    (digit_lower (Nat.mod_lt (w / 2 ^ 12) (show 0 < 16 by decide))).2,
    (digit_lower (Nat.mod_lt (w / 2 ^ 8) (show 0 < 16 by decide))).2,
    (digit_lower (Nat.mod_lt (w / 2 ^ 4) (show 0 < 16 by decide))).2,
    (digit_lower (Nat.mod_lt (w / 2 ^ 0) (show 0 < 16 by decide))).2]
  norm_num at hw ⊢
  omega

/-- The eight characters written for the number that eight hex digits spell
are these digits in lower case. -/
theorem toStringWord_hexNumber (cs : List Nat) (hlen : cs.length = 8)
    (hc : ∀ c ∈ cs, isHexDigit c) :
    toStringWord (hexNumber cs) = cs.map toLowerHex := by
  match cs, hlen, hc with
  | [c0, c1, c2, c3, c4, c5, c6, c7], _, hc =>
    have h0 := hexDigitValue_lt (hc c0 (by simp))
    have h1 := hexDigitValue_lt (hc c1 (by simp))
    have h2 := hexDigitValue_lt (hc c2 (by simp))
    have h3 := hexDigitValue_lt (hc c3 (by simp))
    have h4 := hexDigitValue_lt (hc c4 (by simp))
    have h5 := hexDigitValue_lt (hc c5 (by simp))
    have h6 := hexDigitValue_lt (hc c6 (by simp))
    have h7 := hexDigitValue_lt (hc c7 (by simp))
    rw [toStringWord_eq]
    simp only [hexNumber, List.foldl_cons, List.foldl_nil, List.map]
    rw [← digit_hexDigitValue (hc c0 (by simp)), ← digit_hexDigitValue (hc c1 (by simp)),
      ← digit_hexDigitValue (hc c2 (by simp)), ← digit_hexDigitValue (hc c3 (by simp)),
      ← digit_hexDigitValue (hc c4 (by simp)), ← digit_hexDigitValue (hc c5 (by simp)),
      ← digit_hexDigitValue (hc c6 (by simp)), ← digit_hexDigitValue (hc c7 (by simp))]
    generalize hexDigitValue c0 = n0 at *
    generalize hexDigitValue c1 = n1 at *
    generalize hexDigitValue c2 = n2 at *
    generalize hexDigitValue c3 = n3 at *
    generalize hexDigitValue c4 = n4 at *
    generalize hexDigitValue c5 = n5 at *
    generalize hexDigitValue c6 = n6 at *
    generalize hexDigitValue c7 = n7 at *
    norm_num
    refine ⟨?_, ?_, ?_, ?_, ?_, ?_, ?_, ?_⟩ <;> congr 1 <;> omega

theorem split40 (x : List Nat) (hlen : x.length = 40) :
    x = x.take 8 ++ ((x.drop 8).take 8 ++ ((x.drop 16).take 8 ++
      ((x.drop 24).take 8 ++ (x.drop 32).take 8))) := by
  have h32 : (x.drop 32).take 8 = x.drop 32 :=
    List.take_of_length_le (by simp [hlen])
  have e1 := (List.take_append_drop 8 x).symm
  have e2 := (List.take_append_drop 8 (x.drop 8)).symm
  have e3 := (List.take_append_drop 8 (x.drop 16)).symm
  have e4 := (List.take_append_drop 8 (x.drop 24)).symm
  simp only [List.drop_drop] at e2 e3 e4
  rw [h32, ← e4, ← e3, ← e2, ← e1]

theorem chunks_of_append (A0 A1 A2 A3 A4 : List Nat) (h0 : A0.length = 8)
    (h1 : A1.length = 8) (h2 : A2.length = 8) (h3 : A3.length = 8) (h4 : A4.length = 8) :
    (A0 ++ (A1 ++ (A2 ++ (A3 ++ (A4 ++ []))))).take 8 = A0 ∧
    ((A0 ++ (A1 ++ (A2 ++ (A3 ++ (A4 ++ []))))).drop 8).take 8 = A1 ∧
    ((A0 ++ (A1 ++ (A2 ++ (A3 ++ (A4 ++ []))))).drop 16).take 8 = A2 ∧
    ((A0 ++ (A1 ++ (A2 ++ (A3 ++ (A4 ++ []))))).drop 24).take 8 = A3 ∧
    ((A0 ++ (A1 ++ (A2 ++ (A3 ++ (A4 ++ []))))).drop 32).take 8 = A4 := by
  have d1 : (A0 ++ (A1 ++ (A2 ++ (A3 ++ (A4 ++ []))))).drop 8 =
      A1 ++ (A2 ++ (A3 ++ (A4 ++ []))) := List.drop_left' h0
  have d2 : (A0 ++ (A1 ++ (A2 ++ (A3 ++ (A4 ++ []))))).drop 16 =
      A2 ++ (A3 ++ (A4 ++ [])) := by
    have : (16 : Nat) = 8 + 8 := rfl
    rw [this, ← List.drop_drop, d1]
    exact List.drop_left' h1
  have d3 : (A0 ++ (A1 ++ (A2 ++ (A3 ++ (A4 ++ []))))).drop 24 = A3 ++ (A4 ++ []) := by
    have : (24 : Nat) = 16 + 8 := rfl
    rw [this, ← List.drop_drop, d2]
    exact List.drop_left' h2
  have d4 : (A0 ++ (A1 ++ (A2 ++ (A3 ++ (A4 ++ []))))).drop 32 = A4 ++ [] := by
    have : (32 : Nat) = 24 + 8 := rfl
    rw [this, ← List.drop_drop, d3]
    exact List.drop_left' h3
  rw [d1, d2, d3, d4]
  exact ⟨List.take_left' h0, List.take_left' h1, List.take_left' h2, List.take_left' h3,
    List.take_left' h4⟩

theorem toString_eq (s : Sha1Sum) :
    s.toString = toStringWord s.a0 ++ (toStringWord s.a1 ++ (toStringWord s.a2 ++
      (toStringWord s.a3 ++ (toStringWord s.a4 ++ [])))) := rfl


/-! ## The order on Sha1Sum and the lookup -/

theorem sha1_eq_iff (a b : Sha1Sum) : a.eq b = true ↔ a = b := by
  obtain ⟨a0, a1, a2, a3, a4⟩ := a
  obtain ⟨b0, b1, b2, b3, b4⟩ := b
  simp only [Sha1Sum.eq, Sha1Sum.mk.injEq]
  split_ifs <;> simp_all

theorem sha1_less_iff (a b : Sha1Sum) :
    a.less b = true ↔
      (a.a0 < b.a0 ∨ (a.a0 = b.a0 ∧ (a.a1 < b.a1 ∨ (a.a1 = b.a1 ∧ (a.a2 < b.a2 ∨
        (a.a2 = b.a2 ∧ (a.a3 < b.a3 ∨ (a.a3 = b.a3 ∧ a.a4 < b.a4)))))))) := by
  simp only [Sha1Sum.less]
  split_ifs <;> simp only [decide_eq_true_eq] <;> omega

theorem sha1_less_irrefl (a : Sha1Sum) : a.less a = false := by
  simp [Sha1Sum.less]

theorem sha1_less_trans {a b c : Sha1Sum} (h1 : a.less b = true) (h2 : b.less c = true) :
    a.less c = true := by
  rw [sha1_less_iff] at h1 h2 ⊢
  omega

theorem sha1_less_total {a b : Sha1Sum} (h1 : a.less b = false) (h2 : b.less a = false) :
    a = b := by
  have h1' : ¬ a.less b = true := by simp [h1]
  have h2' : ¬ b.less a = true := by simp [h2]
  rw [sha1_less_iff] at h1' h2'
  obtain ⟨a0, a1, a2, a3, a4⟩ := a
  obtain ⟨b0, b1, b2, b3, b4⟩ := b
  simp only at h1' h2'
  simp only [Sha1Sum.mk.injEq]
  omega

theorem lower_bound_take {ρ : Type} (db : List (Sha1Sum × ρ)) (s : Sha1Sum) :
    ∀ x ∈ db.take (lower_bound db s), x.1.less s = true := by
  induction db with
  | nil => simp [lower_bound]
  | cons p rest ih =>
    simp only [lower_bound]
    split
    · rename_i h
      intro x hx
      simp only [List.take_succ_cons, List.mem_cons] at hx
      rcases hx with rfl | hx
      · exact h
      · exact ih x hx
    · simp

theorem lower_bound_drop {ρ : Type} (db : List (Sha1Sum × ρ)) (s : Sha1Sum)
    (hs : db.Pairwise (fun x y => x.1.less y.1 = true)) :
    ∀ x ∈ db.drop (lower_bound db s), x.1.less s = false := by
  induction db with
  | nil => simp [lower_bound]
  | cons p rest ih =>
    rw [List.pairwise_cons] at hs
    simp only [lower_bound]
    split
    · intro x hx
      simp only [List.drop_succ_cons] at hx
      exact ih hs.2 x hx
    · rename_i h
      intro x hx
      simp only [List.drop_zero, List.mem_cons] at hx
      rcases hx with rfl | hx
      · simpa using h
      · cases hxs : x.1.less s with
        | false => rfl
        | true => exact absurd (sha1_less_trans (hs.1 x hx) hxs) h

/-- A list sorted by `operator<` whose keys are pairwise distinct is strictly
ascending. -/
theorem strictly_sorted {ρ : Type} (db : List (Sha1Sum × ρ))
    (hs : db.Pairwise (fun x y => y.1.less x.1 = false))
    (hd : db.Pairwise (fun x y => x.1 ≠ y.1)) :
    db.Pairwise (fun x y => x.1.less y.1 = true) := by
  have h := hs.and hd
  refine h.imp ?_
  intro x y hxy
  cases hl : x.1.less y.1 with
  | true => rfl
  | false => exact absurd (sha1_less_total hl hxy.1) hxy.2

theorem fetchRomInfo_found {ρ : Type} (db : List (Sha1Sum × ρ)) (s : Sha1Sum) (r : ρ)
    (hs : db.Pairwise (fun x y => x.1.less y.1 = true)) (hm : (s, r) ∈ db) :
    fetchRomInfo db s = some r := by
  have ht := lower_bound_take db s
  have hdr := lower_bound_drop db s hs
  have hsplit := List.take_append_drop (lower_bound db s) db
  have hsorted : (db.drop (lower_bound db s)).Pairwise (fun x y => x.1.less y.1 = true) :=
    hs.sublist (List.drop_sublist _ _)
  have hin : (s, r) ∈ db.drop (lower_bound db s) := by
    rw [← hsplit] at hm
    rcases List.mem_append.1 hm with h | h
    · have := ht _ h
      rw [sha1_less_irrefl] at this
      cases this
    · exact h
  unfold fetchRomInfo
  generalize db.drop (lower_bound db s) = after at hdr hsorted hin
  cases after with
  | nil => cases hin
  | cons it rest =>
    rcases List.mem_cons.1 hin with h | h
    · subst h
      simp [(sha1_eq_iff s s).2 rfl]
    · have h1 := (List.pairwise_cons.1 hsorted).1 _ h
      have h2 := hdr it (List.mem_cons_self _ _)
      simp only at h1
      rw [h2] at h1
      cases h1

theorem fetchRomInfo_some {ρ : Type} (db : List (Sha1Sum × ρ)) (s : Sha1Sum) (r : ρ)
    (h : fetchRomInfo db s = some r) : (s, r) ∈ db := by
  unfold fetchRomInfo at h
  have hsub : ∀ x ∈ db.drop (lower_bound db s), x ∈ db := fun x hx => List.mem_of_mem_drop hx
  generalize db.drop (lower_bound db s) = after at h hsub
  cases after with
  | nil => cases h
  | cons it rest =>
    simp only at h
    split at h
    · rename_i he
      have e := (sha1_eq_iff _ _).1 he
      simp only [Option.some.injEq] at h
      have := hsub it (List.mem_cons_self _ _)
      rw [← e, ← h]
      exact this
    · cases h


/-! ## Lists: getD -/

theorem getD_set_eq (l : List Nat) (i v : Nat) (h : i < l.length) :
    (l.set i v).getD i 0 = v := by
  simp [List.getD_eq_getElem?_getD, List.getElem?_set_self h]

theorem getD_set_ne (l : List Nat) (i j v : Nat) (h : i ≠ j) :
    (l.set i v).getD j 0 = l.getD j 0 := by
  simp [List.getD_eq_getElem?_getD, List.getElem?_set_ne h]

theorem getD_drop (l : List Nat) (n j : Nat) : (l.drop n).getD j 0 = l.getD (n + j) 0 := by
  simp [List.getD_eq_getElem?_getD, List.getElem?_drop]

theorem getD_take (l : List Nat) (n j : Nat) (h : j < n) :
    (l.take n).getD j 0 = l.getD j 0 := by
  simp [List.getD_eq_getElem?_getD, List.getElem?_take, h]

/-! ## The message schedule -/

theorem fipsExtend_length (n : Nat) (ws : List Nat) :
    (fipsExtend n ws).length = ws.length + n := by
  induction n with
  | zero => rfl
  | succ n ih => simp [fipsExtend, ih, Nat.add_assoc]

theorem fipsExtend_getD_succ (n : Nat) (ws : List Nat) (t : Nat) (h : t < ws.length + n) :
    (fipsExtend (n + 1) ws).getD t 0 = (fipsExtend n ws).getD t 0 := by
  simp only [fipsExtend]
  exact List.getD_append _ _ _ _ (by rw [fipsExtend_length]; exact h)

theorem fipsExtend_getD_stable (ws : List Nat) (t m : Nat) (h : t < ws.length + m) :
    ∀ n, m ≤ n → (fipsExtend n ws).getD t 0 = (fipsExtend m ws).getD t 0 := by
  intro n hmn
  induction n with
  | zero =>
    have : m = 0 := by omega
    subst this
    rfl
  | succ n ih =>
    by_cases hm : m = n + 1
    · subst hm; rfl
    · rw [fipsExtend_getD_succ n ws t (by omega)]
      exact ih (by omega)

theorem fipsExtend_getD_new (n : Nat) (ws : List Nat) :
    (fipsExtend (n + 1) ws).getD (ws.length + n) 0 =
      fipsS 1 ((fipsExtend n ws).getD (ws.length + n - 3) 0 ^^^
        (fipsExtend n ws).getD (ws.length + n - 8) 0 ^^^
        (fipsExtend n ws).getD (ws.length + n - 14) 0 ^^^
        (fipsExtend n ws).getD (ws.length + n - 16) 0) := by
  simp only [fipsExtend]
  rw [List.getD_append_right _ _ _ _ (by rw [fipsExtend_length])]
  simp [fipsExtend_length]

theorem fipsWords_length (block : List Nat) : (fipsWords block).length = 16 := by
  simp [fipsWords]

/-- The schedule recurrence of FIPS 180-1 for `16 ≤ t < 80`. -/
theorem fipsSchedule_rec (block : List Nat) (t : Nat) (h16 : 16 ≤ t) (h80 : t < 80) :
    (fipsSchedule block).getD t 0 =
      fipsS 1 ((fipsSchedule block).getD (t - 3) 0 ^^^ (fipsSchedule block).getD (t - 8) 0 ^^^
        (fipsSchedule block).getD (t - 14) 0 ^^^ (fipsSchedule block).getD (t - 16) 0) := by
  have hl := fipsWords_length block
  have stable : ∀ k, k < t → (fipsSchedule block).getD k 0 =
      (fipsExtend (t - 16) (fipsWords block)).getD k 0 := by
    intro k hk
    exact fipsExtend_getD_stable _ k (t - 16) (by omega) 64 (by omega)
  have hnew := fipsExtend_getD_new (t - 16) (fipsWords block)
  have e1 : (fipsWords block).length + (t - 16) = t := by omega
  have e2 : t - 16 + 1 = t - 15 := by omega
  rw [e1, e2] at hnew
  rw [stable (t - 3) (by omega), stable (t - 8) (by omega), stable (t - 14) (by omega),
    stable (t - 16) (by omega), ← hnew]
  exact fipsExtend_getD_stable _ t (t - 15) (by omega) 64 (by omega)

/-- The first sixteen schedule words are the block's words, read as
`readB32` reads them. -/
theorem fipsSchedule_first (buffer : List Nat) (k : Nat) (hk : k < 16) :
    (fipsSchedule buffer).getD k 0 = readB32 ((buffer.take 64).drop (4 * k)) := by
  have h0 : (fipsSchedule buffer).getD k 0 = (fipsWords buffer).getD k 0 :=
    fipsExtend_getD_stable _ k 0 (by rw [fipsWords_length]; omega) 64 (by omega)
  rw [h0, readB32, getD_drop, getD_drop, getD_drop, getD_drop,
    getD_take _ _ _ (by omega), getD_take _ _ _ (by omega), getD_take _ _ _ (by omega),
    getD_take _ _ _ (by omega)]
  simp [fipsWords, List.getD_eq_getElem?_getD, List.getElem?_range hk]

/-! ## The round functions -/

theorem rol32_eq_fipsS (v n : Nat) : rol32 v n = fipsS n v := rfl

theorem rol32_lt (v bits : Nat) (hv : v < 2 ^ 32) : rol32 v bits < 2 ^ 32 := by
  unfold rol32
  apply Nat.or_lt_two_pow (Nat.mod_lt _ (by decide))
  rw [Nat.shiftRight_eq_div_pow]
  exact Nat.lt_of_le_of_lt (Nat.div_le_self _ _) hv

theorem ch_eq (B C D : Nat) (hB : B < 2 ^ 32) (hC : C < 2 ^ 32) (hD : D < 2 ^ 32) :
    ((B &&& (C ^^^ D)) ^^^ D) = (B &&& C) ||| (fipsNot B &&& D) := by
  apply Nat.eq_of_testBit_eq
  intro i
  have hn : fipsNot B = 2 ^ 32 - (B + 1) := by unfold fipsNot; omega
  rw [hn]
  simp only [Nat.testBit_xor, Nat.testBit_and, Nat.testBit_or,
    Nat.testBit_two_pow_sub_succ hB]
  by_cases h32 : i < 32
  · simp only [h32, decide_True, Bool.true_and]
    cases B.testBit i <;> cases C.testBit i <;> cases D.testBit i <;> rfl
  · have hi : 32 ≤ i := Nat.le_of_not_lt h32
    have hb : B.testBit i = false :=
      Nat.testBit_lt_two_pow (Nat.lt_of_lt_of_le hB (Nat.pow_le_pow_right (by decide) hi))
    have hc : C.testBit i = false :=
      Nat.testBit_lt_two_pow (Nat.lt_of_lt_of_le hC (Nat.pow_le_pow_right (by decide) hi))
    have hd : D.testBit i = false :=
      Nat.testBit_lt_two_pow (Nat.lt_of_lt_of_le hD (Nat.pow_le_pow_right (by decide) hi))
    simp [hb, hc, hd]

theorem maj_eq (B C D : Nat) :
    (((B ||| C) &&& D) ||| (B &&& C)) = (B &&& C) ||| (B &&& D) ||| (C &&& D) := by
  apply Nat.eq_of_testBit_eq
  intro i
  simp only [Nat.testBit_and, Nat.testBit_or]
  cases B.testBit i <;> cases C.testBit i <;> cases D.testBit i <;> rfl

/-! ## The calls follow the pattern -/

theorem transformCalls_eq : transformCalls = (List.range 80).map callAt := by
  decide

theorem exec_view (i : Nat) (r : Regs) (blk : WorkspaceBlock) :
    (view (i + 1) ((callAt i).exec (r, blk)).1, ((callAt i).exec (r, blk)).2) =
      codeRound i (view i r, blk) := by
  obtain ⟨a, b, c, d, e⟩ := r
  have h5 : i % 5 < 5 := Nat.mod_lt _ (by decide)
  have hs : (i + 1) % 5 = (i % 5 + 1) % 5 := by omega
  have cases5 : i % 5 = 0 ∨ i % 5 = 1 ∨ i % 5 = 2 ∨ i % 5 = 3 ∨ i % 5 = 4 := by omega
  rcases cases5 with h | h | h | h | h <;>
    · rw [h] at hs
      simp only [view, callAt, h, hs, RoundCall.exec, codeRound, Regs.get, Regs.set]

/-! ## The words stored in the block -/

theorem and15 (x : Nat) : x &&& 15 = x % 16 :=
  Nat.and_pow_two_sub_one_eq_mod x 4

theorem next0_spec (buffer : List Nat) (i : Nat) (blk : WorkspaceBlock) (hi : i < 16)
    (hJ : BlockInv (fipsSchedule buffer) (buffer.take 64) i blk) :
    (blk.next0 i).1 = (fipsSchedule buffer).getD i 0 ∧
      BlockInv (fipsSchedule buffer) (buffer.take 64) (i + 1) (blk.next0 i).2 := by
  obtain ⟨hraw, hlen, hdata⟩ := hJ
  have hv : (blk.next0 i).1 = (fipsSchedule buffer).getD i 0 := by
    simp only [WorkspaceBlock.next0, hraw]
    exact (fipsSchedule_first buffer i hi).symm
  refine ⟨hv, hraw, by simp [WorkspaceBlock.next0, hlen], ?_⟩
  intro k hk1 hk2
  have hdata' : (blk.next0 i).2.data = blk.data.set i (blk.next0 i).1 := rfl
  rw [hdata']
  by_cases hki : k = i
  · subst hki
    rw [Nat.mod_eq_of_lt hi, getD_set_eq _ _ _ (by omega), hv]
  · have hk : k < i := by omega
    have hk16 : k % 16 = k := Nat.mod_eq_of_lt (by omega)
    rw [hk16, getD_set_ne _ _ _ _ (by omega)]
    have := hdata k hk (by omega)
    rwa [hk16] at this

theorem next_spec (buffer : List Nat) (i : Nat) (blk : WorkspaceBlock) (h16 : 16 ≤ i)
    (h80 : i < 80) (hJ : BlockInv (fipsSchedule buffer) (buffer.take 64) i blk) :
    (blk.next i).1 = (fipsSchedule buffer).getD i 0 ∧
      BlockInv (fipsSchedule buffer) (buffer.take 64) (i + 1) (blk.next i).2 := by
  obtain ⟨hraw, hlen, hdata⟩ := hJ
  have m3 : (i + 13) % 16 = (i - 3) % 16 := by omega
  have m8 : (i + 8) % 16 = (i - 8) % 16 := by omega
  have m14 : (i + 2) % 16 = (i - 14) % 16 := by omega
  have m16 : i % 16 = (i - 16) % 16 := by omega
  have hv : (blk.next i).1 = (fipsSchedule buffer).getD i 0 := by
    simp only [WorkspaceBlock.next, and15]
    rw [m3, m8, m14, m16, hdata (i - 3) (by omega) (by omega),
      hdata (i - 8) (by omega) (by omega), hdata (i - 14) (by omega) (by omega),
      hdata (i - 16) (by omega) (by omega), rol32_eq_fipsS]
    exact (fipsSchedule_rec buffer i h16 h80).symm
  refine ⟨hv, hraw, by simp [WorkspaceBlock.next, hlen], ?_⟩
  intro k hk1 hk2
  have hdata' : (blk.next i).2.data = blk.data.set (i % 16) (blk.next i).1 := by
    simp only [WorkspaceBlock.next, and15]
  rw [hdata']
  by_cases hki : k = i
  · subst hki
    rw [getD_set_eq _ _ _ (by rw [hlen]; exact Nat.mod_lt _ (by decide)), hv]
  · have hk : k < i := by omega
    rw [getD_set_ne _ _ _ _ (by omega)]
    exact hdata k hk (by omega)

/-! ## One call is one step of FIPS 180-1 -/

theorem sum_mod_eq (E f n K r : Nat) :
    (E + (f + n + K + r)) % 2 ^ 32 = (r + f + E + n + K) % 2 ^ 32 := by
  congr 1
  omega

theorem codeRound_fips (buffer : List Nat) (i : Nat)
    (st : Nat × Nat × Nat × Nat × Nat) (blk : WorkspaceBlock) (hi : i < 80)
    (hJ : BlockInv (fipsSchedule buffer) (buffer.take 64) i blk) (hst : Words32 st) :
    (codeRound i (st, blk)).1 = fipsRound (fipsSchedule buffer) st i ∧
      BlockInv (fipsSchedule buffer) (buffer.take 64) (i + 1) (codeRound i (st, blk)).2 ∧
      Words32 (fipsRound (fipsSchedule buffer) st i) := by
  obtain ⟨A, B, C, D, E⟩ := st
  obtain ⟨hA, hB, hC, hD, hE⟩ := hst
  simp only at hA hB hC hD hE
  have hw : Words32 (fipsRound (fipsSchedule buffer) (A, B, C, D, E) i) := by
    refine ⟨Nat.mod_lt _ (by decide), hA, ?_, hC, hD⟩
    show fipsS 30 B < 2 ^ 32
    rw [← rol32_eq_fipsS]
    exact rol32_lt B 30 hB
  by_cases h16 : i < 16
  · obtain ⟨hv, hJ'⟩ := next0_spec buffer i blk h16 hJ
    have hk : kindAt i = 0 := by simp [kindAt, h16]
    have h20 : i < 20 := by omega
    refine ⟨?_, ?_, hw⟩
    · simp only [codeRound, hk, WorkspaceBlock.r0, hv, fipsRound, fipsF, fipsK, h20, if_true,
        rol32_eq_fipsS, ch_eq B C D hB hC hD, sum_mod_eq]
    · simpa only [codeRound, hk, WorkspaceBlock.r0] using hJ'
  · have h16' : 16 ≤ i := Nat.le_of_not_lt h16
    obtain ⟨hv, hJ'⟩ := next_spec buffer i blk h16' hi hJ
    by_cases h20 : i < 20
    · have hk : kindAt i = 1 := by simp [kindAt, h16, h20]
      refine ⟨?_, ?_, hw⟩
      · simp only [codeRound, hk, WorkspaceBlock.r1, hv, fipsRound, fipsF, fipsK, h20, if_true,
          rol32_eq_fipsS, ch_eq B C D hB hC hD, sum_mod_eq]
      · simpa only [codeRound, hk, WorkspaceBlock.r1] using hJ'
    · by_cases h40 : i < 40
      · have hk : kindAt i = 2 := by simp [kindAt, h16, h20, h40]
        refine ⟨?_, ?_, hw⟩
        · simp only [codeRound, hk, WorkspaceBlock.r2, hv, fipsRound, fipsF, fipsK, h20, h40,
            if_true, if_false, rol32_eq_fipsS, sum_mod_eq]
        · simpa only [codeRound, hk, WorkspaceBlock.r2] using hJ'
      · by_cases h60 : i < 60
        · have hk : kindAt i = 3 := by simp [kindAt, h16, h20, h40, h60]
          refine ⟨?_, ?_, hw⟩
          · simp only [codeRound, hk, WorkspaceBlock.r3, hv, fipsRound, fipsF, fipsK, h20, h40,
              h60, if_true, if_false, rol32_eq_fipsS, maj_eq, sum_mod_eq]
          · simpa only [codeRound, hk, WorkspaceBlock.r3] using hJ'
        · have hk : kindAt i = 4 := by simp [kindAt, h16, h20, h40, h60]
          refine ⟨?_, ?_, hw⟩
          · simp only [codeRound, hk, WorkspaceBlock.r4, hv, fipsRound, fipsF, fipsK, h20, h40,
              h60, if_false, rol32_eq_fipsS, sum_mod_eq]
          · simpa only [codeRound, hk, WorkspaceBlock.r4] using hJ'

/-! ## transform is the block function of FIPS 180-1 -/

theorem fold_calls (H : Sha1Sum) (hH : H.WellFormed) (buffer : List Nat) :
    ∀ n, n ≤ 80 →
      view n (((List.range n).map callAt).foldl (fun s call => call.exec s)
          (⟨H.a0, H.a1, H.a2, H.a3, H.a4⟩, WorkspaceBlock.new buffer)).1 =
        (List.range n).foldl (fipsRound (fipsSchedule buffer)) (H.a0, H.a1, H.a2, H.a3, H.a4) ∧
      BlockInv (fipsSchedule buffer) (buffer.take 64) n
        (((List.range n).map callAt).foldl (fun s call => call.exec s)
          (⟨H.a0, H.a1, H.a2, H.a3, H.a4⟩, WorkspaceBlock.new buffer)).2 ∧
      Words32 ((List.range n).foldl (fipsRound (fipsSchedule buffer))
        (H.a0, H.a1, H.a2, H.a3, H.a4)) := by
  intro n
  induction n with
  | zero =>
    intro _
    refine ⟨rfl, ⟨rfl, by simp [WorkspaceBlock.new], ?_⟩, hH⟩
    intro k hk
    omega
  | succ n ih =>
    intro hn
    obtain ⟨hv, hJ, hw⟩ := ih (by omega)
    rw [List.range_succ, List.map_append, List.foldl_append, List.foldl_append]
    simp only [List.map_cons, List.map_nil, List.foldl_cons, List.foldl_nil]
    generalize ((List.range n).map callAt).foldl (fun s call => call.exec s)
      (⟨H.a0, H.a1, H.a2, H.a3, H.a4⟩, WorkspaceBlock.new buffer) = s at hv hJ
    obtain ⟨r, blk⟩ := s
    have hex := exec_view n r blk
    simp only at hv hJ
    rw [hv] at hex
    obtain ⟨c1, c2, c3⟩ := codeRound_fips buffer n _ blk (by omega) hJ hw
    rw [← hex] at c1 c2
    exact ⟨c1, c2, c3⟩

theorem view_80 (r : Regs) : view 80 r = (r.a, r.b, r.c, r.d, r.e) := rfl

theorem transform_eq_fipsCompress (H : Sha1Sum) (hH : H.WellFormed) (buffer : List Nat) :
    transform H buffer = fipsCompress H buffer := by
  obtain ⟨hv, -, -⟩ := fold_calls H hH buffer 80 (Nat.le_refl _)
  unfold transform fipsCompress
  simp only [transformCalls_eq]
  generalize ((List.range 80).map callAt).foldl (fun s call => call.exec s)
    (⟨H.a0, H.a1, H.a2, H.a3, H.a4⟩, WorkspaceBlock.new buffer) = s at hv
  rw [view_80] at hv
  rw [← hv]

theorem transform_wellFormed (H : Sha1Sum) (buffer : List Nat) :
    (transform H buffer).WellFormed := by
  unfold transform Sha1Sum.WellFormed
  simp only
  exact ⟨Nat.mod_lt _ (by decide), Nat.mod_lt _ (by decide), Nat.mod_lt _ (by decide),
    Nat.mod_lt _ (by decide), Nat.mod_lt _ (by decide)⟩


/-! ## update: blocks taken in -/

theorem absorb_append (n : Nat) : ∀ (st : Sha1Sum) (xs ys : List Nat), 64 * n ≤ xs.length →
    absorb n st (xs ++ ys) = absorb n st xs := by
  induction n with
  | zero => intro st xs ys _; rfl
  | succ n ih =>
    intro st xs ys h
    simp only [absorb]
    rw [List.take_append_of_le_length (by omega), List.drop_append_of_le_length (by omega)]
    exact ih _ _ _ (by simp; omega)

theorem absorb_add (m : Nat) : ∀ (n : Nat) (st : Sha1Sum) (xs : List Nat),
    absorb (m + n) st xs = absorb n (absorb m st xs) (xs.drop (64 * m)) := by
  induction m with
  | zero => intro n st xs; simp [absorb]
  | succ m ih =>
    intro n st xs
    have e : m + 1 + n = (m + n) + 1 := by omega
    rw [e]
    simp only [absorb]
    rw [ih, List.drop_drop]
    congr 2
    omega

theorem absorb_wellFormed (n : Nat) : ∀ (st : Sha1Sum) (xs : List Nat), st.WellFormed →
    (absorb n st xs).WellFormed := by
  induction n with
  | zero => intro st xs h; exact h
  | succ n ih =>
    intro st xs _
    exact ih _ _ (transform_wellFormed _ _)

theorem absorb_eq_fipsBlocks (n : Nat) : ∀ (st : Sha1Sum) (xs : List Nat), st.WellFormed →
    absorb n st xs = fipsBlocks n st xs := by
  induction n with
  | zero => intro st xs _; rfl
  | succ n ih =>
    intro st xs h
    simp only [absorb, fipsBlocks]
    rw [← transform_eq_fipsCompress st h]
    exact ih _ _ (transform_wellFormed _ _)

/-- The loop of `update` while its index does not wrap: it ends, after
`(len - i) / 64` rounds. -/
theorem transformLoop_spec (data : List Nat) (hlen : data.length + 63 < 2 ^ 32) :
    ∀ (fuel i : Nat) (st : Sha1Sum), i ≤ data.length → (data.length - i) / 64 ≤ fuel →
      transformLoop data fuel i st =
        some (i + 64 * ((data.length - i) / 64),
          absorb ((data.length - i) / 64) st (data.drop i)) := by
  intro fuel
  induction fuel with
  | zero =>
    intro i st hi hf
    have h0 : (data.length - i) / 64 = 0 := by omega
    have hm : (i + 63) % 2 ^ 32 = i + 63 := Nat.mod_eq_of_lt (by omega)
    have hc : ¬ (i + 63 < data.length) := by omega
    simp only [transformLoop, hm, hc, if_false, h0, absorb, Nat.mul_zero, Nat.add_zero]
  | succ fuel ih =>
    intro i st hi hf
    have hm : (i + 63) % 2 ^ 32 = i + 63 := Nat.mod_eq_of_lt (by omega)
    by_cases hc : i + 63 < data.length
    · have hm2 : (i + 64) % 2 ^ 32 = i + 64 := Nat.mod_eq_of_lt (by omega)
      have hk : (data.length - i) / 64 = (data.length - (i + 64)) / 64 + 1 := by omega
      simp only [transformLoop, hm, hc, if_true, hm2]
      rw [ih (i + 64) _ (by omega) (by omega), hk]
      simp only [absorb, List.drop_drop]
      congr 2
      omega
    · have h0 : (data.length - i) / 64 = 0 := by omega
      simp only [transformLoop, hm, hc, if_false, h0, absorb, Nat.mul_zero, Nat.add_zero]

theorem memcpy_length (dst : List Nat) (j : Nat) (src : List Nat)
    (h : j + src.length ≤ dst.length) : (memcpy dst j src).length = dst.length := by
  simp [memcpy]
  omega

theorem count_index (L : Nat) : ((8 * L) >>> 3) &&& 63 = L % 64 := by
  rw [Nat.shiftRight_eq_div_pow]
  have h : 8 * L / 2 ^ 3 = L := by omega
  rw [h]
  exact Nat.and_pow_two_sub_one_eq_mod L 6

theorem count_add (L len : Nat) (h : 8 * (L + len) < 2 ^ 64) :
    (8 * L + (len <<< 3) % 2 ^ 64) % 2 ^ 64 = 8 * (L + len) := by
  rw [Nat.shiftLeft_eq]
  have h1 : (len * 2 ^ 3) % 2 ^ 64 = len * 8 := Nat.mod_eq_of_lt (by omega)
  rw [h1]
  exact Nat.mod_eq_of_lt (by omega) |>.trans (by omega)


/-! ## update keeps the account of what was taken in -/

theorem transform_take (st : Sha1Sum) (buffer : List Nat) :
    transform st (buffer.take 64) = transform st buffer := by
  unfold transform WorkspaceBlock.new
  rw [List.take_take, Nat.min_self]

theorem absorbed_new (junk : List Nat) : Absorbed (SHA1.new junk) [] := by
  refine ⟨rfl, rfl, rfl, ?_⟩
  simp

theorem memcpy_take_block (buf data : List Nat) (j : Nat) (hp : (buf.take j).length = j)
    (hj : j < 64) (hd : 64 - j ≤ data.length) :
    (memcpy buf j (data.take (64 - j))).take 64 = buf.take j ++ data.take (64 - j) := by
  unfold memcpy
  have hl : (buf.take j ++ data.take (64 - j)).length = 64 := by
    rw [List.length_append, hp, List.length_take]; omega
  rw [List.take_append_of_le_length (by omega), List.take_of_length_le (by omega)]

theorem take_block (p data : List Nat) (hp : p.length ≤ 64) :
    (p ++ data).take 64 = p ++ data.take (64 - p.length) := by
  rw [List.take_append_eq_append_take, List.take_of_length_le hp]

theorem drop_block (p data : List Nat) (hp : p.length ≤ 64) :
    (p ++ data).drop 64 = data.drop (64 - p.length) := by
  rw [List.drop_append_eq_append_drop, List.drop_of_length_le hp, List.nil_append]

theorem drop_past (msg data : List Nat) (n : Nat) (hn : msg.length ≤ n) :
    (msg ++ data).drop n = data.drop (n - msg.length) := by
  rw [List.drop_append_eq_append_drop, List.drop_of_length_le hn, List.nil_append]

theorem memcpy_zero_take (buf src : List Nat) (n : Nat) (hn : n = src.length) :
    (memcpy buf 0 src).take n = src := by
  unfold memcpy
  subst hn
  simp

/-- A call of `update` with fewer than `2 ^ 32 - 63` bytes returns, and the
object has then taken in those bytes as well. -/
theorem update_spec (s : SHA1) (msg data : List Nat) (fuel : Nat) (h : Absorbed s msg)
    (hlen : data.length + 63 < 2 ^ 32) (hc : 8 * (msg.length + data.length) < 2 ^ 64)
    (hf : data.length / 64 ≤ fuel) :
    ∃ s1, s.update fuel data = .ok s1 ∧ Absorbed s1 (msg ++ data) := by
  obtain ⟨hfin, hcnt, hst, hbuf⟩ := h
  have hpl : (s.m_buffer.take (msg.length % 64)).length = msg.length % 64 := by
    rw [hbuf, List.length_drop]; omega
  have hq : 64 * (msg.length / 64) ≤ msg.length := by omega
  unfold SHA1.update
  dsimp only
  rw [hfin, hcnt, count_index, count_add _ _ hc]
  simp only [Bool.false_eq_true, if_false]
  by_cases hj : msg.length % 64 + data.length > 63
  · rw [if_pos hj]
    rw [transformLoop_spec data hlen fuel (64 - msg.length % 64) _ (by omega) (by omega)]
    refine ⟨_, rfl, rfl, ?_, ?_, ?_⟩
    · simp only [List.length_append]
    · simp only [List.length_append]
      have e : (msg.length + data.length) / 64 =
          msg.length / 64 + ((data.length - (64 - msg.length % 64)) / 64 + 1) := by omega
      rw [e, absorb_add, absorb_append _ _ _ _ hq, ← hst, List.drop_append_of_le_length hq,
        ← hbuf]
      simp only [absorb]
      rw [← transform_take _ (memcpy _ _ _),
        memcpy_take_block _ _ _ hpl (by omega) (by omega)]
      have hp64 : (s.m_buffer.take (msg.length % 64)).length ≤ 64 := by rw [hpl]; omega
      rw [take_block _ _ hp64, drop_block _ _ hp64, hpl]
    · simp only [List.length_append]
      rw [memcpy_zero_take _ _ _ (by rw [List.length_drop]; omega)]
      have hn : msg.length ≤ 64 * ((msg.length + data.length) / 64) := by omega
      rw [drop_past _ _ _ hn]
      congr 1
      omega
  · rw [if_neg hj]
    refine ⟨_, rfl, rfl, ?_, ?_, ?_⟩
    · simp only [List.length_append]
    · simp only [List.length_append]
      have e : (msg.length + data.length) / 64 = msg.length / 64 := by omega
      rw [e, hst, absorb_append _ _ _ _ hq]
    · simp only [List.length_append]
      have e : (msg.length + data.length) / 64 = msg.length / 64 := by omega
      have e2 : (msg.length + data.length) % 64 = msg.length % 64 + data.length := by omega
      rw [e, e2, List.drop_append_of_le_length hq, ← hbuf]
      unfold memcpy
      rw [List.append_assoc, List.take_append_eq_append_take, hpl]
      simp [List.take_take]


/-! ## finalize pads as FIPS 180-1 says -/

theorem count_pad (n : Nat) : (8 * n) &&& 504 = 8 * (n % 64) := by
  have h1 : 8 * n = n <<< 3 := by rw [Nat.shiftLeft_eq]; omega
  have h2 : (504 : Nat) = 63 <<< 3 := by decide
  have h3 : 8 * (n % 64) = (n &&& 63) <<< 3 := by
    rw [Nat.shiftLeft_eq, show (63 : Nat) = 2 ^ 6 - 1 from rfl, Nat.and_pow_two_sub_one_eq_mod]
    omega
  rw [h1, h2, h3]
  apply Nat.eq_of_testBit_eq
  intro i
  simp only [Nat.testBit_and, Nat.testBit_shiftLeft]
  cases decide (i ≥ 3) <;> simp

theorem finalcount_eq (n : Nat) : finalcount n = be64 n := by
  simp [finalcount, be64, List.range, List.range.loop, Nat.shiftRight_eq_div_pow]

theorem be64_length (n : Nat) : (be64 n).length = 8 := rfl

/-- The padding loop ends after the zero bytes that bring the length to 56
modulo 64. -/
theorem padLoop_spec : ∀ (fuel : Nat) (s : SHA1) (m : List Nat), Absorbed s m →
    (120 - m.length % 64) % 64 ≤ fuel →
    m.length + (120 - m.length % 64) % 64 < 2 ^ 60 →
    ∃ s1, padLoop fuel s = .ok s1 ∧
      Absorbed s1 (m ++ List.replicate ((120 - m.length % 64) % 64) 0) := by
  intro fuel
  induction fuel with
  | zero =>
    intro s m h hf _
    have h56 : m.length % 64 = 56 := by omega
    have hk : (120 - m.length % 64) % 64 = 0 := by omega
    have hc : s.m_count &&& 504 = 448 := by rw [h.2.1, count_pad, h56]
    refine ⟨s, ?_, ?_⟩
    · simp [padLoop, hc]
    · rw [hk]; simpa using h
  | succ fuel ih =>
    intro s m h hf hb
    by_cases h56 : m.length % 64 = 56
    · have hk : (120 - m.length % 64) % 64 = 0 := by omega
      have hc : s.m_count &&& 504 = 448 := by rw [h.2.1, count_pad, h56]
      refine ⟨s, ?_, ?_⟩
      · simp [padLoop, hc]
      · rw [hk]; simpa using h
    · have hc : s.m_count &&& 504 ≠ 448 := by rw [h.2.1, count_pad]; omega
      obtain ⟨s1, hu, ha⟩ := update_spec s m [0] fuel h (by simp) (by simp; omega) (by simp)
      have hk : (120 - m.length % 64) % 64 = (120 - (m ++ [0]).length % 64) % 64 + 1 := by
        simp only [List.length_append, List.length_singleton]; omega
      have hl : (m ++ [0]).length = m.length + 1 := by simp
      obtain ⟨s2, hp, ha2⟩ := ih s1 (m ++ [0]) ha (by omega) (by omega)
      refine ⟨s2, ?_, ?_⟩
      · simp only [padLoop, hc, ne_eq, not_false_eq_true, if_true, hu, hp]
      · rw [hk, List.replicate_succ]
        simpa using ha2

theorem fipsInit_wellFormed : fipsInit.WellFormed := by decide

theorem fipsPad_eq (msg : List Nat) :
    ((msg ++ [0x80]) ++ List.replicate ((120 - (msg ++ [0x80]).length % 64) % 64) 0) ++
      be64 (8 * msg.length) = fipsPad msg := by
  have hk : (120 - (msg ++ [0x80]).length % 64) % 64 = (119 - msg.length % 64) % 64 := by
    simp only [List.length_append, List.length_singleton]; omega
  rw [hk]
  simp [fipsPad]

/-- The method `finalize` on an object that has taken in `msg` returns, with the
FIPS 180-1 digest of `msg` in `m_state`. -/
theorem finalize_spec (s : SHA1) (msg : List Nat) (fuel : Nat) (h : Absorbed s msg)
    (hf : 63 ≤ fuel) (hb : msg.length + 128 < 2 ^ 60) :
    ∃ s1, s.finalize fuel = .ok s1 ∧ s1.m_finalized = true ∧ s1.m_state = fipsSha1 msg := by
  have hl : (msg ++ [0x80]).length = msg.length + 1 := by simp
  obtain ⟨s1, hu1, ha1⟩ := update_spec s msg [0x80] fuel h (by simp) (by simp; omega) (by simp)
  obtain ⟨s2, hu2, ha2⟩ := padLoop_spec fuel s1 (msg ++ [0x80]) ha1 (by omega) (by omega)
  have hl2 : ((msg ++ [0x80]) ++
      List.replicate ((120 - (msg ++ [0x80]).length % 64) % 64) 0).length + 8 < 2 ^ 60 := by
    rw [List.length_append, List.length_replicate]; omega
  obtain ⟨s3, hu3, ha3⟩ := update_spec s2 _ (be64 (8 * msg.length)) fuel ha2
    (by rw [be64_length]; decide) (by rw [be64_length]; omega) (by rw [be64_length]; omega)
  rw [fipsPad_eq] at ha3
  refine ⟨{ s3 with m_finalized := true }, ?_, rfl, ?_⟩
  · unfold SHA1.finalize
    rw [h.1, h.2.1, finalcount_eq]
    simp only [Bool.false_eq_true, if_false, hu1, hu2, hu3]
  · show s3.m_state = fipsSha1 msg
    rw [ha3.2.2.1, absorb_eq_fipsBlocks _ _ _ fipsInit_wellFormed]
    rfl

theorem digest_spec (s : SHA1) (msg : List Nat) (fuel : Nat) (h : Absorbed s msg)
    (hf : 63 ≤ fuel) (hb : msg.length + 128 < 2 ^ 60) :
    ∃ s1, s.digest fuel = .ok (fipsSha1 msg, s1) := by
  obtain ⟨s1, hfin, _, hst⟩ := finalize_spec s msg fuel h hf hb
  refine ⟨s1, ?_⟩
  unfold SHA1.digest
  rw [h.1, hfin]
  simp [hst]

/-- The function `calc` on fewer than `2 ^ 32 - 63` bytes returns the FIPS 180-1
digest, whatever the buffer of the object held at first. -/
theorem calc_spec (junk data : List Nat) (fuel : Nat) (hlen : data.length + 63 < 2 ^ 32)
    (hf : data.length / 64 ≤ fuel) (hf2 : 63 ≤ fuel) :
    SHA1.calc junk fuel data = .ok (fipsSha1 data) := by
  obtain ⟨s1, hu, ha⟩ := update_spec (SHA1.new junk) [] data fuel (absorbed_new junk) hlen
    (by simp; omega) hf
  rw [List.nil_append] at ha
  obtain ⟨s2, hd⟩ := digest_spec s1 data fuel ha hf2 (by omega)
  unfold SHA1.calc
  rw [hu]
  dsimp only
  rw [hd]

/-! ## The test vectors of FIPS PUB 180-1 -/

set_option maxRecDepth 100000 in
theorem fips_abc : fipsSha1 (bytesOf "abc") =
    ⟨0xA9993E36, 0x4706816A, 0xBA3E2571, 0x7850C26C, 0x9CD0D89D⟩ := by
  rfl

set_option maxRecDepth 100000 in
theorem fips_two_blocks :
    fipsSha1 (bytesOf "abcdbcdecdefdefgefghfghighijhijkijkljklmklmnlmnomnopnopq") =
    ⟨0x84983E44, 0x1C3BD26E, 0xBAAE4AA1, 0xF95129E5, 0xE54670F1⟩ := by
  rfl


/-! ## Buffers of 4 GiB and more -/

/-- With `2 ^ 32` bytes or more the loop of `update` never ends: the 32-bit
`i + 63` is always below `len`. -/
theorem transformLoop_never_ends (data : List Nat) (h : 2 ^ 32 ≤ data.length) :
    ∀ (fuel i : Nat) (st : Sha1Sum), transformLoop data fuel i st = none := by
  intro fuel
  induction fuel with
  | zero =>
    intro i st
    have hc : (i + 63) % 2 ^ 32 < data.length :=
      lt_of_lt_of_le (Nat.mod_lt _ (by decide)) h
    simp only [transformLoop, hc, if_true]
  | succ fuel ih =>
    intro i st
    have hc : (i + 63) % 2 ^ 32 < data.length :=
      lt_of_lt_of_le (Nat.mod_lt _ (by decide)) h
    simp only [transformLoop, hc, if_true, ih]

theorem update_never_returns (s : SHA1) (data : List Nat) (fuel : Nat)
    (hfin : s.m_finalized = false) (h : 2 ^ 32 ≤ data.length) :
    s.update fuel data = .error .fuel := by
  unfold SHA1.update
  dsimp only
  have hj : (s.m_count >>> 3 &&& 63) + data.length > 63 := by
    have : (2 : Nat) ^ 32 = 4294967296 := by norm_num
    omega
  rw [hfin, if_neg (by decide), if_pos hj, transformLoop_never_ends data h]

theorem calc_never_returns (junk data : List Nat) (fuel : Nat) (h : 2 ^ 32 ≤ data.length) :
    SHA1.calc junk fuel data = .error .fuel := by
  unfold SHA1.calc
  rw [update_never_returns _ data fuel rfl h]

/-! ## The data passed in pieces -/

theorem two_updates_spec (junk a b : List Nat) (fuel : Nat) (ha : a.length + 63 < 2 ^ 32)
    (hb : b.length + 63 < 2 ^ 32) (hfa : a.length / 64 ≤ fuel) (hfb : b.length / 64 ≤ fuel)
    (hf : 63 ≤ fuel) :
    SHA1.digestAfterTwoUpdates junk fuel a b = .ok (fipsSha1 (a ++ b)) := by
  obtain ⟨s1, hu1, h1⟩ := update_spec (SHA1.new junk) [] a fuel (absorbed_new junk) ha
    (by simp; omega) hfa
  rw [List.nil_append] at h1
  obtain ⟨s2, hu2, h2⟩ := update_spec s1 a b fuel h1 hb (by omega) hfb
  obtain ⟨s3, hd⟩ := digest_spec s2 (a ++ b) fuel h2 hf (by rw [List.length_append]; omega)
  unfold SHA1.digestAfterTwoUpdates
  rw [hu1]
  dsimp only
  rw [hu2]
  dsimp only
  rw [hd]

theorem take_step (data : List Nat) (offset n : Nat) :
    data.take offset ++ (data.drop offset).take n = data.take (offset + n) := by
  rw [List.take_add]

theorem progressLoop_spec (fuel : Nat) (data : List Nat) (stepSize : Nat)
    (hs : stepSize + 63 < 2 ^ 32) (hf : stepSize / 64 ≤ fuel) (hd : data.length < 2 ^ 50) :
    ∀ (n : Nat) (sha1 : SHA1) (offset : Nat), Absorbed sha1 (data.take offset) →
      ∃ s1, progressLoop fuel data stepSize n sha1 offset = .ok (s1, offset + n * stepSize) ∧
        Absorbed s1 (data.take (offset + n * stepSize)) := by
  intro n
  induction n with
  | zero =>
    intro sha1 offset h
    exact ⟨sha1, by simp [progressLoop], by simpa using h⟩
  | succ n ih =>
    intro sha1 offset h
    have hl1 : (data.take offset).length ≤ data.length := by
      rw [List.length_take]; omega
    have hl2 : ((data.drop offset).take stepSize).length ≤ stepSize := by
      rw [List.length_take]; omega
    obtain ⟨s1, hu, h1⟩ := update_spec sha1 _ ((data.drop offset).take stepSize) fuel h
      (by omega) (by omega) (by omega)
    rw [take_step] at h1
    obtain ⟨s2, hp, h2⟩ := ih s1 (offset + stepSize) h1
    have e : offset + stepSize + n * stepSize = offset + (n + 1) * stepSize := by
      rw [Nat.add_mul]; omega
    rw [e] at hp h2
    exact ⟨s2, by simp only [progressLoop, hu, hp], h2⟩

/-- With 10 MiB or more, in pieces below `2 ^ 32 - 63` bytes, `calcWithProgress`
returns the FIPS 180-1 digest of the whole buffer. -/
theorem calcWithProgress_spec (junk data : List Nat) (fuel : Nat)
    (h10 : 10 * 1024 * 1024 ≤ data.length)
    (hs : data.length / 100 + data.length % 100 + 63 < 2 ^ 32)
    (hf : (data.length / 100 + data.length % 100) / 64 ≤ fuel) (hf2 : 63 ≤ fuel) :
    SHA1.calcWithProgress junk fuel data = .ok (fipsSha1 data) := by
  have hd : data.length < 2 ^ 50 := by omega
  obtain ⟨s1, hp, h1⟩ := progressLoop_spec fuel data (data.length / 100) (by omega) (by omega)
    hd 99 (SHA1.new junk) 0 (by simpa using absorbed_new junk)
  have hl1 : (data.take (0 + 99 * (data.length / 100))).length ≤ data.length := by
    rw [List.length_take]; omega
  have hl2 : ((data.drop (0 + 99 * (data.length / 100))).take
      (data.length / 100 + data.length % 100)).length ≤
      data.length / 100 + data.length % 100 := by
    rw [List.length_take]; omega
  obtain ⟨s2, hu, h2⟩ := update_spec s1 _
    ((data.drop (0 + 99 * (data.length / 100))).take
      (data.length / 100 + data.length % 100)) fuel h1 (by omega) (by omega) (by omega)
  rw [take_step, List.take_of_length_le (by omega)] at h2
  obtain ⟨s3, hdg⟩ := digest_spec s2 data fuel h2 hf2 (by omega)
  unfold SHA1.calcWithProgress
  dsimp only
  rw [if_neg (by omega), hp]
  dsimp only
  rw [hu]
  dsimp only
  rw [hdg]

theorem twoGiB_length : twoGiB.length = 2 ^ 31 := List.length_replicate _ _

theorem fourGiB_length : fourGiB.length = 2 ^ 32 := List.length_replicate _ _


/-! ## Order facts used by addAllEntries -/

theorem sha1_ne_iff (a b : Sha1Sum) : a.ne b = true ↔ a ≠ b := by
  unfold Sha1Sum.ne
  rw [Bool.not_eq_true', ← Bool.not_eq_true, sha1_eq_iff]

theorem sha1_eq_false_iff (a b : Sha1Sum) : a.eq b = false ↔ a ≠ b := by
  rw [← Bool.not_eq_true, sha1_eq_iff]

theorem sha1_less_of_le_of_ne {a b : Sha1Sum} (h1 : b.less a = false) (h2 : a ≠ b) :
    a.less b = true := by
  by_contra h
  exact h2 (sha1_less_total (by simpa using h) h1)

theorem sha1_less_of_less_of_le {a b c : Sha1Sum} (h1 : a.less b = true)
    (h2 : c.less b = false) : a.less c = true := by
  have h2' : ¬ c.less b = true := by simp [h2]
  rw [sha1_less_iff] at h1 h2' ⊢
  omega

theorem sha1_less_ne {a b : Sha1Sum} (h : a.less b = true) : a ≠ b := by
  rintro rfl
  rw [sha1_less_irrefl] at h
  cases h

theorem sha1_less_asymm {a b : Sha1Sum} (h : a.less b = true) : b.less a = false := by
  by_contra hc
  have := sha1_less_trans h (by simpa using hc)
  rw [sha1_less_irrefl] at this
  cases this

/-! ## Insertion sort does what sort requires -/

theorem insertByKey_perm {ρ : Type} (x : Sha1Sum × ρ) (l : List (Sha1Sum × ρ)) :
    (insertByKey x l).Perm (x :: l) := by
  induction l with
  | nil => exact List.Perm.refl _
  | cons y ys ih =>
    simp only [insertByKey]
    split
    · exact (List.Perm.cons y ih).trans (List.Perm.swap x y ys)
    · exact List.Perm.refl _

theorem insertByKey_sorted {ρ : Type} (x : Sha1Sum × ρ) (l : List (Sha1Sum × ρ))
    (h : l.Pairwise (fun x y => y.1.less x.1 = false)) :
    (insertByKey x l).Pairwise (fun x y => y.1.less x.1 = false) := by
  induction l with
  | nil => simp [insertByKey]
  | cons y ys ih =>
    rw [List.pairwise_cons] at h
    simp only [insertByKey]
    split
    · rename_i hy
      rw [List.pairwise_cons]
      refine ⟨?_, ih h.2⟩
      intro z hz
      rcases (List.mem_cons.mp ((insertByKey_perm x ys).mem_iff.mp hz)) with rfl | hz
      · exact sha1_less_asymm hy
      · exact h.1 z hz
    · rename_i hy
      have hy' : y.1.less x.1 = false := by simpa using hy
      rw [List.pairwise_cons]
      refine ⟨?_, List.pairwise_cons.mpr h⟩
      intro z hz
      rcases List.mem_cons.mp hz with rfl | hz
      · exact hy'
      · have h1 := h.1 z hz
        by_contra hc
        have hzx : z.1.less x.1 = true := by simpa using hc
        rcases Decidable.em (x.1 = y.1) with e | e
        · rw [e] at hzx; rw [hzx] at h1; cases h1
        · have := sha1_less_trans hzx (sha1_less_of_le_of_ne hy' e)
          rw [this] at h1; cases h1

theorem sortByKey_sorts {ρ : Type} : SortsByKey (sortByKey : List (Sha1Sum × ρ) → _) := by
  intro l
  induction l with
  | nil => exact ⟨List.Perm.refl _, List.Pairwise.nil⟩
  | cons x xs ih =>
    exact ⟨(insertByKey_perm x _).trans (List.Perm.cons x ih.1), insertByKey_sorted x _ ih.2⟩


/-! ## The duplicate filter and the merge as functions on lists -/

theorem uniqueFrom_head {ρ : Type} (l : List (Sha1Sum × ρ)) :
    ∀ a, ∃ t, uniqueFrom a l = a :: t := by
  induction l with
  | nil => intro a; exact ⟨[], rfl⟩
  | cons b t ih =>
    intro a
    simp only [uniqueFrom]
    split
    · exact ih a
    · exact ⟨_, rfl⟩

theorem uniqueFrom_mem {ρ : Type} (l : List (Sha1Sum × ρ)) :
    ∀ a x, x ∈ uniqueFrom a l → x ∈ a :: l := by
  induction l with
  | nil => intro a x hx; simpa [uniqueFrom] using hx
  | cons b t ih =>
    intro a x hx
    simp only [uniqueFrom] at hx
    split at hx
    · rcases List.mem_cons.mp (ih a x hx) with h | h
      · exact List.mem_cons.mpr (Or.inl h)
      · exact List.mem_cons_of_mem _ (List.mem_cons_of_mem _ h)
    · rcases List.mem_cons.mp hx with h | h
      · exact List.mem_cons.mpr (Or.inl h)
      · exact List.mem_cons_of_mem _ (ih b x h)

theorem uniqueFrom_keys {ρ : Type} (l : List (Sha1Sum × ρ)) :
    ∀ a x, x ∈ a :: l → ∃ y ∈ uniqueFrom a l, y.1 = x.1 := by
  induction l with
  | nil =>
    intro a x hx
    exact ⟨a, by simp [uniqueFrom], by simp at hx; rw [hx]⟩
  | cons b t ih =>
    intro a x hx
    simp only [uniqueFrom]
    split
    · rename_i hab
      rw [sha1_eq_iff] at hab
      rcases List.mem_cons.mp hx with h | h
      · exact ih a x (by rw [h]; exact List.mem_cons_self _ _)
      · rcases List.mem_cons.mp h with h | h
        · obtain ⟨y, hy, hk⟩ := ih a a (List.mem_cons_self _ _)
          exact ⟨y, hy, by rw [hk, h, hab]⟩
        · exact ih a x (List.mem_cons_of_mem _ h)
    · rcases List.mem_cons.mp hx with h | h
      · exact ⟨a, List.mem_cons_self _ _, by rw [h]⟩
      · obtain ⟨y, hy, hk⟩ := ih b x h
        exact ⟨y, List.mem_cons_of_mem _ hy, hk⟩

theorem uniqueFrom_sorted {ρ : Type} (l : List (Sha1Sum × ρ)) :
    ∀ a, (a :: l).Pairwise (fun x y => y.1.less x.1 = false) →
      StrictlySorted (uniqueFrom a l) := by
  induction l with
  | nil => intro a _; simp [uniqueFrom, StrictlySorted]
  | cons b t ih =>
    intro a h
    rw [List.pairwise_cons] at h
    simp only [uniqueFrom]
    split
    · apply ih a
      rw [List.pairwise_cons]
      exact ⟨fun y hy => h.1 y (List.mem_cons_of_mem _ hy), (List.pairwise_cons.mp h.2).2⟩
    · rename_i hab
      have hne : a.1 ≠ b.1 := by
        intro e; exact hab ((sha1_eq_iff _ _).mpr e)
      have hlt : a.1.less b.1 = true :=
        sha1_less_of_le_of_ne (h.1 b (List.mem_cons_self _ _)) hne
      unfold StrictlySorted
      rw [List.pairwise_cons]
      refine ⟨?_, ih b h.2⟩
      intro y hy
      have hy' := uniqueFrom_mem t b y hy
      rcases List.mem_cons.mp hy' with e | hyt
      · rw [e]; exact hlt
      · exact sha1_less_of_less_of_le hlt ((List.pairwise_cons.mp h.2).1 y hyt)

theorem uniqueByKey_sorted {ρ : Type} (l : List (Sha1Sum × ρ))
    (h : l.Pairwise (fun x y => y.1.less x.1 = false)) : StrictlySorted (uniqueByKey l) := by
  cases l with
  | nil => exact List.Pairwise.nil
  | cons a t => exact uniqueFrom_sorted t a h

theorem uniqueByKey_mem {ρ : Type} (l : List (Sha1Sum × ρ)) (x : Sha1Sum × ρ)
    (h : x ∈ uniqueByKey l) : x ∈ l := by
  cases l with
  | nil => exact h
  | cons a t => exact uniqueFrom_mem t a x h

theorem uniqueByKey_keys {ρ : Type} (l : List (Sha1Sum × ρ)) (x : Sha1Sum × ρ)
    (h : x ∈ l) : ∃ y ∈ uniqueByKey l, y.1 = x.1 := by
  cases l with
  | nil => cases h
  | cons a t => exact uniqueFrom_keys t a x h

/-- Without two equal keys the filter removes nothing. -/
theorem uniqueFrom_of_nodup {ρ : Type} (l : List (Sha1Sum × ρ)) :
    ∀ a, ((a :: l).map Prod.fst).Nodup → uniqueFrom a l = a :: l := by
  induction l with
  | nil => intro a _; rfl
  | cons b t ih =>
    intro a h
    simp only [List.map_cons, List.nodup_cons] at h
    have hne : a.1 ≠ b.1 := by
      intro e; exact h.1 (by rw [e]; exact List.mem_cons_self _ _)
    have hab : a.1.eq b.1 = false := (sha1_eq_false_iff _ _).mpr hne
    simp only [uniqueFrom, hab]
    rw [ih b (by simp only [List.map_cons, List.nodup_cons]; exact h.2)]
    simp

theorem uniqueByKey_of_nodup {ρ : Type} (l : List (Sha1Sum × ρ))
    (h : (l.map Prod.fst).Nodup) : uniqueByKey l = l := by
  cases l with
  | nil => rfl
  | cons a t => exact uniqueFrom_of_nodup t a h

theorem uniqueFrom_length_le {ρ : Type} (l : List (Sha1Sum × ρ)) :
    ∀ a, (uniqueFrom a l).length ≤ l.length + 1 := by
  induction l with
  | nil => intro a; simp [uniqueFrom]
  | cons b t ih =>
    intro a
    simp only [uniqueFrom]
    split
    · have := ih a; simp only [List.length_cons]; omega
    · have := ih b; simp only [List.length_cons]; omega


/-! ## The merge keeps the order and prefers the old entries -/

theorem mergeByKey_nil_right {ρ : Type} (xs : List (Sha1Sum × ρ)) : mergeByKey xs [] = xs := by
  cases xs <;> simp [mergeByKey]

theorem strictlySorted_cons {ρ : Type} {a : Sha1Sum × ρ} {l : List (Sha1Sum × ρ)} :
    StrictlySorted (a :: l) ↔ (∀ y ∈ l, a.1.less y.1 = true) ∧ StrictlySorted l :=
  List.pairwise_cons

/-- What is in the merge: the first list, and of the second list the
elements whose key the first list does not have. -/
theorem mergeByKey_mem {ρ : Type} (xs ys : List (Sha1Sum × ρ)) :
    StrictlySorted xs → StrictlySorted ys → ∀ x,
      (x ∈ mergeByKey xs ys ↔ x ∈ xs ∨ (x ∈ ys ∧ ∀ o ∈ xs, o.1 ≠ x.1)) := by
  induction xs, ys using mergeByKey.induct with
  | case1 ys => intro _ _ x; simp [mergeByKey]
  | case2 a xs => intro _ _ x; simp [mergeByKey]
  | case3 a xs b ys hlt ih =>
    intro hx hy x
    rw [strictlySorted_cons] at hx
    have hyc := strictlySorted_cons.mp hy
    rw [mergeByKey, if_pos hlt, List.mem_cons, ih hx.2 hy x]
    have hfresh : ∀ z ∈ b :: ys, a.1 ≠ z.1 := by
      intro z hz
      rcases List.mem_cons.mp hz with e | hz
      · rw [e]; exact sha1_less_ne hlt
      · exact sha1_less_ne (sha1_less_trans hlt (hyc.1 z hz))
    constructor
    · rintro (h | h | ⟨h1, h2⟩)
      · exact Or.inl (List.mem_cons.mpr (Or.inl h))
      · exact Or.inl (List.mem_cons_of_mem _ h)
      · refine Or.inr ⟨h1, ?_⟩
        intro o ho
        rcases List.mem_cons.mp ho with e | ho
        · rw [e]; exact hfresh x h1
        · exact h2 o ho
    · rintro (h | ⟨h1, h2⟩)
      · rcases List.mem_cons.mp h with e | h
        · exact Or.inl e
        · exact Or.inr (Or.inl h)
      · exact Or.inr (Or.inr ⟨h1, fun o ho => h2 o (List.mem_cons_of_mem _ ho)⟩)
  | case4 a xs b ys hlt hne ih =>
    intro hx hy x
    have hxc := strictlySorted_cons.mp hx
    rw [strictlySorted_cons] at hy
    rw [mergeByKey, if_neg hlt, if_pos hne, List.mem_cons, ih hx hy.2 x]
    have hba : b.1.less a.1 = true :=
      sha1_less_of_le_of_ne (by simpa using hlt) (Ne.symm ((sha1_ne_iff _ _).mp hne))
    have hfresh : ∀ o ∈ a :: xs, o.1 ≠ b.1 := by
      intro o ho
      rcases List.mem_cons.mp ho with e | ho
      · rw [e]; exact Ne.symm (sha1_less_ne hba)
      · exact Ne.symm (sha1_less_ne (sha1_less_trans hba (hxc.1 o ho)))
    constructor
    · rintro (h | h | ⟨h1, h2⟩)
      · exact Or.inr ⟨List.mem_cons.mpr (Or.inl h), by rw [h]; exact hfresh⟩
      · exact Or.inl h
      · exact Or.inr ⟨List.mem_cons_of_mem _ h1, h2⟩
    · rintro (h | ⟨h1, h2⟩)
      · exact Or.inr (Or.inl h)
      · rcases List.mem_cons.mp h1 with e | h1
        · exact Or.inl e
        · exact Or.inr (Or.inr ⟨h1, h2⟩)
  | case5 a xs b ys hlt hne ih =>
    intro hx hy x
    rw [strictlySorted_cons] at hx hy
    have hab : a.1 = b.1 := by
      by_contra hc
      exact hne ((sha1_ne_iff _ _).mpr hc)
    rw [mergeByKey, if_neg hlt, if_neg hne, List.mem_cons, ih hx.2 hy.2 x]
    constructor
    · rintro (h | h | ⟨h1, h2⟩)
      · exact Or.inl (List.mem_cons.mpr (Or.inl h))
      · exact Or.inl (List.mem_cons_of_mem _ h)
      · refine Or.inr ⟨List.mem_cons_of_mem _ h1, ?_⟩
        intro o ho
        rcases List.mem_cons.mp ho with e | ho
        · rw [e, hab]; exact sha1_less_ne (hy.1 x h1)
        · exact h2 o ho
    · rintro (h | ⟨h1, h2⟩)
      · rcases List.mem_cons.mp h with e | h
        · exact Or.inl e
        · exact Or.inr (Or.inl h)
      · rcases List.mem_cons.mp h1 with e | h1
        · exact absurd (by rw [e, hab]) (h2 a (List.mem_cons_self _ _))
        · exact Or.inr (Or.inr ⟨h1, fun o ho => h2 o (List.mem_cons_of_mem _ ho)⟩)

theorem mergeByKey_sorted {ρ : Type} (xs ys : List (Sha1Sum × ρ)) :
    StrictlySorted xs → StrictlySorted ys → StrictlySorted (mergeByKey xs ys) := by
  induction xs, ys using mergeByKey.induct with
  | case1 ys => intro _ hy; simpa [mergeByKey] using hy
  | case2 a xs => intro hx _; simpa [mergeByKey] using hx
  | case3 a xs b ys hlt ih =>
    intro hx hy
    have hxc := strictlySorted_cons.mp hx
    have hyc := strictlySorted_cons.mp hy
    rw [mergeByKey, if_pos hlt, strictlySorted_cons]
    refine ⟨?_, ih hxc.2 hy⟩
    intro z hz
    rcases (mergeByKey_mem xs (b :: ys) hxc.2 hy z).mp hz with h | ⟨h, _⟩
    · exact hxc.1 z h
    · rcases List.mem_cons.mp h with e | h
      · rw [e]; exact hlt
      · exact sha1_less_trans hlt (hyc.1 z h)
  | case4 a xs b ys hlt hne ih =>
    intro hx hy
    have hxc := strictlySorted_cons.mp hx
    have hyc := strictlySorted_cons.mp hy
    have hba : b.1.less a.1 = true :=
      sha1_less_of_le_of_ne (by simpa using hlt) (Ne.symm ((sha1_ne_iff _ _).mp hne))
    rw [mergeByKey, if_neg hlt, if_pos hne, strictlySorted_cons]
    refine ⟨?_, ih hx hyc.2⟩
    intro z hz
    rcases (mergeByKey_mem (a :: xs) ys hx hyc.2 z).mp hz with h | ⟨h, _⟩
    · rcases List.mem_cons.mp h with e | h
      · rw [e]; exact hba
      · exact sha1_less_trans hba (hxc.1 z h)
    · exact hyc.1 z h
  | case5 a xs b ys hlt hne ih =>
    intro hx hy
    have hxc := strictlySorted_cons.mp hx
    have hyc := strictlySorted_cons.mp hy
    have hab : a.1 = b.1 := by
      by_contra hc
      exact hne ((sha1_ne_iff _ _).mpr hc)
    rw [mergeByKey, if_neg hlt, if_neg hne, strictlySorted_cons]
    refine ⟨?_, ih hxc.2 hyc.2⟩
    intro z hz
    rcases (mergeByKey_mem xs ys hxc.2 hyc.2 z).mp hz with h | ⟨h, _⟩
    · exact hxc.1 z h
    · rw [hab]; exact hyc.1 z h


/-! ## The loops of addAllEntries do what the list functions say -/

theorem get_at {α : Type} (l1 l2 : List α) (b : α) (i : Nat) (h : i = l1.length) :
    (l1 ++ b :: l2)[i]? = some b := by
  subst h
  rw [List.getElem?_append_right (Nat.le_refl _)]
  simp

theorem skip_spec {ρ : Type} (rest : List (Sha1Sum × ρ)) :
    ∀ (pre : List (Sha1Sum × ρ)) (a : Sha1Sum × ρ) (fuel : Nat), rest.length ≤ fuel →
      ∃ pre1 a1 rest1,
        skipNonDuplicates (pre ++ a :: rest) (pre ++ a :: rest).length fuel pre.length
          (pre.length + 1) = .ok (pre1.length, pre1.length + 1) ∧
        pre ++ a :: rest = pre1 ++ a1 :: rest1 ∧
        pre ++ uniqueFrom a rest = pre1 ++ uniqueFrom a1 rest1 ∧
        rest1.length ≤ rest.length := by
  induction rest with
  | nil =>
    intro pre a fuel _
    refine ⟨pre, a, [], ?_, rfl, rfl, Nat.le_refl _⟩
    cases fuel <;> simp [skipNonDuplicates]
  | cons b t ih =>
    intro pre a fuel hf
    obtain ⟨f, rfl⟩ : ∃ f, fuel = f + 1 := ⟨fuel - 1, by simp at hf; omega⟩
    have hne : pre.length + 1 ≠ (pre ++ a :: b :: t).length := by simp
    have h1 : (pre ++ a :: b :: t)[pre.length]? = some a := get_at _ _ _ _ rfl
    have h2 : (pre ++ a :: b :: t)[pre.length + 1]? = some b := by
      have := get_at (pre ++ [a]) t b (pre.length + 1) (by simp)
      simpa using this
    by_cases hab : a.1.eq b.1 = true
    · refine ⟨pre, a, b :: t, ?_, rfl, rfl, Nat.le_refl _⟩
      simp only [skipNonDuplicates, hne, ne_eq, not_false_eq_true, if_true, h1, h2, hab]
    · obtain ⟨pre1, a1, rest1, hs, hd, hu, hl⟩ := ih (pre ++ [a]) b f
        (by simp at hf; omega)
      have e : (pre ++ [a]) ++ b :: t = pre ++ a :: b :: t := by simp
      rw [e] at hs hd
      refine ⟨pre1, a1, rest1, ?_, hd, ?_, by simp only [List.length_cons]; omega⟩
      · simp only [skipNonDuplicates, hne, ne_eq, not_false_eq_true, if_true, h1, h2, hab]
        simpa using hs
      · rw [← hu]
        simp [uniqueFrom, hab]

theorem move_spec {ρ : Type} (rest : List (Sha1Sum × ρ)) :
    ∀ (pre : List (Sha1Sum × ρ)) (a : Sha1Sum × ρ) (junk : List (Sha1Sum × ρ)) (fuel : Nat),
      rest.length ≤ fuel →
      ∃ db1 it1,
        moveNonDuplicates (pre ++ a :: (junk ++ rest)).length fuel (pre ++ a :: (junk ++ rest))
          pre.length (pre.length + 1 + junk.length) = .ok (db1, it1) ∧
        db1.take (it1 + 1) = pre ++ uniqueFrom a rest := by
  induction rest with
  | nil =>
    intro pre a junk fuel _
    refine ⟨pre ++ a :: (junk ++ []), pre.length, ?_, ?_⟩
    · cases fuel <;> simp [moveNonDuplicates] <;> omega
    · have e : pre ++ a :: (junk ++ []) = (pre ++ [a]) ++ junk := by simp
      rw [e, List.take_append_of_le_length (by simp), List.take_of_length_le (by simp)]
      rfl
  | cons b t ih =>
    intro pre a junk fuel hf
    obtain ⟨f, rfl⟩ : ∃ f, fuel = f + 1 := ⟨fuel - 1, by simp at hf; omega⟩
    have hf1 : t.length ≤ f := by simp at hf; omega
    have hne : pre.length + 1 + junk.length ≠ (pre ++ a :: (junk ++ b :: t)).length := by
      simp; omega
    have h1 : (pre ++ a :: (junk ++ b :: t))[pre.length]? = some a := get_at _ _ _ _ rfl
    have h2 : (pre ++ a :: (junk ++ b :: t))[pre.length + 1 + junk.length]? = some b := by
      have := get_at (pre ++ a :: junk) t b (pre.length + 1 + junk.length) (by simp; omega)
      simpa using this
    by_cases hab : a.1.eq b.1 = true
    · obtain ⟨db1, it1, hm, ht⟩ := ih pre a (junk ++ [b]) f hf1
      have e : pre ++ a :: ((junk ++ [b]) ++ t) = pre ++ a :: (junk ++ b :: t) := by simp
      have e2 : pre.length + 1 + (junk ++ [b]).length = pre.length + 1 + junk.length + 1 := by
        simp; omega
      rw [e, e2] at hm
      refine ⟨db1, it1, ?_, ?_⟩
      · simp only [moveNonDuplicates, hne, ne_eq, not_false_eq_true, if_true, h1, h2, hab]
        exact hm
      · rw [ht]; simp [uniqueFrom, hab]
    · have hlt : pre.length + 1 < (pre ++ a :: (junk ++ b :: t)).length := by simp
      cases junk with
      | nil =>
        obtain ⟨db1, it1, hm, ht⟩ := ih (pre ++ [a]) b [] f hf1
        have e : (pre ++ [a]) ++ b :: ([] ++ t) = pre ++ a :: ([] ++ b :: t) := by simp
        have e2 : (pre ++ [a]).length = pre.length + 1 := by simp
        have hset : (pre ++ a :: ([] ++ b :: t)).set (pre.length + 1) b =
            pre ++ a :: ([] ++ b :: t) := by
          simp
        rw [e, e2] at hm
        refine ⟨db1, it1, ?_, ?_⟩
        · simp only [moveNonDuplicates, hne, ne_eq, not_false_eq_true, if_true, h1, h2, hab,
            hlt, hset]
          simpa using hm
        · rw [ht]; simp [uniqueFrom, hab]
      | cons j js =>
        obtain ⟨db1, it1, hm, ht⟩ := ih (pre ++ [a]) b (js ++ [b]) f hf1
        have e : (pre ++ [a]) ++ b :: ((js ++ [b]) ++ t) =
            pre ++ a :: b :: (js ++ b :: t) := by simp
        have e2 : (pre ++ [a]).length = pre.length + 1 := by simp
        have e3 : pre.length + 1 + 1 + (js ++ [b]).length =
            pre.length + 1 + (j :: js).length + 1 := by simp; omega
        have hset : (pre ++ a :: (j :: js ++ b :: t)).set (pre.length + 1) b =
            pre ++ a :: b :: (js ++ b :: t) := by
          simp
        have hlen : (pre ++ a :: b :: (js ++ b :: t)).length =
            (pre ++ a :: (j :: js ++ b :: t)).length := by simp
        rw [e, e2, e3, hlen] at hm
        refine ⟨db1, it1, ?_, ?_⟩
        · simp only [moveNonDuplicates, hne, ne_eq, not_false_eq_true, if_true, h1, h2, hab,
            hlt, hset]
          exact hm
        · rw [ht]; simp [uniqueFrom, hab]

theorem moveRange_spec {ρ : Type} (seg : List (Sha1Sum × ρ)) :
    ∀ (pre post result : List (Sha1Sum × ρ)) (fuel : Nat), seg.length ≤ fuel →
      moveRange (pre ++ (seg ++ post)) (pre.length + seg.length) fuel pre.length result =
        .ok (result ++ seg) := by
  induction seg with
  | nil =>
    intro pre post result fuel _
    cases fuel <;> simp [moveRange]
  | cons a t ih =>
    intro pre post result fuel hf
    obtain ⟨f, rfl⟩ : ∃ f, fuel = f + 1 := ⟨fuel - 1, by simp at hf; omega⟩
    have hne : pre.length ≠ pre.length + (a :: t).length := by simp
    have h1 : (pre ++ (a :: t ++ post))[pre.length]? = some a := get_at _ _ _ _ rfl
    have := ih (pre ++ [a]) post (result ++ [a]) f (by simp at hf; omega)
    have e : (pre ++ [a]) ++ (t ++ post) = pre ++ (a :: t ++ post) := by simp
    have e2 : (pre ++ [a]).length + t.length = pre.length + (a :: t).length := by
      simp; omega
    have e3 : (pre ++ [a]).length = pre.length + 1 := by simp
    rw [e, e2, e3] at this
    simp only [moveRange, hne, ne_eq, not_false_eq_true, if_true, h1, this]
    simp


/-! ## The merge loop -/

theorem merge_reads {ρ : Type} (ox xs oy ys : List (Sha1Sum × ρ)) (a b : Sha1Sum × ρ) :
    (ox.length ≠ (ox ++ a :: xs).length ∧
      (ox ++ a :: xs).length + oy.length ≠ ((ox ++ a :: xs) ++ (oy ++ b :: ys)).length) ∧
    ((ox ++ a :: xs) ++ (oy ++ b :: ys))[ox.length]? = some a ∧
    ((ox ++ a :: xs) ++ (oy ++ b :: ys))[(ox ++ a :: xs).length + oy.length]? = some b := by
  refine ⟨⟨?_, ?_⟩, ?_, ?_⟩
  · simp
  · simp only [List.length_append, List.length_cons]; omega
  · rw [List.append_assoc]; exact get_at _ _ _ _ rfl
  · rw [← List.append_assoc]
    exact get_at _ _ _ _ (by simp only [List.length_append])

theorem mergeLoop_spec {ρ : Type} (xs ys : List (Sha1Sum × ρ)) :
    ∀ (ox oy result : List (Sha1Sum × ρ)) (fuel : Nat), xs.length + ys.length ≤ fuel →
      ∃ ox1 xs1 oy1 ys1 r1,
        mergeLoop ((ox ++ xs) ++ (oy ++ ys)) (ox ++ xs).length
          ((ox ++ xs) ++ (oy ++ ys)).length fuel ox.length ((ox ++ xs).length + oy.length)
          result = .ok (ox1.length, (ox ++ xs).length + oy1.length, r1) ∧
        ox1 ++ xs1 = ox ++ xs ∧ oy1 ++ ys1 = oy ++ ys ∧
        xs1.length ≤ xs.length ∧ ys1.length ≤ ys.length ∧
        r1 ++ (xs1 ++ ys1) = result ++ mergeByKey xs ys := by
  induction xs, ys using mergeByKey.induct with
  | case1 ys =>
    intro ox oy result fuel _
    refine ⟨ox, [], oy, ys, result, ?_, rfl, rfl, Nat.le_refl _, Nat.le_refl _, ?_⟩
    · cases fuel <;> simp [mergeLoop]
    · simp [mergeByKey]
  | case2 a xs =>
    intro ox oy result fuel _
    have hlast : (ox ++ a :: xs).length + oy.length =
        ((ox ++ a :: xs) ++ (oy ++ [])).length := by
      simp only [List.length_append, List.length_nil, Nat.add_zero]
    refine ⟨ox, a :: xs, oy, [], result, ?_, rfl, rfl, Nat.le_refl _, Nat.le_refl _, ?_⟩
    · cases fuel <;>
        simp only [mergeLoop, hlast, ne_eq, not_true_eq_false, and_false, if_false]
    · simp [mergeByKey]
  | case3 a xs b ys hlt ih =>
    intro ox oy result fuel hf
    obtain ⟨f, rfl⟩ : ∃ f, fuel = f + 1 := ⟨fuel - 1, by simp only [List.length_cons] at hf; omega⟩
    obtain ⟨hc, h1, h2⟩ := merge_reads ox xs oy ys a b
    obtain ⟨ox1, xs1, oy1, ys1, r1, hm, e1, e2, l1, l2, hr⟩ :=
      ih (ox ++ [a]) oy (result ++ [a]) f (by simp only [List.length_cons] at hf ⊢; omega)
    have ea : (ox ++ [a]) ++ xs = ox ++ a :: xs := by simp
    have eb : (ox ++ [a]).length = ox.length + 1 := by simp
    rw [ea, eb] at hm
    rw [ea] at e1
    refine ⟨ox1, xs1, oy1, ys1, r1, ?_, e1, e2, by simp only [List.length_cons]; omega,
      l2, ?_⟩
    · rw [mergeLoop, if_pos hc]
      simp only [h1, h2]
      rw [if_pos hlt]
      exact hm
    · rw [hr, mergeByKey, if_pos hlt]; simp
  | case4 a xs b ys hlt hne ih =>
    intro ox oy result fuel hf
    obtain ⟨f, rfl⟩ : ∃ f, fuel = f + 1 := ⟨fuel - 1, by simp only [List.length_cons] at hf; omega⟩
    obtain ⟨hc, h1, h2⟩ := merge_reads ox xs oy ys a b
    obtain ⟨ox1, xs1, oy1, ys1, r1, hm, e1, e2, l1, l2, hr⟩ :=
      ih ox (oy ++ [b]) (result ++ [b]) f (by simp only [List.length_cons] at hf ⊢; omega)
    have ea : (oy ++ [b]) ++ ys = oy ++ b :: ys := by simp
    have eb : (ox ++ a :: xs).length + (oy ++ [b]).length =
        (ox ++ a :: xs).length + oy.length + 1 := by
      simp only [List.length_append, List.length_cons, List.length_nil]; omega
    rw [ea, eb] at hm
    rw [ea] at e2
    refine ⟨ox1, xs1, oy1, ys1, r1, ?_, e1, e2, l1, by simp only [List.length_cons]; omega,
      ?_⟩
    · rw [mergeLoop, if_pos hc]
      simp only [h1, h2]
      rw [if_neg hlt, if_pos hne]
      exact hm
    · rw [hr, mergeByKey, if_neg hlt, if_pos hne]; simp
  | case5 a xs b ys hlt hne ih =>
    intro ox oy result fuel hf
    obtain ⟨f, rfl⟩ : ∃ f, fuel = f + 1 := ⟨fuel - 1, by simp only [List.length_cons] at hf; omega⟩
    obtain ⟨hc, h1, h2⟩ := merge_reads ox xs oy ys a b
    obtain ⟨ox1, xs1, oy1, ys1, r1, hm, e1, e2, l1, l2, hr⟩ :=
      ih (ox ++ [a]) (oy ++ [b]) (result ++ [a]) f (by simp only [List.length_cons] at hf ⊢; omega)
    have ea : (ox ++ [a]) ++ xs = ox ++ a :: xs := by simp
    have ea2 : (oy ++ [b]) ++ ys = oy ++ b :: ys := by simp
    have eb : (ox ++ [a]).length = ox.length + 1 := by simp
    have eb2 : (ox ++ a :: xs).length + (oy ++ [b]).length =
        (ox ++ a :: xs).length + oy.length + 1 := by
      simp only [List.length_append, List.length_cons, List.length_nil]; omega
    rw [ea, ea2, eb, eb2] at hm
    rw [ea] at e1
    rw [ea2] at e2
    refine ⟨ox1, xs1, oy1, ys1, r1, ?_, e1, e2, by simp only [List.length_cons]; omega,
      by simp only [List.length_cons]; omega, ?_⟩
    · rw [mergeLoop, if_pos hc]
      simp only [h1, h2]
      rw [if_neg hlt, if_neg hne]
      exact hm
    · rw [hr, mergeByKey, if_neg hlt, if_neg hne]; simp


/-! ## addAllEntries on a database it can handle -/

theorem sort_nil {ρ : Type} (sort : List (Sha1Sum × ρ) → List (Sha1Sum × ρ))
    (hsort : SortsByKey sort) : sort [] = [] :=
  List.Perm.eq_nil (hsort []).1

/-- The duplicate filter of lines 402-424 leaves the old entries and the new
entries without the later ones of equal keys. -/
theorem filter_spec {ρ : Type} (old : List (Sha1Sum × ρ)) (a : Sha1Sum × ρ)
    (rest : List (Sha1Sum × ρ)) (fuel : Nat) (hf : rest.length ≤ fuel) :
    ∃ it1 it2 db2 it3,
      skipNonDuplicates (old ++ a :: rest) (old ++ a :: rest).length fuel old.length
        (old.length + 1) = .ok (it1, it2) ∧
      moveNonDuplicates (old ++ a :: rest).length fuel (old ++ a :: rest) it1 it2 =
        .ok (db2, it3) ∧
      db2.take (it3 + 1) = old ++ uniqueFrom a rest := by
  obtain ⟨pre1, a1, rest1, hs, hd, hu, hl⟩ := skip_spec rest old a fuel hf
  obtain ⟨db2, it3, hm, ht⟩ := move_spec rest1 pre1 a1 [] fuel (by omega)
  refine ⟨_, _, db2, it3, hs, ?_, ?_⟩
  · rw [hd]
    simpa using hm
  · rw [ht, hu]

/-- The merge of lines 428-453, when `last` is the end of the vector. -/
theorem merge_spec {ρ : Type} (old nw : List (Sha1Sum × ρ)) (fuel : Nat)
    (hf : old.length + nw.length ≤ fuel) :
    ∃ it1 it2 r1 r2,
      mergeLoop (old ++ nw) old.length (old ++ nw).length fuel 0 old.length [] =
        .ok (it1, it2, r1) ∧
      moveRange (old ++ nw) old.length fuel it1 r1 = .ok r2 ∧
      moveRange (old ++ nw) (old ++ nw).length fuel it2 r2 = .ok (mergeByKey old nw) := by
  obtain ⟨ox1, xs1, oy1, ys1, r1, hm, e1, e2, l1, l2, hr⟩ :=
    mergeLoop_spec old nw [] [] [] fuel hf
  simp only [List.nil_append, List.length_nil, Nat.add_zero] at hm e1 e2 hr
  refine ⟨_, _, r1, r1 ++ xs1, hm, ?_, ?_⟩
  · have h := moveRange_spec xs1 ox1 nw r1 fuel (by omega)
    have e : ox1 ++ (xs1 ++ nw) = old ++ nw := by rw [← List.append_assoc, e1]
    have e3 : ox1.length + xs1.length = old.length := by
      rw [← List.length_append, e1]
    rw [e, e3] at h
    exact h
  · have h := moveRange_spec ys1 (old ++ oy1) [] (r1 ++ xs1) fuel (by omega)
    have e : (old ++ oy1) ++ (ys1 ++ []) = old ++ nw := by
      rw [List.append_nil, List.append_assoc, e2]
    have e3 : (old ++ oy1).length + ys1.length = (old ++ nw).length := by
      rw [← List.length_append, List.append_assoc, e2]
    have e4 : (old ++ oy1).length = old.length + oy1.length := List.length_append _ _
    rw [e, e3, e4, List.append_assoc, hr] at h
    exact h

/-- When there are no old entries, or no two new entries share a key,
`addAllEntries` returns: the database is then the merge of the old entries
with the sorted, filtered new ones. -/
theorem addAllEntries_ok {ρ : Type} (sort : List (Sha1Sum × ρ) → List (Sha1Sum × ρ))
    (hsort : SortsByKey sort) (db : List (Sha1Sum × ρ)) (n fuel : Nat)
    (hn : n ≤ db.length) (hf : db.length ≤ fuel)
    (hsafe : n = 0 ∨ ((db.drop n).map Prod.fst).Nodup) :
    addAllEntries sort fuel db n =
      .ok (mergeByKey (db.take n) (uniqueByKey (sort (db.drop n)))) := by
  have hold : (db.take n).length = n := by rw [List.length_take]; omega
  have hperm := (hsort (db.drop n)).1
  have hlen : (sort (db.drop n)).length = db.length - n := by
    rw [hperm.length_eq, List.length_drop]
  unfold addAllEntries
  simp only [Nat.zero_add]
  by_cases hmid : n = db.length
  · rw [if_pos hmid]
    have h1 : db.drop n = [] := by rw [hmid]; exact List.drop_length _
    have h2 : db.take n = db := by rw [hmid]; exact List.take_length _
    rw [h1, sort_nil sort hsort, h2]
    simp [uniqueByKey, mergeByKey_nil_right]
  · rw [if_neg hmid]
    cases hs : sort (db.drop n) with
    | nil => rw [hs] at hlen; simp at hlen; omega
    | cons a rest =>
      rw [hs] at hlen
      have hlast : db.length = (db.take n ++ a :: rest).length := by
        rw [List.length_append, hold, hlen]; omega
      obtain ⟨it1, it2, db2, it3, hskip, hmove, htake⟩ :=
        filter_spec (db.take n) a rest fuel (by simp at hlen; omega)
      rw [hold, ← hlast] at hskip
      rw [← hlast] at hmove
      simp only [hskip, hmove, htake]
      by_cases h0 : 0 = n
      · rw [if_pos h0]
        subst h0
        simp [uniqueByKey, mergeByKey]
      · rw [if_neg h0]
        have hnodup : ((a :: rest).map Prod.fst).Nodup := by
          rcases hsafe with h | h
          · exact absurd h.symm h0
          · rw [← hs]
            exact ((hperm.map Prod.fst).nodup_iff).mpr h
        rw [uniqueFrom_of_nodup rest a hnodup]
        obtain ⟨i1, i2, r1, r2, hm1, hm2, hm3⟩ :=
          merge_spec (db.take n) (a :: rest) fuel (by rw [← List.length_append]; omega)
        rw [hold, ← hlast] at hm1
        rw [hold] at hm2
        rw [← hlast] at hm3
        simp only [hm1, hm2, hm3, uniqueByKey, uniqueFrom_of_nodup rest a hnodup]


/-! ## Old entries and two new entries with one key: `last` is stale -/

theorem uniqueFrom_of_length {ρ : Type} (l : List (Sha1Sum × ρ)) :
    ∀ a, (uniqueFrom a l).length = l.length + 1 → uniqueFrom a l = a :: l := by
  induction l with
  | nil => intro a _; rfl
  | cons b t ih =>
    intro a h
    simp only [uniqueFrom] at h ⊢
    split at h
    · have := uniqueFrom_length_le t a
      simp only [List.length_cons] at h
      omega
    · rename_i hab
      rw [if_neg hab]
      simp only [List.length_cons, Nat.add_right_cancel_iff] at h
      rw [ih b h]

theorem strictlySorted_nodup {ρ : Type} (l : List (Sha1Sum × ρ)) (h : StrictlySorted l) :
    (l.map Prod.fst).Nodup := by
  unfold List.Nodup
  rw [List.pairwise_map]
  exact List.Pairwise.imp (fun hxy => sha1_less_ne hxy) h

/-- New entries that share a key lose an element in the filter. -/
theorem uniqueFrom_shorter {ρ : Type} (a : Sha1Sum × ρ) (l : List (Sha1Sum × ρ))
    (hs : (a :: l).Pairwise (fun x y => y.1.less x.1 = false))
    (hd : ¬ ((a :: l).map Prod.fst).Nodup) : (uniqueFrom a l).length < l.length + 1 := by
  have hle := uniqueFrom_length_le l a
  by_contra hc
  have he := uniqueFrom_of_length l a (by omega)
  have := uniqueFrom_sorted l a hs
  rw [he] at this
  exact hd (strictlySorted_nodup _ this)

theorem mergeLoop_stale {ρ : Type} (db : List (Sha1Sum × ρ)) (mid last : Nat)
    (hmid : mid ≤ db.length) (hlast : db.length < last) :
    ∀ (fuel it1 it2 : Nat) (result : List (Sha1Sum × ρ)), it1 ≤ mid → it2 ≤ db.length →
      (mid - it1) + (db.length - it2) < fuel →
      mergeLoop db mid last fuel it1 it2 result = .error .pastTheEnd ∨
        ∃ i2 r, mergeLoop db mid last fuel it1 it2 result = .ok (mid, i2, r) ∧
          i2 ≤ db.length := by
  intro fuel
  induction fuel with
  | zero => intro it1 it2 result _ _ hf; omega
  | succ f ih =>
    intro it1 it2 result h1 h2 hf
    by_cases hc : it1 = mid
    · right
      refine ⟨it2, result, ?_, h2⟩
      rw [mergeLoop, if_neg (by simp [hc]), hc]
    · have hcond : it1 ≠ mid ∧ it2 ≠ last := ⟨hc, by omega⟩
      rw [mergeLoop, if_pos hcond]
      have hlt1 : it1 < db.length := by omega
      rw [List.getElem?_eq_getElem hlt1]
      by_cases hlt2 : it2 < db.length
      · rw [List.getElem?_eq_getElem hlt2]
        dsimp only
        split
        · exact ih _ _ _ (by omega) h2 (by omega)
        · split
          · exact ih _ _ _ h1 (by omega) (by omega)
          · exact ih _ _ _ (by omega) (by omega) (by omega)
      · left
        rw [List.getElem?_eq_none (by omega)]

theorem moveRange_same {ρ : Type} (db : List (Sha1Sum × ρ)) (last fuel : Nat)
    (result : List (Sha1Sum × ρ)) : moveRange db last fuel last result = .ok result := by
  cases fuel <;> simp [moveRange]

theorem moveRange_stale {ρ : Type} (db : List (Sha1Sum × ρ)) (last : Nat)
    (hlast : db.length < last) :
    ∀ (fuel first : Nat) (result : List (Sha1Sum × ρ)), first ≤ db.length →
      db.length - first < fuel →
      moveRange db last fuel first result = .error .pastTheEnd := by
  intro fuel
  induction fuel with
  | zero => intro first result _ hf; omega
  | succ f ih =>
    intro first result h1 hf
    have hne : first ≠ last := by omega
    rw [moveRange, if_pos hne]
    by_cases hlt : first < db.length
    · rw [List.getElem?_eq_getElem hlt]
      exact ih _ _ (by omega) (by omega)
    · rw [List.getElem?_eq_none (by omega)]

/-- With old entries present and two new entries of one key, `addAllEntries`
reads an element that `erase` has removed. -/
theorem addAllEntries_pastTheEnd {ρ : Type} (sort : List (Sha1Sum × ρ) → List (Sha1Sum × ρ))
    (hsort : SortsByKey sort) (db : List (Sha1Sum × ρ)) (n fuel : Nat)
    (hn : n ≤ db.length) (hf : db.length ≤ fuel) (h0 : n ≠ 0)
    (hdup : ¬ ((db.drop n).map Prod.fst).Nodup) :
    addAllEntries sort fuel db n = .error .pastTheEnd := by
  have hold : (db.take n).length = n := by rw [List.length_take]; omega
  have hperm := (hsort (db.drop n)).1
  have hlen : (sort (db.drop n)).length = db.length - n := by
    rw [hperm.length_eq, List.length_drop]
  have hmid : n ≠ db.length := by
    intro e
    apply hdup
    rw [e, List.drop_length]
    exact List.nodup_nil
  unfold addAllEntries
  simp only [Nat.zero_add]
  rw [if_neg hmid]
  cases hs : sort (db.drop n) with
  | nil => rw [hs] at hlen; simp at hlen; omega
  | cons a rest =>
    rw [hs] at hlen
    have hlast : db.length = (db.take n ++ a :: rest).length := by
      rw [List.length_append, hold, hlen]; omega
    obtain ⟨it1, it2, db2, it3, hskip, hmove, htake⟩ :=
      filter_spec (db.take n) a rest fuel (by simp at hlen; omega)
    rw [hold, ← hlast] at hskip
    rw [← hlast] at hmove
    simp only [hskip, hmove, htake]
    rw [if_neg (Ne.symm h0)]
    have hshort : (uniqueFrom a rest).length < rest.length + 1 := by
      apply uniqueFrom_shorter a rest
      · rw [← hs]; exact (hsort (db.drop n)).2
      · rw [← hs]
        intro hnd
        exact hdup (((hperm.map Prod.fst).nodup_iff).mp hnd)
    have hl3 : (db.take n ++ uniqueFrom a rest).length < db.length := by
      rw [List.length_append, hold]
      simp only [List.length_cons] at hlen
      omega
    have hmid3 : n ≤ (db.take n ++ uniqueFrom a rest).length := by
      rw [List.length_append, hold]; omega
    rcases mergeLoop_stale (db.take n ++ uniqueFrom a rest) n db.length hmid3 hl3 fuel 0 n []
      (by omega) hmid3 (by omega) with h | ⟨i2, r, h, hi2⟩
    · simp only [h]
    · simp only [h, moveRange_same]
      rw [moveRange_stale _ _ hl3 fuel i2 r hi2 (by omega)]


/-! ## More loop rounds do not change a result -/

theorem skip_mono {ρ : Type} (db : List (Sha1Sum × ρ)) (last k : Nat) :
    ∀ (fuel it1 it2 : Nat) (r : Nat × Nat),
      skipNonDuplicates db last fuel it1 it2 = .ok r →
      skipNonDuplicates db last (fuel + k) it1 it2 = .ok r := by
  intro fuel
  induction fuel with
  | zero =>
    intro it1 it2 r h
    by_cases hc : it2 ≠ last
    · simp [skipNonDuplicates, hc] at h
    · rw [skipNonDuplicates, if_neg hc] at h
      cases k <;> simp only [Nat.zero_add, skipNonDuplicates, if_neg hc, h]
  | succ f ih =>
    intro it1 it2 r h
    have e : f + 1 + k = (f + k) + 1 := by omega
    rw [e]
    rw [skipNonDuplicates] at h ⊢
    split
    · rename_i hc
      rw [if_pos hc] at h
      split at h
      · split at h
        · rename_i he; rw [if_pos he]; exact h
        · rename_i he; rw [if_neg he]; exact ih _ _ _ h
      · cases h
    · rename_i hc
      rw [if_neg hc] at h
      exact h

theorem move_mono {ρ : Type} (last k : Nat) :
    ∀ (fuel : Nat) (db : List (Sha1Sum × ρ)) (it1 it2 : Nat) (r : List (Sha1Sum × ρ) × Nat),
      moveNonDuplicates last fuel db it1 it2 = .ok r →
      moveNonDuplicates last (fuel + k) db it1 it2 = .ok r := by
  intro fuel
  induction fuel with
  | zero =>
    intro db it1 it2 r h
    by_cases hc : it2 ≠ last
    · simp [moveNonDuplicates, hc] at h
    · rw [moveNonDuplicates, if_neg hc] at h
      cases k <;> simp only [Nat.zero_add, moveNonDuplicates, if_neg hc, h]
  | succ f ih =>
    intro db it1 it2 r h
    have e : f + 1 + k = (f + k) + 1 := by omega
    rw [e]
    rw [moveNonDuplicates] at h ⊢
    split
    · rename_i hc
      rw [if_pos hc] at h
      split at h
      · split at h
        · rename_i he; rw [if_pos he]; exact ih _ _ _ _ h
        · rename_i he
          rw [if_neg he]
          split at h
          · rename_i hl; rw [if_pos hl]; exact ih _ _ _ _ h
          · cases h
      · cases h
    · rename_i hc
      rw [if_neg hc] at h
      exact h

theorem mergeLoop_mono {ρ : Type} (db : List (Sha1Sum × ρ)) (mid last k : Nat) :
    ∀ (fuel it1 it2 : Nat) (result : List (Sha1Sum × ρ))
      (r : Nat × Nat × List (Sha1Sum × ρ)),
      mergeLoop db mid last fuel it1 it2 result = .ok r →
      mergeLoop db mid last (fuel + k) it1 it2 result = .ok r := by
  intro fuel
  induction fuel with
  | zero =>
    intro it1 it2 result r h
    by_cases hc : it1 ≠ mid ∧ it2 ≠ last
    · simp [mergeLoop, hc] at h
    · rw [mergeLoop, if_neg hc] at h
      cases k <;> simp only [Nat.zero_add, mergeLoop, if_neg hc, h]
  | succ f ih =>
    intro it1 it2 result r h
    have e : f + 1 + k = (f + k) + 1 := by omega
    rw [e]
    rw [mergeLoop] at h ⊢
    split
    · rename_i hc
      rw [if_pos hc] at h
      split at h
      · split at h
        · rename_i he; rw [if_pos he]; exact ih _ _ _ _ h
        · rename_i he
          rw [if_neg he]
          split at h
          · rename_i hl; rw [if_pos hl]; exact ih _ _ _ _ h
          · rename_i hl; rw [if_neg hl]; exact ih _ _ _ _ h
      · cases h
    · rename_i hc
      rw [if_neg hc] at h
      exact h

theorem moveRange_mono {ρ : Type} (db : List (Sha1Sum × ρ)) (last k : Nat) :
    ∀ (fuel first : Nat) (result r : List (Sha1Sum × ρ)),
      moveRange db last fuel first result = .ok r →
      moveRange db last (fuel + k) first result = .ok r := by
  intro fuel
  induction fuel with
  | zero =>
    intro first result r h
    by_cases hc : first ≠ last
    · simp [moveRange, hc] at h
    · rw [moveRange, if_neg hc] at h
      cases k <;> simp only [Nat.zero_add, moveRange, if_neg hc, h]
  | succ f ih =>
    intro first result r h
    have e : f + 1 + k = (f + k) + 1 := by omega
    rw [e]
    rw [moveRange] at h ⊢
    split
    · rename_i hc
      rw [if_pos hc] at h
      split at h
      · exact ih _ _ _ h
      · cases h
    · rename_i hc
      rw [if_neg hc] at h
      exact h

theorem addAllEntries_mono {ρ : Type} (sort : List (Sha1Sum × ρ) → List (Sha1Sum × ρ))
    (db : List (Sha1Sum × ρ)) (n fuel k : Nat) (r : List (Sha1Sum × ρ))
    (h : addAllEntries sort fuel db n = .ok r) :
    addAllEntries sort (fuel + k) db n = .ok r := by
  unfold addAllEntries at h ⊢
  dsimp only at h ⊢
  by_cases hmid : 0 + n = db.length
  · rw [if_pos hmid] at h ⊢
    exact h
  · rw [if_neg hmid] at h ⊢
    cases hs : skipNonDuplicates (db.take (0 + n) ++ sort (db.drop (0 + n))) db.length fuel
        (0 + n) (0 + n + 1) with
    | error f => rw [hs] at h; cases h
    | ok p =>
      obtain ⟨it1, it2⟩ := p
      rw [hs] at h
      rw [skip_mono _ _ k _ _ _ _ hs]
      dsimp only at h ⊢
      cases hm : moveNonDuplicates db.length fuel
          (db.take (0 + n) ++ sort (db.drop (0 + n))) it1 it2 with
      | error f => rw [hm] at h; cases h
      | ok q =>
        obtain ⟨db2, it3⟩ := q
        rw [hm] at h
        rw [move_mono _ k _ _ _ _ _ hm]
        dsimp only at h ⊢
        by_cases h0 : 0 = 0 + n
        · rw [if_pos h0] at h ⊢
          exact h
        · rw [if_neg h0] at h ⊢
          cases hg : mergeLoop (db2.take (it3 + 1)) (0 + n) db.length fuel 0 (0 + n) [] with
          | error f => rw [hg] at h; cases h
          | ok t =>
            obtain ⟨i1, i2, r1⟩ := t
            rw [hg] at h
            rw [mergeLoop_mono _ _ _ k _ _ _ _ _ hg]
            dsimp only at h ⊢
            cases hr1 : moveRange (db2.take (it3 + 1)) (0 + n) fuel i1 r1 with
            | error f => rw [hr1] at h; cases h
            | ok r2 =>
              rw [hr1] at h
              rw [moveRange_mono _ _ k _ _ _ _ hr1]
              dsimp only at h ⊢
              cases hr2 : moveRange (db2.take (it3 + 1)) db.length fuel i2 r2 with
              | error f => rw [hr2] at h; cases h
              | ok r3 =>
                rw [hr2] at h
                rw [moveRange_mono _ _ k _ _ _ _ hr2]
                exact h

/-- With old entries present and two new entries of one key, `addAllEntries`
ends with no database, however many rounds its loops are given. -/
theorem addAllEntries_never_returns {ρ : Type}
    (sort : List (Sha1Sum × ρ) → List (Sha1Sum × ρ)) (hsort : SortsByKey sort)
    (db : List (Sha1Sum × ρ)) (n : Nat) (hn : n ≤ db.length) (h0 : n ≠ 0)
    (hdup : ¬ ((db.drop n).map Prod.fst).Nodup) (fuel : Nat) :
    ∃ f, addAllEntries sort fuel db n = .error f := by
  cases h : addAllEntries sort fuel db n with
  | error f => exact ⟨f, rfl⟩
  | ok r =>
    have h1 := addAllEntries_mono sort db n fuel db.length r h
    rw [addAllEntries_pastTheEnd sort hsort db n (fuel + db.length) hn (by omega) h0 hdup]
      at h1
    cases h1


/-! ## What addAllEntries leaves when it returns -/

/-- When there are no old entries, or no two new entries share a key, and the
old entries are sorted strictly, the database after `addAllEntries` is sorted
strictly. -/
theorem addAllEntries_sorted {ρ : Type} (sort : List (Sha1Sum × ρ) → List (Sha1Sum × ρ))
    (hsort : SortsByKey sort) (db : List (Sha1Sum × ρ)) (n fuel : Nat)
    (hn : n ≤ db.length) (hf : db.length ≤ fuel)
    (hsafe : n = 0 ∨ ((db.drop n).map Prod.fst).Nodup)
    (hold : StrictlySorted (db.take n)) :
    ∃ r, addAllEntries sort fuel db n = .ok r ∧ StrictlySorted r :=
  ⟨_, addAllEntries_ok sort hsort db n fuel hn hf hsafe,
    mergeByKey_sorted _ _ hold (uniqueByKey_sorted _ (hsort _).2)⟩

/-- Under the same conditions the keys afterwards are those of the old and
the new entries, every old entry is still there, and an entry whose key an
old entry has is that old entry. -/
theorem addAllEntries_keys {ρ : Type} (sort : List (Sha1Sum × ρ) → List (Sha1Sum × ρ))
    (hsort : SortsByKey sort) (db : List (Sha1Sum × ρ)) (n fuel : Nat)
    (hn : n ≤ db.length) (hf : db.length ≤ fuel)
    (hsafe : n = 0 ∨ ((db.drop n).map Prod.fst).Nodup)
    (hold : StrictlySorted (db.take n)) :
    ∃ r, addAllEntries sort fuel db n = .ok r ∧
      (∀ k, k ∈ r.map Prod.fst ↔ k ∈ db.map Prod.fst) ∧
      (∀ e ∈ db.take n, e ∈ r) ∧
      (∀ e ∈ r, e.1 ∈ (db.take n).map Prod.fst → e ∈ db.take n) := by
  have hu : StrictlySorted (uniqueByKey (sort (db.drop n))) :=
    uniqueByKey_sorted _ (hsort _).2
  have hmem := mergeByKey_mem (db.take n) (uniqueByKey (sort (db.drop n))) hold hu
  refine ⟨_, addAllEntries_ok sort hsort db n fuel hn hf hsafe, ?_, ?_, ?_⟩
  · intro k
    simp only [List.mem_map]
    constructor
    · rintro ⟨e, he, rfl⟩
      rcases (hmem e).mp he with h | ⟨h, _⟩
      · exact ⟨e, List.mem_of_mem_take h, rfl⟩
      · exact ⟨e, List.mem_of_mem_drop
          ((hsort (db.drop n)).1.mem_iff.mp (uniqueByKey_mem _ _ h)), rfl⟩
    · rintro ⟨e, he, rfl⟩
      rw [← List.take_append_drop n db, List.mem_append] at he
      rcases he with h | h
      · exact ⟨e, (hmem e).mpr (Or.inl h), rfl⟩
      · obtain ⟨y, hy, hk⟩ :=
          uniqueByKey_keys _ e ((hsort (db.drop n)).1.mem_iff.mpr h)
        by_cases ho : ∃ o ∈ db.take n, o.1 = y.1
        · obtain ⟨o, ho1, ho2⟩ := ho
          exact ⟨o, (hmem o).mpr (Or.inl ho1), by rw [ho2, hk]⟩
        · exact ⟨y, (hmem y).mpr (Or.inr ⟨hy, fun o ho1 ho2 => ho ⟨o, ho1, ho2⟩⟩), hk⟩
  · intro e he
    exact (hmem e).mpr (Or.inl he)
  · intro e he hk
    rcases (hmem e).mp he with h | ⟨_, h⟩
    · exact h
    · obtain ⟨o, ho, hok⟩ := List.mem_map.mp hk
      exact absurd hok (h o ho)


/-! ## C4, C6, C7: the registry and the queue -/

/-- C4: after any sequence of `registerEventListener` / `unregisterEventListener`
calls that starts from the empty registry, the listener list of every event
type is sorted in non-decreasing priority order, listeners of equal priority
stand in the order in which they were registered, and a further registration
puts the new entry after all entries whose priority is at most its own (and
before all entries of greater priority). -/
theorem C4_listeners_sorted_in_registration_order (ops : List RegOp) (d : EventDistributor)
    (h : runRegOps ops EventDistributor.new = .ok d) (type : EventType) :
    (d.listeners type).Pairwise (fun a b => a.1 ≤ b.1) ∧
    (d.listeners type).Pairwise (fun a b => a.1 = b.1 →
      registrationTime ops type a.2 < registrationTime ops type b.2) ∧
    ∀ listener priority d', registerEventListener d type listener priority = .ok d' →
      ∃ before after, d.listeners type = before ++ after ∧
        d'.listeners type = before ++ (priority, listener) :: after ∧
        (∀ x ∈ before, x.1 ≤ priority) ∧ (∀ x ∈ after, priority < x.1) := by
  obtain ⟨h1, h2, -⟩ := regInv_run ops d h type
  refine ⟨h1, h2, ?_⟩
  intro listener priority d' hr
  obtain ⟨m', hm, hl, -, -, -⟩ := registerEventListener_ok hr
  obtain ⟨-, hm'⟩ := registerIn_ok hm
  refine ⟨(d.listeners type).take (upper_bound (d.listeners type) priority),
    (d.listeners type).drop (upper_bound (d.listeners type) priority),
    (List.take_append_drop _ _).symm, ?_, upper_bound_take _ _, upper_bound_drop _ _ h1⟩
  rw [hl, Function.update_same, hm']

theorem C4_witness :
    runRegOps exampleOps EventDistributor.new = .ok exampleRegistry ∧
    exampleRegistry.listeners 0 = [(2, 5), (2, 7)] ∧
    (exampleRegistry.listeners 0).Pairwise (fun a b => a.1 ≤ b.1) :=
  ⟨rfl, rfl, (C4_listeners_sorted_in_registration_order exampleOps exampleRegistry rfl 0).1⟩


/-- C6: `distributeEvent(event)`, called with the semaphore free, returns; it
leaves the pending queue as it was when the listener list of the event's type
is empty, and otherwise appends `event` behind the elements already queued; the
listener registry is the same in both cases. -/
theorem C6_distributeEvent_appends_or_drops (d : EventDistributor) (event : Event)
    (hs : 0 < d.sem) :
    ∃ d' log, distributeEvent d event = .ok (d', log) ∧
      d'.listeners = d.listeners ∧
      (d.listeners event.type = [] → d'.scheduledEvents = d.scheduledEvents) ∧
      (d.listeners event.type ≠ [] → d'.scheduledEvents = d.scheduledEvents ++ [event]) := by
  obtain ⟨d', log, h⟩ := distributeEvent_total d event hs
  obtain ⟨h1, -, -, h2⟩ := distributeEvent_ok h
  refine ⟨d', log, h, h1, ?_, ?_⟩
  · intro he
    rcases h2 with ⟨-, hq, -⟩ | ⟨hne, -, -⟩
    · exact hq
    · exact absurd he hne
  · intro hne
    rcases h2 with ⟨he, -, -⟩ | ⟨-, hq, -⟩
    · exact absurd he hne
    · exact hq

theorem C6_witness :
    0 < exampleRegistry.sem ∧
    ∃ d' log, distributeEvent exampleRegistry ⟨0, 9⟩ = .ok (d', log) ∧
      d'.listeners = exampleRegistry.listeners ∧
      (exampleRegistry.listeners (Event.mk 0 9).type = [] →
        d'.scheduledEvents = exampleRegistry.scheduledEvents) ∧
      (exampleRegistry.listeners (Event.mk 0 9).type ≠ [] →
        d'.scheduledEvents = exampleRegistry.scheduledEvents ++ [⟨0, 9⟩]) :=
  ⟨by decide, C6_distributeEvent_appends_or_drops exampleRegistry ⟨0, 9⟩ (by decide)⟩

/-- C7: with the semaphore free, `registerEventListener(type, l, p)` fails on
its assertion exactly when `l` already has an entry in the list of `type`,
whatever the priorities, and succeeds otherwise; `unregisterEventListener(type, l)`
fails on its assertion exactly when `l` has no entry in that list, and
otherwise removes the (first) entry of `l` and keeps every other entry, of this
and of all other types, in place.  In every registry reached from the empty
one no listener occurs twice in the list of one type. -/
theorem C7_registration_assertions (d : EventDistributor) (type : EventType)
    (l : ListenerId) (hs : 0 < d.sem) :
    (∀ p, registerEventListener d type l p = .error .assertion ↔
        ∃ q, (q, l) ∈ d.listeners type) ∧
    (∀ p, (¬ ∃ q, (q, l) ∈ d.listeners type) →
        ∃ d', registerEventListener d type l p = .ok d') ∧
    (unregisterEventListener d type l = .error .assertion ↔
        ¬ ∃ q, (q, l) ∈ d.listeners type) ∧
    ((∃ q, (q, l) ∈ d.listeners type) →
        ∃ d' before q after, unregisterEventListener d type l = .ok d' ∧
          d.listeners type = before ++ (q, l) :: after ∧
          (∀ x ∈ before, x.2 ≠ l) ∧
          d'.listeners type = before ++ after ∧
          ∀ t, t ≠ type → d'.listeners t = d.listeners t) ∧
    (∀ ops r, runRegOps ops EventDistributor.new = .ok r →
        ∀ t, ((r.listeners t).map Prod.snd).Nodup) := by
  refine ⟨?_, ?_, ?_, ?_, ?_⟩
  · intro p
    rw [← isRegisteredIn_iff]
    constructor
    · intro h
      by_contra hc
      obtain ⟨d', hd'⟩ := registerEventListener_total d type l p hs (by simpa using hc)
      rw [hd'] at h
      cases h
    · exact registerEventListener_assert d type l p hs
  · intro p hn
    rw [← isRegisteredIn_iff] at hn
    exact registerEventListener_total d type l p hs (by simpa using hn)
  · rw [← isRegisteredIn_iff]
    constructor
    · intro h hc
      obtain ⟨d', hd'⟩ := unregisterEventListener_total d type l hs hc
      rw [hd'] at h
      cases h
    · intro hn
      exact unregisterEventListener_assert d type l hs (by simpa using hn)
  · intro hr
    rw [← isRegisteredIn_iff] at hr
    obtain ⟨d', hd'⟩ := unregisterEventListener_total d type l hs hr
    obtain ⟨m', hm, hl, -, -, -⟩ := unregisterEventListener_ok hd'
    obtain ⟨before, q, after, e, hb, hm'⟩ := unregisterIn_ok hm
    refine ⟨d', before, q, after, hd', e, ?_, ?_, ?_⟩
    · intro x hx hxl
      have : isRegisteredIn before l = true :=
        (isRegisteredIn_iff _ _).2 ⟨x.1, by rw [← hxl]; exact hx⟩
      rw [hb] at this
      cases this
    · rw [hl, Function.update_same, hm']
    · intro t ht
      rw [hl, Function.update_noteq ht]
  · intro ops r hr t
    exact (regInv_run ops r hr t).2.2

theorem C7_witness :
    0 < exampleRegistry.sem ∧
    (registerEventListener exampleRegistry 0 7 0 = .error .assertion ↔
        ∃ q, (q, 7) ∈ exampleRegistry.listeners 0) ∧
    (unregisterEventListener exampleRegistry 0 6 = .error .assertion ↔
        ¬ ∃ q, (q, 6) ∈ exampleRegistry.listeners 0) :=
  ⟨by decide, (C7_registration_assertions exampleRegistry 0 7 (by decide)).1 0,
    (C7_registration_assertions exampleRegistry 0 6 (by decide)).2.2.1⟩


/-! ## C1: block levels -/

/-- C1 (as amended): in every run of `deliverEvents`, within the pass for one
event, once a `signalEvent` call has returned a nonzero block level `B`, no
listener of priority `≥ B` is invoked for that event as long as no later call
of the pass returns another nonzero block level (which then takes the place
of `B`). -/
theorem C1_last_block_level_respected {σ : Type} (w : Listeners σ) (fuel : Nat)
    (d : EventDistributor) (u : σ) :
    LastBlockLevelRespected (deliverEvents w fuel d u).log := by
  rcases deliverEvents_cases w fuel d u with ⟨-, h⟩ | ⟨n, -, hl, -, -⟩
  · rw [h]
    exact guarded_lastBlockLevelRespected [] 0 trivial
  · rw [hl]
    exact guarded_lastBlockLevelRespected _ 0
      ((deliverLoop_runOk w fuel { d with sem := n } u).2.2.1 0)

theorem C1_witness :
    (deliverEvents blockingListeners 1 threePriorities ()).log =
      [Obs.deliver ⟨0, 1⟩] ++ Obs.signalEvent 10 0 ⟨0, 1⟩ 1 (.returned 2) ::
        ([] ++ Obs.signalEvent 11 1 ⟨0, 1⟩ 1 (.returned 3) ::
          [Obs.signalEvent 12 2 ⟨0, 1⟩ 1 (.returned 0)]) ∧
    ¬ (1 : Nat) ≥ 2 :=
  ⟨by decide,
    C1_last_block_level_respected blockingListeners 1 threePriorities ()
      [Obs.deliver ⟨0, 1⟩] 10 0 ⟨0, 1⟩ 1 2 [] 11 1 ⟨0, 1⟩ 1 (.returned 3)
      [Obs.signalEvent 12 2 ⟨0, 1⟩ 1 (.returned 0)] (by decide) (by decide)
      (by intro o ho; cases ho)⟩

/-- C1 fails as stated: listener 10 (priority 0) returns block level 2, listener
11 (priority 1) then returns block level 3, and listener 12, whose priority 2
is `≥ 2`, is invoked in the same pass. -/
theorem C1_counterexample :
    (deliverEvents blockingListeners 1 threePriorities ()).log =
      [Obs.deliver ⟨0, 1⟩,
       Obs.signalEvent 10 0 ⟨0, 1⟩ 1 (.returned 2),
       Obs.signalEvent 11 1 ⟨0, 1⟩ 1 (.returned 3),
       Obs.signalEvent 12 2 ⟨0, 1⟩ 1 (.returned 0)] ∧
    ¬ BlockLevelsRespected (deliverEvents blockingListeners 1 threePriorities ()).log := by
  have hlog : (deliverEvents blockingListeners 1 threePriorities ()).log =
      [Obs.deliver ⟨0, 1⟩,
       Obs.signalEvent 10 0 ⟨0, 1⟩ 1 (.returned 2),
       Obs.signalEvent 11 1 ⟨0, 1⟩ 1 (.returned 3),
       Obs.signalEvent 12 2 ⟨0, 1⟩ 1 (.returned 0)] := by decide
  refine ⟨hlog, ?_⟩
  intro h
  exact h [Obs.deliver ⟨0, 1⟩] 10 0 ⟨0, 1⟩ 1 2 [Obs.signalEvent 11 1 ⟨0, 1⟩ 1 (.returned 3)]
    12 2 ⟨0, 1⟩ 1 (.returned 0) [] hlog (by decide) (by decide) (by decide)


/-! ## C2: two listeners -/

/-- C2 (as amended): with `L1` registered at priority 1 and `L2` at priority 2
for the same event type `X` (in either order; neither listener calls back into
the distributor) and one event of type `X` queued, `deliverEvents` does not
invoke `L2` when `L1.signalEvent` returns block level 2, and invokes `L2`
exactly once when `L1.signalEvent` returns 0 or a block level above 2, such
as 3. -/
theorem C2_block_level_two_stops_priority_two {σ : Type} (w : Listeners σ)
    (L1 L2 : ListenerId) (X : EventType) (payload fuel : Nat) (u u1 : σ) (b1 : Nat)
    (cs : List Call) (hne : L1 ≠ L2)
    (hcs : cs = [.register X L1 1, .register X L2 2, .distribute ⟨X, payload⟩] ∨
      cs = [.register X L2 2, .register X L1 1, .distribute ⟨X, payload⟩])
    (h1 : w.signalEvent L1 ⟨X, payload⟩ u = (u1, [], .returns b1))
    (h2 : (w.signalEvent L2 ⟨X, payload⟩ u1).2.1 = []) :
    (afterCalls cs).listeners X = [(1, L1), (2, L2)] ∧
    (afterCalls cs).scheduledEvents = [⟨X, payload⟩] ∧
    (b1 = 2 → invocations L2 (deliverEvents w (fuel + 1) (afterCalls cs) u).log = 0) ∧
    (b1 = 0 ∨ 2 < b1 →
      invocations L2 (deliverEvents w (fuel + 1) (afterCalls cs) u).log = 1) := by
  obtain ⟨s1, s2, s3⟩ := twoListeners_setup L1 L2 X ⟨X, payload⟩ hne rfl cs hcs
  obtain ⟨d1, d2⟩ := twoListeners_deliver w L1 L2 X ⟨X, payload⟩ hne rfl (afterCalls cs)
    s1 s2 s3 fuel u u1 b1 h1 h2
  refine ⟨s1, s2, ?_, ?_⟩
  · intro hb
    rw [invocations, d1 hb]
    simp [List.count_cons, hne]
  · intro hb
    rw [invocations, d2 hb]
    simp [List.count_cons, hne]

theorem C2_witness :
    (1 : ListenerId) ≠ 2 ∧
    returnsThree.signalEvent 1 ⟨0, 0⟩ () = ((), [], .returns 3) ∧
    (returnsThree.signalEvent 2 ⟨0, 0⟩ ()).2.1 = [] ∧
    invocations 2 (deliverEvents returnsThree (0 + 1)
      (afterCalls [.register 0 1 1, .register 0 2 2, .distribute ⟨0, 0⟩]) ()).log = 1 :=
  ⟨by decide, rfl, rfl,
    (C2_block_level_two_stops_priority_two returnsThree 1 2 0 0 0 () () 3 _ (by decide)
      (Or.inl rfl) rfl rfl).2.2.2 (Or.inr (by decide))⟩

/-- C2 fails as stated: `L1` (listener 1, priority 1) returns block level 3 and
`L2` (listener 2, priority 2) is invoked all the same, because 2 is below 3. -/
theorem C2_counterexample :
    twoListeners.listeners 0 = [(1, 1), (2, 2)] ∧
    twoListeners.scheduledEvents = [⟨0, 0⟩] ∧
    (deliverEvents returnsThree 1 twoListeners ()).log =
      [Obs.deliver ⟨0, 0⟩,
       Obs.signalEvent 1 1 ⟨0, 0⟩ 1 (.returned 3),
       Obs.signalEvent 2 2 ⟨0, 0⟩ 1 (.returned 0)] ∧
    invocations 2 (deliverEvents returnsThree 1 twoListeners ()).log ≠ 0 := by
  decide


/-! ## C3: the queue is drained -/

/-- C8 (as amended): `deliverEvents` has no handler around `signalEvent`.  When
a listener's `signalEvent` throws, the exception leaves `deliverEvents`: the
call does not return normally, no listener is invoked after the throwing one
and no further queued event is delivered. -/
theorem C8_exception_leaves_deliverEvents {σ : Type} (w : Listeners σ) (fuel : Nat)
    (d : EventDistributor) (u : σ) (pre post : List Obs) (l : ListenerId) (p : Priority)
    (e : Event) (s : Nat)
    (h : (deliverEvents w fuel d u).log = pre ++ Obs.signalEvent l p e s .threw :: post) :
    (deliverEvents w fuel d u).failure = some .exception ∧
    invoked post = [] ∧ deliveredEvents post = [] := by
  rcases deliverEvents_cases w fuel d u with ⟨-, h0⟩ | ⟨n, -, hl, hf, -⟩
  · rw [h0] at h
    simp at h
  · rw [hl] at h
    obtain ⟨h1, h2⟩ := (deliverLoop_runOk w fuel { d with sem := n } u).2.2.2.1 pre l p e s post h
    rw [hf]
    exact ⟨h1, (quiet_invoked h2), (quiet_deliveredEvents h2)⟩

theorem C8_witness :
    (deliverEvents reentrantListeners 3 throwingSetup 0).log =
      [Obs.deliver ⟨0, 1⟩, Obs.signalEvent 12 2 ⟨0, 1⟩ 1 (.returned 0), Obs.queued ⟨0, 7⟩,
        Obs.enterMainLoop 1] ++ Obs.signalEvent 13 3 ⟨0, 1⟩ 1 .threw :: [] ∧
    (deliverEvents reentrantListeners 3 throwingSetup 0).failure = some .exception ∧
    invoked ([] : List Obs) = [] ∧ deliveredEvents ([] : List Obs) = [] :=
  ⟨by decide,
    C8_exception_leaves_deliverEvents reentrantListeners 3 throwingSetup 0
      [Obs.deliver ⟨0, 1⟩, Obs.signalEvent 12 2 ⟨0, 1⟩ 1 (.returned 0), Obs.queued ⟨0, 7⟩,
        Obs.enterMainLoop 1] [] 13 3 ⟨0, 1⟩ 1 (by decide)⟩

/-- C8 fails as stated: with listeners 12, 13 and 14 registered and two events
queued, listener 13 throws while the first event is serviced; `deliverEvents`
is left by the exception, listener 14 is not invoked at all and the second
queued event is never delivered. -/
theorem C8_counterexample :
    throwingSetup.scheduledEvents = [⟨0, 1⟩, ⟨0, 2⟩] ∧
    throwingSetup.listeners 0 = [(2, 12), (3, 13), (4, 14)] ∧
    (deliverEvents reentrantListeners 3 throwingSetup 0).failure = some .exception ∧
    invocations 14 (deliverEvents reentrantListeners 3 throwingSetup 0).log = 0 ∧
    deliveredEvents (deliverEvents reentrantListeners 3 throwingSetup 0).log = [⟨0, 1⟩] := by
  decide


/-! ## C9: the semaphore -/

/-- C9: every call that leaves the component, `signalEvent` from
`deliverEvents` and `enterMainLoop` from `distributeEvent` (also when
`distributeEvent` is called from inside a callback), is made with the
semaphore count at the value it had on entry, that is with the lock released;
and on normal return from `registerEventListener`, `unregisterEventListener`,
`distributeEvent` and `deliverEvents` the count equals its value on entry. -/
theorem C9_semaphore_released_at_callouts (d : EventDistributor) :
    (∀ t l p d', registerEventListener d t l p = .ok d' → d'.sem = d.sem) ∧
    (∀ t l d', unregisterEventListener d t l = .ok d' → d'.sem = d.sem) ∧
    (∀ e d' log, distributeEvent d e = .ok (d', log) →
      d'.sem = d.sem ∧ ∀ s ∈ calloutSems log, s = d.sem) ∧
    (∀ (σ : Type) (w : Listeners σ) (fuel : Nat) (u : σ),
      (∀ s ∈ calloutSems (deliverEvents w fuel d u).log, s = d.sem) ∧
      ((deliverEvents w fuel d u).failure = none →
        (deliverEvents w fuel d u).ed.sem = d.sem)) := by
  refine ⟨?_, ?_, ?_, ?_⟩
  · intro t l p d' h
    exact (registerEventListener_ok h).choose_spec.2.2.2.1
  · intro t l d' h
    exact (unregisterEventListener_ok h).choose_spec.2.2.2.1
  · intro e d' log h
    have hc : applyCall d (.distribute e) = .ok (d', log) := h
    obtain ⟨h1, -, -, -, h4⟩ := applyCall_ok hc
    exact ⟨h1, h4⟩
  · intro σ w fuel u
    rcases deliverEvents_cases w fuel d u with ⟨-, h0⟩ | ⟨n, hn, hl, hf, he⟩
    · rw [h0]
      refine ⟨?_, ?_⟩
      · intro s hs
        simp [calloutSems] at hs
      · intro h
        cases h
    · obtain ⟨a1, a2, -⟩ := deliverLoop_runOk w fuel { d with sem := n } u
      refine ⟨?_, ?_⟩
      · intro s hs
        rw [hl] at hs
        rw [a2 s hs, hn]
      · intro h
        rw [hf] at h
        rw [he h, hn]
        simp only [semUp]
        rw [a1 h]

theorem C9_witness :
    (deliverEvents reentrantListeners 2 oneListener 0).failure = none ∧
    calloutSems (deliverEvents reentrantListeners 2 oneListener 0).log = [1, 1, 1] ∧
    (∀ s ∈ calloutSems (deliverEvents reentrantListeners 2 oneListener 0).log,
      s = oneListener.sem) ∧
    (deliverEvents reentrantListeners 2 oneListener 0).ed.sem = oneListener.sem :=
  ⟨by decide, by decide,
    ((C9_semaphore_released_at_callouts oneListener).2.2.2 Nat reentrantListeners 2 0).1,
    ((C9_semaphore_released_at_callouts oneListener).2.2.2 Nat reentrantListeners 2 0).2
      (by decide)⟩


/-! ## C10: the record built by createEvent -/

/-- C10: for all bytes `status` and `newStatus`, `createEvent(time, newStatus)`
distributes nothing when `newStatus = status`, and otherwise distributes
exactly one `JoyState`, with `press = status AND (status XOR newStatus)` and
`release = newStatus AND (status XOR newStatus)`; the two masks always satisfy
`press AND release = 0` and `press OR release = status XOR newStatus`, which is
nonzero when the two differ, so neither assertion of the `JoyState`
constructor fails. -/
theorem C10_createEvent_minimal_record (j : Joystick) (time newStatus : Nat)
    (hs : j.status < 256) (hn : newStatus < 256) :
    (newStatus = j.status → j.createEvent time newStatus = .ok []) ∧
    (newStatus ≠ j.status →
      j.createEvent time newStatus =
        .ok [⟨time, j.joyNum, j.status &&& (j.status ^^^ newStatus),
              newStatus &&& (j.status ^^^ newStatus)⟩] ∧
      j.status ^^^ newStatus ≠ 0) ∧
    (j.status &&& (j.status ^^^ newStatus)) &&& (newStatus &&& (j.status ^^^ newStatus)) = 0 ∧
    (j.status &&& (j.status ^^^ newStatus)) ||| (newStatus &&& (j.status ^^^ newStatus)) =
      j.status ^^^ newStatus ∧
    j.createEvent time newStatus ≠ .error .assertion := by
  have hd : (j.status ^^^ newStatus) % 256 = j.status ^^^ newStatus :=
    Nat.mod_eq_of_lt (byte_xor_lt hs hn)
  have hp : (j.status &&& (j.status ^^^ newStatus)) % 256 = j.status &&& (j.status ^^^ newStatus) :=
    Nat.mod_eq_of_lt (byte_and_lt _ hs)
  have hr : (newStatus &&& (j.status ^^^ newStatus)) % 256 =
      newStatus &&& (j.status ^^^ newStatus) :=
    Nat.mod_eq_of_lt (byte_and_lt _ hn)
  have hsame : newStatus = j.status → j.createEvent time newStatus = .ok [] := by
    intro h
    have : j.status ^^^ newStatus = 0 := (xor_eq_zero_iff _ _).2 h.symm
    simp [Joystick.createEvent, this]
  have hdiff : newStatus ≠ j.status →
      j.createEvent time newStatus =
        .ok [⟨time, j.joyNum, j.status &&& (j.status ^^^ newStatus),
              newStatus &&& (j.status ^^^ newStatus)⟩] ∧
      j.status ^^^ newStatus ≠ 0 := by
    intro h
    have hx : j.status ^^^ newStatus ≠ 0 := fun e => h ((xor_eq_zero_iff _ _).1 e).symm
    refine ⟨?_, hx⟩
    have hcover := and_xor_cover j.status newStatus
    have hnz : j.status &&& (j.status ^^^ newStatus) ≠ 0 ∨
        newStatus &&& (j.status ^^^ newStatus) ≠ 0 := by
      by_contra hc
      simp only [not_or, not_not] at hc
      rw [hc.1, hc.2] at hcover
      exact hx (by simpa using hcover.symm)
    simp only [Joystick.createEvent, hd, hx, if_false, hp, hr, JoyState.new,
      and_xor_disjoint, hnz, not_true_eq_false]
  refine ⟨hsame, hdiff, and_xor_disjoint _ _, and_xor_cover _ _, ?_⟩
  by_cases h : newStatus = j.status
  · rw [hsame h]
    simp
  · rw [(hdiff h).1]
    simp

theorem C10_witness :
    (Joystick.mk 0 0x3F false).status < 256 ∧ (0x2E : Nat) < 256 ∧
    ((0x2E : Nat) ≠ (Joystick.mk 0 0x3F false).status →
      (Joystick.mk 0 0x3F false).createEvent 7 0x2E =
        .ok [⟨7, 0, 0x3F &&& (0x3F ^^^ 0x2E), 0x2E &&& (0x3F ^^^ 0x2E)⟩] ∧
      0x3F ^^^ 0x2E ≠ 0) ∧
    (Joystick.mk 0 0x3F false).createEvent 7 0x2E = .ok [⟨7, 0, 0x11, 0⟩] :=
  ⟨by decide, by decide,
    (C10_createEvent_minimal_record (Joystick.mk 0 0x3F false) 7 0x2E (by decide)
      (by decide)).2.1,
    rfl⟩


/-! ## C11, C12, C13: signalStateChange -/

/-- C11: for all bytes `status`, `press` and `release`, `signalStateChange`
applied to a `JoyState` addressed to this joystick sets `status` to
`(status AND NOT press) OR release`, bit by bit; a bit position outside
`press OR release` keeps its value, and no field other than `status` changes. -/
theorem C11_signalStateChange_touches_only_carried_bits (j : Joystick) (js : JoyState)
    (hs : j.status < 256) (hp : js.press < 256) (hr : js.release < 256)
    (hj : js.joyNum = j.joyNum) :
    (j.signalStateChange (.joyState js)).joyNum = j.joyNum ∧
    (j.signalStateChange (.joyState js)).pin8 = j.pin8 ∧
    (j.signalStateChange (.joyState js)).status < 256 ∧
    (∀ i, (j.signalStateChange (.joyState js)).status.testBit i =
      ((j.status.testBit i && !js.press.testBit i) || js.release.testBit i)) ∧
    (∀ i, (js.press ||| js.release).testBit i = false →
      (j.signalStateChange (.joyState js)).status.testBit i = j.status.testBit i) := by
  have hst : (j.signalStateChange (.joyState js)).status =
      ((j.status &&& (2 ^ 32 - 1 - js.press)) ||| js.release) % 256 := by
    simp [Joystick.signalStateChange, hj]
  have hbits : ∀ i, (j.signalStateChange (.joyState js)).status.testBit i =
      ((j.status.testBit i && !js.press.testBit i) || js.release.testBit i) := by
    intro i
    rw [hst]
    exact applyMasks_byte _ _ _ i hs hp hr
  refine ⟨by simp [Joystick.signalStateChange, hj], by simp [Joystick.signalStateChange, hj],
    ?_, hbits, ?_⟩
  · rw [hst]
    exact Nat.mod_lt _ (by decide)
  · intro i hi
    rw [hbits i]
    rw [Nat.testBit_or] at hi
    cases hpi : js.press.testBit i <;> cases hri : js.release.testBit i <;>
      simp_all

theorem C11_witness :
    (Joystick.mk 0 0x3F false).status < 256 ∧
    (Joystick.mk 0 0x3F false).signalStateChange (.joyState ⟨7, 0, 0x11, 0⟩) =
      Joystick.mk 0 0x2E false ∧
    (∀ i, ((0x11 : Nat) ||| 0).testBit i = false →
      ((Joystick.mk 0 0x3F false).signalStateChange
        (.joyState ⟨7, 0, 0x11, 0⟩)).status.testBit i =
          (Joystick.mk 0 0x3F false).status.testBit i) :=
  ⟨by decide, by decide,
    (C11_signalStateChange_touches_only_carried_bits (Joystick.mk 0 0x3F false)
      ⟨7, 0, 0x11, 0⟩ (by decide) (by decide) (by decide) rfl).2.2.2.2⟩

/-- C12: for all bytes `status` and `newStatus` that differ, `createEvent(time,
newStatus)` builds one `JoyState`, and applying it with `signalStateChange`
leaves `status = newStatus` and every other field as it was; the same holds
for the record `stopReplay` builds from the live state `calcState()`. -/
theorem C12_createEvent_then_signalStateChange (j : Joystick) (time newStatus : Nat)
    (hs : j.status < 256) (hn : newStatus < 256) (hne : j.status ≠ newStatus) :
    ∃ js, j.createEvent time newStatus = .ok [js] ∧
      j.stopReplay time newStatus = .ok [js] ∧
      j.signalStateChange (.joyState js) = { j with status := newStatus } := by
  have hce := createEvent_of_ne j time newStatus hs hn (fun e => hne e.symm)
  refine ⟨_, hce, hce, ?_⟩
  have hst : ((j.status &&& (2 ^ 32 - 1 - (j.status &&& (j.status ^^^ newStatus)))) |||
      (newStatus &&& (j.status ^^^ newStatus))) % 256 = newStatus := by
    apply Nat.eq_of_testBit_eq
    intro i
    rw [applyMasks_byte _ _ _ i hs (byte_and_lt _ hs) (byte_and_lt _ hn)]
    simp only [Nat.testBit_and, Nat.testBit_xor]
    cases j.status.testBit i <;> cases newStatus.testBit i <;> rfl
  simp only [Joystick.signalStateChange, ne_eq, not_true_eq_false, if_false, hst]

theorem C12_witness :
    (Joystick.mk 0 0x3F false).status < 256 ∧ (0x2E : Nat) < 256 ∧
    (Joystick.mk 0 0x3F false).status ≠ 0x2E ∧
    ∃ js, (Joystick.mk 0 0x3F false).createEvent 7 0x2E = .ok [js] ∧
      (Joystick.mk 0 0x3F false).stopReplay 7 0x2E = .ok [js] ∧
      (Joystick.mk 0 0x3F false).signalStateChange (.joyState js) =
        { Joystick.mk 0 0x3F false with status := 0x2E } :=
  ⟨by decide, by decide, by decide,
    C12_createEvent_then_signalStateChange (Joystick.mk 0 0x3F false) 7 0x2E (by decide)
      (by decide) (by decide)⟩

/-- C13: `signalStateChange` leaves the joystick as it is, `status` and every
other field, when the incoming `StateChange` is not a `JoyState`, and when it
is a `JoyState` whose joystick number differs from this joystick's `joyNum`. -/
theorem C13_signalStateChange_ignores_other_records (j : Joystick) :
    (∀ time, j.signalStateChange (.other time) = j) ∧
    (∀ js : JoyState, js.joyNum ≠ j.joyNum → j.signalStateChange (.joyState js) = j) := by
  refine ⟨fun _ => rfl, ?_⟩
  intro js h
  simp [Joystick.signalStateChange, h]

theorem C13_witness :
    (Joystick.mk 0 0x3F false).signalStateChange (.joyState ⟨7, 1, 0x11, 0⟩) =
      Joystick.mk 0 0x3F false :=
  (C13_signalStateChange_ignores_other_records (Joystick.mk 0 0x3F false)).2
    ⟨7, 1, 0x11, 0⟩ (by decide)


/-! ## C14: ClockPin, closed form against simulation -/

/-- C15: for every byte sequence `d` of length below `2 ^ 32 - 64`, whatever
the buffer of the new object holds, `SHA1::calc(d)` returns (given the loop
rounds it needs) the SHA-1 digest that FIPS PUB 180-1 defines; and `calc`
of "abc" is A9993E36 4706816A BA3E2571 7850C26C 9CD0D89D, `calc` of
"abcdbcdecdefdefgefghfghighijhijkijkljklmklmnlmnomnopnopq" is
84983E44 1C3BD26E BAAE4AA1 F95129E5 E54670F1. -/
theorem C15_calc_is_fips_sha1 (junk d : List Nat) (fuel : Nat)
    (hlen : d.length < 2 ^ 32 - 64) (hf : d.length / 64 + 63 ≤ fuel) :
    SHA1.calc junk fuel d = .ok (fipsSha1 d) ∧
    SHA1.calc junk fuel (bytesOf "abc") =
      .ok ⟨0xA9993E36, 0x4706816A, 0xBA3E2571, 0x7850C26C, 0x9CD0D89D⟩ ∧
    SHA1.calc junk fuel (bytesOf "abcdbcdecdefdefgefghfghighijhijkijkljklmklmnlmnomnopnopq") =
      .ok ⟨0x84983E44, 0x1C3BD26E, 0xBAAE4AA1, 0xF95129E5, 0xE54670F1⟩ := by
  refine ⟨calc_spec junk d fuel (by omega) (by omega) (by omega), ?_, ?_⟩
  · have h0 : (bytesOf "abc").length / 64 = 0 := by decide
    rw [calc_spec junk _ fuel (by decide) (by omega) (by omega), fips_abc]
  · have h0 : (bytesOf
        "abcdbcdecdefdefgefghfghighijhijkijkljklmklmnlmnomnopnopq").length / 64 = 0 := by
      decide
    rw [calc_spec junk _ fuel (by decide) (by omega) (by omega), fips_two_blocks]

set_option maxRecDepth 100000 in
theorem C15_witness :
    (bytesOf "abc").length < 2 ^ 32 - 64 ∧ (bytesOf "abc").length / 64 + 63 ≤ 64 ∧
    SHA1.calc [] 64 (bytesOf "abc") = .ok (fipsSha1 (bytesOf "abc")) ∧
    SHA1.calc [] 64 (bytesOf "abc") =
      .ok ⟨0xA9993E36, 0x4706816A, 0xBA3E2571, 0x7850C26C, 0x9CD0D89D⟩ :=
  ⟨by decide, by decide,
    (C15_calc_is_fips_sha1 [] (bytesOf "abc") 64 (by decide) (by decide)).1, by rfl⟩


/-! ## C16: the data split over two calls of update -/

/-- C16, at `a` and `b` of `2 ^ 31` zero bytes each: a new object after
`update(a)`, `update(b)` returns from `digest()` the SHA-1 digest of `a ++ b`
(with `2 ^ 25` loop rounds or more), while `SHA1::calc(a ++ b)` returns
nothing, however many rounds its loop is given. -/
theorem C16_calc_of_joined_halves_never_returns :
    (∀ junk fuel, SHA1.digestAfterTwoUpdates junk (2 ^ 25 + fuel) twoGiB twoGiB =
      .ok (fipsSha1 (twoGiB ++ twoGiB))) ∧
    (∀ junk fuel, SHA1.calc junk fuel (twoGiB ++ twoGiB) = .error .fuel) := by
  have e31 : (2 : Nat) ^ 31 = 2147483648 := by norm_num
  have e32 : (2 : Nat) ^ 32 = 4294967296 := by norm_num
  have e25 : (2 : Nat) ^ 25 = 33554432 := by norm_num
  constructor
  · intro junk fuel
    exact two_updates_spec junk twoGiB twoGiB (2 ^ 25 + fuel)
      (by rw [twoGiB_length]; omega) (by rw [twoGiB_length]; omega)
      (by rw [twoGiB_length]; omega) (by rw [twoGiB_length]; omega) (by omega)
  · intro junk fuel
    exact calc_never_returns junk _ fuel
      (by rw [List.length_append, twoGiB_length]; omega)


/-! ## C17: calcWithProgress against calc -/

/-- C17, at a buffer of `2 ^ 32` zero bytes: `calcWithProgress` returns the
SHA-1 digest of the buffer (with `2 ^ 20` loop rounds or more), while
`SHA1::calc` on the same buffer returns nothing, however many rounds its loop
is given. -/
theorem C17_calc_never_returns_where_calcWithProgress_does :
    (∀ junk fuel, SHA1.calcWithProgress junk (2 ^ 20 + fuel) fourGiB =
      .ok (fipsSha1 fourGiB)) ∧
    (∀ junk fuel, SHA1.calc junk fuel fourGiB = .error .fuel) := by
  have e32 : (2 : Nat) ^ 32 = 4294967296 := by norm_num
  have e20 : (2 : Nat) ^ 20 = 1048576 := by norm_num
  constructor
  · intro junk fuel
    exact calcWithProgress_spec junk fourGiB (2 ^ 20 + fuel)
      (by rw [fourGiB_length]; omega) (by rw [fourGiB_length]; omega)
      (by rw [fourGiB_length]; omega) (by omega)
  · intro junk fuel
    exact calc_never_returns junk _ fuel (by rw [fourGiB_length])


/-! ## C18, C19: Sha1Sum and hex strings -/

/-- C18: for every `Sha1Sum` `s` (five 32-bit words), `toString()` returns
exactly 40 characters, each in `0-9` or `a-f`, and constructing a `Sha1Sum`
from that string gives `s` back (it compares equal with `operator==`);
conversely, for every string `x` of 40 hex digits, `Sha1Sum(x).toString()` is
`x` with the letters `A-F` converted to lower case. -/
theorem C18_toString_ofString_roundtrip :
    (∀ s : Sha1Sum, s.WellFormed →
      s.toString.length = 40 ∧ (∀ c ∈ s.toString, isLowerHexDigit c) ∧
      Sha1Sum.ofString s.toString = .ok s ∧ s.eq s = true) ∧
    (∀ x : List Nat, x.length = 40 → (∀ c ∈ x, isHexDigit c) →
      ∃ s, Sha1Sum.ofString x = .ok s ∧ s.toString = x.map toLowerHex) := by
  constructor
  · intro s hs
    obtain ⟨w0, w1, w2, w3, w4⟩ := hs
    have hlen : s.toString.length = 40 := by
      simp [toString_eq, toStringWord_length]
    have hlow : ∀ c ∈ s.toString, isLowerHexDigit c := by
      intro c hc
      rw [toString_eq] at hc
      simp only [List.mem_append, List.not_mem_nil, or_false] at hc
      rcases hc with h | h | h | h | h <;> exact toStringWord_lower _ c h
    refine ⟨hlen, hlow, ?_, ?_⟩
    · rw [ofString_ok _ hlen (fun c hc => isLowerHexDigit_isHexDigit (hlow c hc))]
      obtain ⟨c0, c1, c2, c3, c4⟩ := chunks_of_append _ _ _ _ _
        (toStringWord_length s.a0) (toStringWord_length s.a1) (toStringWord_length s.a2)
        (toStringWord_length s.a3) (toStringWord_length s.a4)
      rw [toString_eq, c0, c1, c2, c3, c4, hexNumber_toStringWord _ w0,
        hexNumber_toStringWord _ w1, hexNumber_toStringWord _ w2,
        hexNumber_toStringWord _ w3, hexNumber_toStringWord _ w4]
    · simp [Sha1Sum.eq]
  · intro x hlen hc
    refine ⟨_, ofString_ok x hlen hc, ?_⟩
    have hx := split40 x hlen
    have hsub : ∀ n, ∀ c ∈ (x.drop n).take 8, isHexDigit c :=
      fun n c h => hc c (List.mem_of_mem_drop (List.mem_of_mem_take h))
    rw [toString_eq]
    simp only
    rw [toStringWord_hexNumber _ (by simp [hlen]) (fun c h => hc c (List.mem_of_mem_take h)),
      toStringWord_hexNumber _ (by simp [hlen]) (hsub 8),
      toStringWord_hexNumber _ (by simp [hlen]) (hsub 16),
      toStringWord_hexNumber _ (by simp [hlen]) (hsub 24),
      toStringWord_hexNumber _ (by simp [hlen]) (hsub 32)]
    conv_rhs => rw [hx]
    simp only [List.map_append, List.append_nil]

theorem C18_witness :
    (Sha1Sum.mk 0xA9993E36 0x4706816A 0xBA3E2571 0x7850C26C 0x9CD0D89D).WellFormed ∧
    (Sha1Sum.mk 0xA9993E36 0x4706816A 0xBA3E2571 0x7850C26C 0x9CD0D89D).toString =
      bytesOf "a9993e364706816aba3e25717850c26c9cd0d89d" ∧
    Sha1Sum.ofString (Sha1Sum.mk 0xA9993E36 0x4706816A 0xBA3E2571 0x7850C26C
        0x9CD0D89D).toString =
      .ok (Sha1Sum.mk 0xA9993E36 0x4706816A 0xBA3E2571 0x7850C26C 0x9CD0D89D) ∧
    ∃ s, Sha1Sum.ofString (bytesOf "A9993E364706816ABA3E25717850C26C9CD0D89D") = .ok s ∧
      s.toString = (bytesOf "A9993E364706816ABA3E25717850C26C9CD0D89D").map toLowerHex :=
  ⟨by decide, by decide,
    (C18_toString_ofString_roundtrip.1 _ (by decide)).2.2.1,
    C18_toString_ofString_roundtrip.2 _ (by decide) (by decide)⟩

/-- C19: the constructor `Sha1Sum(str)` throws exactly when `str.size() != 40`
or some character of `str` is outside `0-9`, `a-f`, `A-F`; otherwise it yields
the value whose word `a[i]` is the number written by the hex digits
`8i .. 8i+7` of `str`, most significant digit first, which is below `2^32`. -/
theorem C19_ofString_throws_iff_malformed (str : List Nat) :
    (Sha1Sum.ofString str = .error .exception ↔
      (str.length ≠ 40 ∨ ∃ c ∈ str, ¬ isHexDigit c)) ∧
    (¬ (str.length ≠ 40 ∨ ∃ c ∈ str, ¬ isHexDigit c) →
      Sha1Sum.ofString str =
        .ok ⟨hexNumber (str.take 8), hexNumber ((str.drop 8).take 8),
          hexNumber ((str.drop 16).take 8), hexNumber ((str.drop 24).take 8),
          hexNumber ((str.drop 32).take 8)⟩ ∧
      ∀ n, hexNumber ((str.drop n).take 8) < 2 ^ 32) := by
  by_cases hlen : str.length = 40
  · by_cases hc : ∀ c ∈ str, isHexDigit c
    · have hok := ofString_ok str hlen hc
      have hno : ¬ (str.length ≠ 40 ∨ ∃ c ∈ str, ¬ isHexDigit c) := by
        rintro (h | ⟨c, hm, hn⟩)
        · exact h hlen
        · exact hn (hc c hm)
      refine ⟨⟨fun h => ?_, fun h => absurd h hno⟩, fun _ => ⟨hok, ?_⟩⟩
      · rw [hok] at h
        cases h
      · intro n
        have h := foldl_hex_lt ((str.drop n).take 8) 0 0
          (fun c hx => hc c (List.mem_of_mem_drop (List.mem_of_mem_take hx))) (by decide)
        have hl : ((str.drop n).take 8).length ≤ 8 := by
          rw [List.length_take]; exact Nat.min_le_left _ _
        calc hexNumber ((str.drop n).take 8) < 16 ^ (0 + ((str.drop n).take 8).length) := h
          _ ≤ 16 ^ 8 := Nat.pow_le_pow_right (by decide) (by omega)
          _ = 2 ^ 32 := by decide
    · have herr := ofString_error str hlen hc
      have hyes : str.length ≠ 40 ∨ ∃ c ∈ str, ¬ isHexDigit c := by
        right
        by_contra hn
        apply hc
        intro c hm
        by_contra hx
        exact hn ⟨c, hm, hx⟩
      exact ⟨⟨fun _ => hyes, fun _ => herr⟩, fun h => absurd hyes h⟩
  · have herr : Sha1Sum.ofString str = .error .exception := by
      simp [Sha1Sum.ofString, hlen]
    exact ⟨⟨fun _ => Or.inl hlen, fun _ => herr⟩, fun h => absurd (Or.inl hlen) h⟩

theorem C19_witness :
    ¬ ((bytesOf "A9993E364706816ABA3E25717850C26C9CD0D89D").length ≠ 40 ∨
      ∃ c ∈ bytesOf "A9993E364706816ABA3E25717850C26C9CD0D89D", ¬ isHexDigit c) ∧
    Sha1Sum.ofString (bytesOf "A9993E364706816ABA3E25717850C26C9CD0D89D") =
      .ok ⟨0xA9993E36, 0x4706816A, 0xBA3E2571, 0x7850C26C, 0x9CD0D89D⟩ ∧
    Sha1Sum.ofString (bytesOf "A9993E364706816ABA3E25717850C26C9CD0D89D") =
      .ok ⟨hexNumber ((bytesOf "A9993E364706816ABA3E25717850C26C9CD0D89D").take 8),
        hexNumber (((bytesOf "A9993E364706816ABA3E25717850C26C9CD0D89D").drop 8).take 8),
        hexNumber (((bytesOf "A9993E364706816ABA3E25717850C26C9CD0D89D").drop 16).take 8),
        hexNumber (((bytesOf "A9993E364706816ABA3E25717850C26C9CD0D89D").drop 24).take 8),
        hexNumber (((bytesOf "A9993E364706816ABA3E25717850C26C9CD0D89D").drop 32).take 8)⟩ ∧
    (Sha1Sum.ofString (bytesOf "A9993E364706816ABA3E25717850C26C9CD0D8") =
        .error .exception ↔
      ((bytesOf "A9993E364706816ABA3E25717850C26C9CD0D8").length ≠ 40 ∨
        ∃ c ∈ bytesOf "A9993E364706816ABA3E25717850C26C9CD0D8", ¬ isHexDigit c)) :=
  ⟨by decide, rfl,
    ((C19_ofString_throws_iff_malformed
      (bytesOf "A9993E364706816ABA3E25717850C26C9CD0D89D")).2 (by decide)).1,
    (C19_ofString_throws_iff_malformed (bytesOf "A9993E364706816ABA3E25717850C26C9CD0D8")).1⟩


/-! ## C20: fetchRomInfo -/

/-- C20: for every database vector sorted ascending by `Sha1Sum::operator<`
with pairwise distinct keys, and every `Sha1Sum` `h`, `fetchRomInfo(h)`
returns the `RomInfo` stored with key `h` when some entry has key `h` and
null otherwise; so the `software` info topic, given a well-formed sha1 string,
ends in "not found" exactly when no entry has that key. -/
theorem C20_fetchRomInfo_finds_exactly_present_keys {ρ : Type} (db : List (Sha1Sum × ρ))
    (h : Sha1Sum)
    (hs : db.Pairwise (fun x y => y.1.less x.1 = false))
    (hd : db.Pairwise (fun x y => x.1 ≠ y.1)) :
    (∀ r, (h, r) ∈ db → fetchRomInfo db h = some r) ∧
    ((∀ r, (h, r) ∉ db) → fetchRomInfo db h = none) ∧
    (∀ t0 t1 str, Sha1Sum.ofString str = .ok h →
      ((∃ text, softwareInfoExecute db [t0, t1, str] = .notFound text) ↔
        ∀ r, (h, r) ∉ db)) := by
  have hstrict := strictly_sorted db hs hd
  have hfound : ∀ r, (h, r) ∈ db → fetchRomInfo db h = some r :=
    fun r hm => fetchRomInfo_found db h r hstrict hm
  have hnone : (∀ r, (h, r) ∉ db) → fetchRomInfo db h = none := by
    intro hn
    cases hf : fetchRomInfo db h with
    | none => rfl
    | some r => exact absurd (fetchRomInfo_some db h r hf) (hn r)
  refine ⟨hfound, hnone, ?_⟩
  intro t0 t1 str hstr
  have hex : softwareInfoExecute db [t0, t1, str] =
      match fetchRomInfo db h with
      | none => .notFound h.toString
      | some romInfo => .found romInfo := by
    simp [softwareInfoExecute, hstr]
  rw [hex]
  constructor
  · rintro ⟨text, ht⟩ r hm
    rw [hfound r hm] at ht
    cases ht
  · intro hn
    rw [hnone hn]
    exact ⟨_, rfl⟩

theorem C20_witness :
    exampleDb.Pairwise (fun x y => y.1.less x.1 = false) ∧
    exampleDb.Pairwise (fun x y => x.1 ≠ y.1) ∧
    fetchRomInfo exampleDb ⟨0, 0, 0, 1, 0⟩ = some 101 ∧
    fetchRomInfo exampleDb ⟨0, 0, 0, 1, 1⟩ = none ∧
    (∀ r, (Sha1Sum.mk 0 0 0 1 0, r) ∈ exampleDb →
      fetchRomInfo exampleDb ⟨0, 0, 0, 1, 0⟩ = some r) :=
  ⟨by decide, by decide, by decide, by decide,
    (C20_fetchRomInfo_finds_exactly_present_keys exampleDb ⟨0, 0, 0, 1, 0⟩ (by decide)
      (by decide)).1⟩


/-! ## C21: RomAscii8kB -/

theorem ascii8_region (address : Nat) (h1 : 0x6000 ≤ address) (h2 : address < 0x8000) :
    (((address >>> 11) &&& 3) + 2) % 256 = 2 + (address - 0x6000) / 0x800 := by
  rw [Nat.shiftRight_eq_div_pow, show (3 : Nat) = 2 ^ 2 - 1 from rfl,
    Nat.and_pow_two_sub_one_eq_mod]
  omega

theorem writeMem_in_range (s : RomAscii8kB) (address value : Nat) (h1 : 0x6000 ≤ address)
    (h2 : address < 0x8000) :
    s.writeMem address value = s.setRom (2 + (address - 0x6000) / 0x800) value := by
  unfold RomAscii8kB.writeMem
  rw [if_pos ⟨h1, h2⟩]
  dsimp only
  rw [ascii8_region address h1 h2]

theorem writeMem_out_of_range (s : RomAscii8kB) (address value : Nat)
    (h : ¬ (0x6000 ≤ address ∧ address < 0x8000)) : s.writeMem address value = s := by
  unfold RomAscii8kB.writeMem
  rw [if_neg h]

theorem resetLoop_eq (s : RomAscii8kB) :
    RomAscii8kB.resetLoop 4 2 s = (((s.setRom 2 0).setRom 3 0).setRom 4 0).setRom 5 0 := rfl

theorem reset_bank (s : RomAscii8kB) (r : Nat) :
    s.reset.bank r =
      if r = 0 ∨ r = 1 ∨ r = 6 ∨ r = 7 then .unmapped
      else if r = 2 ∨ r = 3 ∨ r = 4 ∨ r = 5 then .rom 0
      else s.bank r := by
  unfold RomAscii8kB.reset
  simp only [resetLoop_eq, RomAscii8kB.setUnmapped, RomAscii8kB.setRom]
  split_ifs <;> first | rfl | omega

/-- C21: `RomAscii8kB::writeMem` with `0x6000 <= address < 0x8000` maps region
`2 + (address - 0x6000) div 0x800` (2 for 0x6000-0x67ff, 3 for 0x6800-0x6fff,
4 for 0x7000-0x77ff, 5 for 0x7800-0x7fff) to ROM block `value` and leaves the
other regions as they were; with any other address it changes no mapping;
`getWriteCacheLine` returns null exactly for the addresses on which `writeMem`
can change a mapping; after `reset` regions 2 to 5 map block 0 and regions 0,
1, 6 and 7 are unmapped. -/
theorem C21_writeMem_switches_one_region (s : RomAscii8kB) (address value : Nat) :
    (0x6000 ≤ address ∧ address < 0x8000 →
      (s.writeMem address value).bank (2 + (address - 0x6000) / 0x800) = .rom value ∧
      ∀ r, r ≠ 2 + (address - 0x6000) / 0x800 →
        (s.writeMem address value).bank r = s.bank r) ∧
    ((0x6000 ≤ address ∧ address ≤ 0x67ff → 2 + (address - 0x6000) / 0x800 = 2) ∧
     (0x6800 ≤ address ∧ address ≤ 0x6fff → 2 + (address - 0x6000) / 0x800 = 3) ∧
     (0x7000 ≤ address ∧ address ≤ 0x77ff → 2 + (address - 0x6000) / 0x800 = 4) ∧
     (0x7800 ≤ address ∧ address ≤ 0x7fff → 2 + (address - 0x6000) / 0x800 = 5)) ∧
    (¬ (0x6000 ≤ address ∧ address < 0x8000) → s.writeMem address value = s) ∧
    (RomAscii8kB.getWriteCacheLine address = .nullptr ↔
      ∃ (t : RomAscii8kB) (v r : Nat), (t.writeMem address v).bank r ≠ t.bank r) ∧
    (∀ r, 2 ≤ r ∧ r ≤ 5 → s.reset.bank r = .rom 0) ∧
    (∀ r, r = 0 ∨ r = 1 ∨ r = 6 ∨ r = 7 → s.reset.bank r = .unmapped) := by
  refine ⟨?_, ⟨?_, ?_, ?_, ?_⟩, writeMem_out_of_range s address value, ?_, ?_, ?_⟩
  · rintro ⟨h1, h2⟩
    rw [writeMem_in_range s address value h1 h2]
    constructor
    · simp [RomAscii8kB.setRom]
    · intro r hr
      simp [RomAscii8kB.setRom, hr]
  · omega
  · omega
  · omega
  · omega
  · constructor
    · intro hn
      have hr : 0x6000 ≤ address ∧ address < 0x8000 := by
        by_contra hc
        simp [RomAscii8kB.getWriteCacheLine, hc] at hn
      refine ⟨RomAscii8kB.blank, 0, 2 + (address - 0x6000) / 0x800, ?_⟩
      rw [writeMem_in_range _ address 0 hr.1 hr.2]
      simp [RomAscii8kB.setRom, RomAscii8kB.blank]
    · rintro ⟨t, v, r, hne⟩
      by_contra hc
      have hr : ¬ (0x6000 ≤ address ∧ address < 0x8000) := by
        intro hin
        simp [RomAscii8kB.getWriteCacheLine, hin] at hc
      rw [writeMem_out_of_range t address v hr] at hne
      exact hne rfl
  · intro r hr
    rw [reset_bank]
    have h1 : ¬ (r = 0 ∨ r = 1 ∨ r = 6 ∨ r = 7) := by omega
    have h2 : r = 2 ∨ r = 3 ∨ r = 4 ∨ r = 5 := by omega
    rw [if_neg h1, if_pos h2]
  · intro r hr
    rw [reset_bank, if_pos hr]

theorem C21_witness :
    (RomAscii8kB.blank.reset.writeMem 0x6800 5).bank 3 = .rom 5 ∧
    (RomAscii8kB.blank.reset.writeMem 0x6800 5).bank 2 = .rom 0 ∧
    (RomAscii8kB.blank.reset.writeMem 0x6800 5).bank 6 = .unmapped ∧
    RomAscii8kB.blank.reset.writeMem 0x8000 5 = RomAscii8kB.blank.reset ∧
    RomAscii8kB.getWriteCacheLine 0x7fff = .nullptr ∧
    RomAscii8kB.getWriteCacheLine 0x8000 = .unmappedWrite :=
  ⟨((C21_writeMem_switches_one_region RomAscii8kB.blank.reset 0x6800 5).1
      (by decide)).1,
    by decide, by decide,
    (C21_writeMem_switches_one_region RomAscii8kB.blank.reset 0x8000 5).2.2.1 (by decide),
    by decide, by decide⟩


/-! ## C22: the database after addAllEntries is sorted strictly -/

/-- C22, at the database of one old entry (key 1) and two new entries with the
same SHA1 (key 5), `initialSize` 1: the old entries are sorted without
duplicates, and `addAllEntries` ends with no database at all: after
`db.erase(it1 + 1, last)` the merge still runs up to the old `last` and reads
the erased entry.  This is so for every sort that the library may provide and
however many rounds the loops are given.  With the second new entry given key 7
instead, the database comes out sorted strictly. -/
theorem C22_addAllEntries_reads_erased_entry :
    StrictlySorted (dbTwoEqualNew.take 1) ∧
    (∀ fuel, addAllEntries sortByKey (fuel + 3) dbTwoEqualNew 1 = .error .pastTheEnd) ∧
    (∀ sort, SortsByKey sort → ∀ fuel, ∃ f, addAllEntries sort fuel dbTwoEqualNew 1 = .error f) ∧
    (∀ fuel, addAllEntries sortByKey (fuel + 3) [(key 1, 10), (key 5, 50), (key 7, 51)] 1 =
      .ok [(key 1, 10), (key 5, 50), (key 7, 51)]) := by
  refine ⟨by unfold StrictlySorted; decide, fun fuel => rfl, ?_, fun fuel => rfl⟩
  intro sort hsort fuel
  exact addAllEntries_never_returns sort hsort dbTwoEqualNew 1 (by decide) (by decide)
    (by decide) fuel


/-! ## C23: the keys after addAllEntries -/

/-- C23, at the database of one old entry (key 5) and new entries with keys 1,
1 and 5, `initialSize` 1: `addAllEntries` ends with no database at all, for
every sort that the library may provide and however many rounds the loops are
given: the merge runs up to the `last` of before `erase` and reads the erased
entry.  With new entries of keys 1, 3 and 5 instead, the database has the keys
1, 3 and 5 and keeps the old entry for key 5. -/
theorem C23_addAllEntries_loses_the_database :
    (∀ fuel, addAllEntries sortByKey (fuel + 4) dbOldKeyAmongNew 1 = .error .pastTheEnd) ∧
    (∀ sort, SortsByKey sort → ∀ fuel,
      ∃ f, addAllEntries sort fuel dbOldKeyAmongNew 1 = .error f) ∧
    (∀ fuel, addAllEntries sortByKey (fuel + 4)
        [(key 5, 50), (key 1, 10), (key 3, 11), (key 5, 51)] 1 =
      .ok [(key 1, 10), (key 3, 11), (key 5, 50)]) := by
  refine ⟨fun fuel => rfl, ?_, fun fuel => rfl⟩
  intro sort hsort fuel
  exact addAllEntries_never_returns sort hsort dbOldKeyAmongNew 1 (by decide) (by decide)
    (by decide) fuel

end openmsx
